import Mathlib

/-! # Verification of the ABC decoder (package `abc`)

A shallow embedding of `decoder.go`, `informationFields.go`, `lexerChecker.go`
and `measures.go`.

Modelling conventions.

* A byte is a natural number (below 256); a Go `string` or `[]byte` is a
  `List Nat`.
* `bufio.Reader` over a finite stream is the list of bytes not yet consumed
  together with the `lastByte` register that `UnreadByte` consults.
* `float64` values are modelled exactly: a finite non-negative double is its
  IEEE mantissa and exponent, and every arithmetic operation rounds to nearest,
  ties to even.
* A Go function returning `error` yields an `Out`: `ok` (nil error), `err`
  (non-nil error), `panic` (run-time panic such as an index out of range) or
  `timeout` (the loop budget of the model ran out).  The decoder state is kept
  in `ok` and `err`, because the callers of `Decode` can observe it afterwards.
* Output written with `fmt.Println` is not modelled.
-/

namespace Abc

/-! ## Bytes and text -/

/-- The bytes of an ASCII text. -/
def bytes (s : String) : List Nat := s.toList.map Char.toNat

/-- The regular expression `[0-9]` on one byte. -/
def isDigitByte (b : Nat) : Bool := decide (48 ≤ b) && decide (b ≤ 57)

/-- The regular expression `[a-gA-G]` on one byte. -/
def isPitchLetter (b : Nat) : Bool :=
  (decide (97 ≤ b) && decide (b ≤ 103)) || (decide (65 ≤ b) && decide (b ≤ 71))

/-- The regular expression `[',]` on one byte. -/
def isOctaveMark (b : Nat) : Bool := decide (b = 39) || decide (b = 44)

/-- Value of a run of decimal digits, most significant first. -/
def natOfDigits (ds : List Nat) : Nat := ds.foldl (fun acc b => 10 * acc + (b - 48)) 0

/-! ## float64 -/

/-- A non-negative `float64`: `fin m q` is the number `m * 2 ^ q` in IEEE form
(`2^52 ≤ m < 2^53` and `-1074 ≤ q ≤ 971`, or `m < 2^52` and `q = -1074`). -/
inductive F64 where
  | fin (m : Nat) (q : Int)
  | inf
  | nan
  deriving DecidableEq, Repr

namespace F64

/-- Round the fraction `n / d` to the nearest integer, ties to even. -/
def roundHalfEven (n d : Nat) : Nat :=
  let f := n / d
  let r := n % d
  if 2 * r < d then f else if d < 2 * r then f + 1 else if f % 2 = 0 then f else f + 1

/-- The integer nearest to `(n / d) * 2 ^ k`, ties to even. -/
def scaleRound (n d : Nat) (k : Int) : Nat :=
  if 0 ≤ k then roundHalfEven (n * 2 ^ k.toNat) d else roundHalfEven n (d * 2 ^ (-k).toNat)

/-- Whether `(n / d) * 2 ^ k < 2 ^ 52`. -/
def scaledBelow (n d : Nat) (k : Int) : Bool :=
  if 0 ≤ k then decide (n * 2 ^ k.toNat < 2 ^ 52 * d) else decide (n < 2 ^ 52 * (d * 2 ^ (-k).toNat))

/-- Binary logarithm rounded down, by repeated halving (`budget` bounds the number of halvings). -/
def log2Aux : Nat → Nat → Nat
  | 0, _ => 0
  | budget + 1, n => if n < 2 then 0 else log2Aux budget (n / 2) + 1

/-- Binary logarithm rounded down (`0` for `0`). -/
def log2 (n : Nat) : Nat := log2Aux n n

/-- The double nearest to `(n / d) * 2 ^ s` (round to nearest, ties to even), `d > 0`. -/
def round (n d : Nat) (s : Int) : F64 :=
  if n = 0 then fin 0 (-1074) else
  -- `e1` or `e1 - 1` is the binary exponent of the value
  let e1 : Int := (log2 n : Int) - (log2 d : Int) + s
  let q1 : Int := max (e1 - 52) (-1074)
  let q : Int := if scaledBelow n d (s - q1) then max (q1 - 1) (-1074) else q1
  let m := scaleRound n d (s - q)
  let mq : Nat × Int := if m = 2 ^ 53 then (2 ^ 52, q + 1) else (m, q)
  if 971 < mq.2 then inf else fin mq.1 mq.2

/-- The double `0`. -/
def zero : F64 := fin 0 (-1074)

/-- The double `1`. -/
def one : F64 := fin (2 ^ 52) (-52)

/-- Conversion of an integer, as `strconv.ParseFloat` rounds it. -/
def ofNat (n : Nat) : F64 := round n 1 0

/-- IEEE division of non-negative doubles. -/
def div : F64 → F64 → F64
  | nan, _ => nan
  | _, nan => nan
  | inf, inf => nan
  | inf, fin _ _ => inf
  | fin _ _, inf => zero
  | fin m q, fin m2 q2 =>
    if m2 = 0 then (if m = 0 then nan else inf) else round m m2 (q - q2)

/-- IEEE multiplication by the constant `2.0`. -/
def double : F64 → F64
  | fin m q => round m 1 (q + 1)
  | x => x

/-- IEEE division by the constant `2.0`. -/
def half : F64 → F64
  | fin m q => round m 1 (q - 1)
  | x => x

/-- The rational value of a finite double. -/
def toRat : F64 → Option ℚ
  | fin m q => some ((m : ℚ) * (2 : ℚ) ^ q)
  | _ => none

end F64

/-- The call `strconv.ParseFloat(s, 64)` on a non-empty run of decimal digits:
the nearest double, or `none` for the range error. -/
def parseFloatDigits (ds : List Nat) : Option F64 :=
  match F64.ofNat (natOfDigits ds) with
  | F64.fin m q => some (F64.fin m q)
  | _ => none

/-! ## Library routines of `strings` and `strconv` -/

/-- The UTF-8 encodings of the code points for which `unicode.IsSpace` holds. -/
def spaceRunes : List (List Nat) :=
  [[9], [10], [11], [12], [13], [32], [0xC2, 0x85], [0xC2, 0xA0], [0xE1, 0x9A, 0x80],
   [0xE2, 0x80, 0x80], [0xE2, 0x80, 0x81], [0xE2, 0x80, 0x82], [0xE2, 0x80, 0x83],
   [0xE2, 0x80, 0x84], [0xE2, 0x80, 0x85], [0xE2, 0x80, 0x86], [0xE2, 0x80, 0x87],
   [0xE2, 0x80, 0x88], [0xE2, 0x80, 0x89], [0xE2, 0x80, 0x8A], [0xE2, 0x80, 0xA8],
   [0xE2, 0x80, 0xA9], [0xE2, 0x80, 0xAF], [0xE2, 0x81, 0x9F], [0xE3, 0x80, 0x80]]

/-- Whether `w` is an initial segment of `s`. -/
def startsWith : List Nat → List Nat → Bool
  | [], _ => true
  | _ :: _, [] => false
  | a :: w, b :: s => decide (a = b) && startsWith w s

/-- Drop one leading white-space rune, if there is one. -/
def dropSpaceRune (s : List Nat) : Option (List Nat) :=
  (spaceRunes.find? (fun w => startsWith w s)).map (fun w => s.drop w.length)

/-- Drop leading white space (at most `n` runes). -/
def trimLeftAux : Nat → List Nat → List Nat
  | 0, s => s
  | n + 1, s =>
    match dropSpaceRune s with
    | some t => trimLeftAux n t
    | none => s

/-- The function `strings.TrimLeftFunc(s, unicode.IsSpace)`. -/
def trimLeft (s : List Nat) : List Nat := trimLeftAux s.length s

/-- Drop one trailing white-space rune of a text given in reverse, if there is one. -/
def dropSpaceRuneRev (s : List Nat) : Option (List Nat) :=
  (spaceRunes.find? (fun w => startsWith w.reverse s)).map (fun w => s.drop w.length)

/-- Drop trailing white space of a text given in reverse (at most `n` runes). -/
def trimRightAux : Nat → List Nat → List Nat
  | 0, s => s
  | n + 1, s =>
    match dropSpaceRuneRev s with
    | some t => trimRightAux n t
    | none => s

/-- The function `strings.TrimRightFunc(s, unicode.IsSpace)`. -/
def trimRight (s : List Nat) : List Nat := (trimRightAux s.length s.reverse).reverse

/-- The function `strings.TrimSpace`: all leading and trailing white space removed. -/
def TrimSpace (s : List Nat) : List Nat := trimRight (trimLeft s)

/-- The function `strings.IndexByte`; `none` stands for `-1`. -/
def IndexByte : List Nat → Nat → Option Nat
  | [], _ => none
  | b :: t, c => if b = c then some 0 else (IndexByte t c).map (· + 1)

/-- The call `strconv.ParseUint(s, 10, 64)`; `none` stands for an error. -/
def ParseUint (s : List Nat) : Option Nat :=
  if s = [] then none
  else if s.all isDigitByte then
    (if natOfDigits s < 2 ^ 64 then some (natOfDigits s) else none)
  else none

/-- The call `strconv.ParseInt(s, 10, 64)`; `none` stands for an error. -/
def ParseInt (s : List Nat) : Option Int :=
  match s with
  | [] => none
  | c :: t =>
    let neg : Bool := decide (c = 45)
    let body : List Nat := if c = 43 ∨ c = 45 then t else c :: t
    if body = [] then none
    else if body.all isDigitByte then
      (if neg then (if natOfDigits body ≤ 2 ^ 63 then some (-(natOfDigits body : Int)) else none)
       else (if natOfDigits body < 2 ^ 63 then some (natOfDigits body : Int) else none))
    else none

/-- The conversion `uint64(num)` of an `int64`. -/
def toUint64 (i : Int) : Nat := (i % (2 ^ 64 : Int)).toNat

/-! ## The document model (`measures.go`, `decoder.go`) -/

/-- The type of functions that return only an `error`. -/
abbrev NoValue : Type := PUnit

/-- Note holds the information of a single note in music. -/
structure Note where
  Value : List Nat
  Duration : F64
  deriving DecidableEq, Repr

/-- Unit is implemented by either chord, note or rest. -/
inductive Unit where
  | note (n : Note)
  | rest (Duration : F64)
  | chord (notes : List Note) (Value : List Nat) (Duration : F64)
  deriving DecidableEq, Repr

/-- The method `GetDuration`. -/
def Unit.GetDuration : Unit → F64
  | .note n => n.Duration
  | .rest x => x
  | .chord _ _ x => x

/-- The method `SetDuration`. -/
def Unit.SetDuration (f : F64) : Unit → Unit
  | .note n => .note { n with Duration := f }
  | .rest _ => .rest f
  | .chord ns v _ => .chord ns v f

/-- NoteGroup denotes one group of notes that should be paired using a beam. -/
structure NoteGroup where
  Units : List Unit := []
  deriving DecidableEq, Repr

/-- Measure is just one measure of the song. -/
structure Measure where
  MeterTop : Nat := 0
  MeterBottom : Nat := 0
  RepeatStart : Bool := false
  RepeatEnd : Bool := false
  ThickStart : Bool := false
  ThickEnd : Bool := false
  BarlineStart : Bool := false
  NoteGroups : List NoteGroup := []
  deriving DecidableEq, Repr

/-- Tune is a tune in an ABC file. -/
structure Tune where
  ReferenceNumber : Nat := 0
  Title : List Nat := []
  Area : List Nat := []
  Book : List Nat := []
  Composer : List Nat := []
  Discography : List Nat := []
  FileURL : List Nat := []
  Group : List Nat := []
  History : List Nat := []
  Key : List Nat := []
  UnitNoteLength : List Nat := []
  MeterTop : Nat := 0
  MeterBottom : Nat := 0
  Macro : List Nat := []
  NoteText : List Nat := []
  Origin : List Nat := []
  Parts : List Nat := []
  Tempo : List Nat := []
  Rhythm : List Nat := []
  Remark : List Nat := []
  Source : List Nat := []
  UserDefined : List Nat := []
  Voice : List Nat := []
  Words : List Nat := []
  Transcription : List Nat := []
  Measures : List Measure := []
  deriving DecidableEq, Repr

/-- The state of a `bufio.Reader` over a finite stream: the bytes not yet
consumed, and the `lastByte` register (`none` for `-1`). -/
structure Reader where
  buf : List Nat
  lastByte : Option Nat := none
  deriving DecidableEq, Repr

/-- Decoder contains structured ABC-file information after decoding. -/
structure Decoder where
  r : Reader
  fileCheck : Bool := false
  inFileHeader : Bool := false
  tuneHeaderDone : Bool := false
  lastInformationField : List Nat := []
  halveDuration : Bool := false
  doubleDuration : Bool := false
  Version : F64 := F64.zero
  Area : List Nat := []
  Book : List Nat := []
  Composer : List Nat := []
  Discography : List Nat := []
  FileURL : List Nat := []
  Group : List Nat := []
  History : List Nat := []
  UnitNoteLength : List Nat := []
  MeterTop : Nat := 0
  MeterBottom : Nat := 0
  Macro : List Nat := []
  NoteText : List Nat := []
  Origin : List Nat := []
  Rhythm : List Nat := []
  Remark : List Nat := []
  Source : List Nat := []
  UserDefined : List Nat := []
  Transcription : List Nat := []
  Tunes : List Tune := []
  deriving DecidableEq, Repr

/-- The result of a method of the decoder. -/
inductive Out (α : Type) where
  | ok (a : α) (d : Decoder)
  | err (d : Decoder)
  | panic
  | timeout
  deriving DecidableEq, Repr

/-- Apply `f` to the last element of a list. -/
def updLast {α : Type} (f : α → α) : List α → List α
  | [] => []
  | [a] => [f a]
  | a :: b :: t => a :: updLast f (b :: t)

/-! ## `bufio.Reader` -/

/-- The method `Peek(n)`: the next `n` bytes (fewer at the end of the stream)
and whether there were `n`. -/
def Reader.Peek (r : Reader) (n : Nat) : List Nat × Bool × Reader :=
  (r.buf.take n, decide (n ≤ r.buf.length), { r with lastByte := none })

/-- The method `ReadByte`; `none` at the end of the stream. -/
def Reader.ReadByte (r : Reader) : Option Nat × Reader :=
  match r.buf with
  | [] => (none, r)
  | b :: t => (some b, { buf := t, lastByte := some b })

/-- The method `UnreadByte`, its error ignored as every caller does. -/
def Reader.UnreadByte (r : Reader) : Reader :=
  match r.lastByte with
  | none => r
  | some b => { buf := b :: r.buf, lastByte := none }

/-- Split a stream after the first occurrence of `delim`. -/
def splitAfter (delim : Nat) : List Nat → Option (List Nat × List Nat)
  | [] => none
  | b :: t =>
    if b = delim then some ([b], t)
    else match splitAfter delim t with
      | none => none
      | some (l, rest) => some (b :: l, rest)

/-- The method `ReadBytes(delim)`: the bytes up to and including `delim` and
`true`, or all remaining bytes and `false` when the stream ends first. -/
def Reader.ReadBytes (r : Reader) (delim : Nat) : List Nat × Bool × Reader :=
  match splitAfter delim r.buf with
  | some (l, rest) => (l, true, { buf := rest, lastByte := some delim })
  | none => (r.buf, false, { buf := [], lastByte := if r.buf = [] then r.lastByte else r.buf.getLast? })

/-! ## The token classifier (`lexerChecker.go`)

A classifier returns `none` where the Go code indexes the token out of range. -/

/-- Short-circuit `||` of two classifier results. -/
def por (a b : Option Bool) : Option Bool :=
  match a with
  | none => none
  | some true => some true
  | some false => b

/-- The function `peekLexToken`: the token of `Peek(2)` and whether it succeeded. -/
def peekLexToken (r : Reader) : List Nat × Bool × Reader := r.Peek 2

/-- The method `isComment`. -/
def isComment (t : List Nat) : Option Bool := t.head?.map (fun b => decide (b = 37))

/-- The method `isBrokenRhythm`. -/
def isBrokenRhythm (t : List Nat) : Option Bool :=
  t.head?.map (fun b => decide (b = 60) || decide (b = 62))

/-- The method `isNewline`. -/
def isNewline (t : List Nat) : Option Bool := t.head?.map (fun b => decide (b = 10))

/-- The method `isSpace`. -/
def isSpace (t : List Nat) : Option Bool := t.head?.map (fun b => decide (b = 32))

/-- The method `isAnnotation`. -/
def isAnnotation (t : List Nat) : Option Bool := t.head?.map (fun b => decide (b = 34))

/-- The method `isChord`: the regular expression is tried first, so no index fails. -/
def isChord (t : List Nat) : Option Bool :=
  some (t.any isPitchLetter && decide (t.head? = some 91))

/-- The method `isBarline`. -/
def isBarline (t : List Nat) : Option Bool :=
  t.head?.map (fun b => decide (b = 124) || decide (t = [124, 124]) || decide (t = [91, 124])
    || decide (t = [124, 93]) || decide (t = [58, 124]) || decide (t = [124, 58]))

/-- The method `isInline`. -/
def isInline (t : List Nat) : Option Bool :=
  match t with
  | [] => none
  | b :: rest =>
    if b = 91 then (match rest with
      | [] => none
      | c :: _ => some (decide (c ≠ 124)))
    else some false

/-- The method `isRepeat`. -/
def isRepeat (t : List Nat) : Option Bool :=
  match t with
  | [] => none
  | b :: rest =>
    if b = 91 then (match rest with
      | [] => none
      | c :: _ => some (decide (c = 49) || decide (c = 50)))
    else some false

/-- The method `isRest`. -/
def isRest (t : List Nat) : Option Bool := t.head?.map (fun b => decide (b = 122))

/-- The method `isPitch`: the regular expression `[',a-gA-G]` on the first byte. -/
def isPitch (t : List Nat) : Option Bool :=
  t.head?.map (fun b => isOctaveMark b || isPitchLetter b)

/-- The method `isDigit`. -/
def isDigit (t : List Nat) : Option Bool := t.head?.map isDigitByte

/-- The method `isNote`. -/
def isNote (t : List Nat) : Option Bool := por (isRest t) (isPitch t)

/-- The method `isElement`. -/
def isElement (t : List Nat) : Option Bool :=
  por (isNote t) (por ( isAnnotation t) (por (isBarline t) (por (isSpace t)
    (por (isInline t) (por (isRepeat t) (por (isChord t) (isBrokenRhythm t)))))))

/-- The method `isTuneBodyInfoField`: the regular expression `[A-Zw]:` on the token. -/
def isTuneBodyInfoField (t : List Nat) : Bool :=
  match t with
  | [b, c] => ((decide (65 ≤ b) && decide (b ≤ 90)) || decide (b = 119)) && decide (c = 58)
  | _ => false

/-! ## Stream primitives of the decoder (`decoder.go`) -/

/-- The method `readInline`. -/
def readInline (d : Decoder) : Out (List Nat) :=
  match d.r.Peek 1 with
  | (b, okp, r1) =>
    if !okp then .err { d with r := r1 }
    else if b.head? ≠ some 91 then .ok [] { d with r := r1 }
    else match r1.ReadBytes 93 with
      | (l, okr, r2) =>
        if !okr then .err { d with r := r2 } else .ok l.dropLast { d with r := r2 }

/-- The method `readMagicNumber`; `pf` is `strconv.ParseFloat(·, 32)` followed by
the conversion to `float32`, `none` for its error. -/
def readMagicNumber (pf : List Nat → Option F64) (d : Decoder) : Out NoValue :=
  match d.r.ReadBytes 10 with
  | (line, okr, r1) =>
    if !okr then .err { d with r := r1 }
    else if line.length ≤ 4 then .err { d with r := r1 }
    else if line.take 4 ≠ [37, 97, 98, 99] then .err { d with r := r1 }
    else if line.length - 1 < 5 then .panic
    else
      let version := (line.take (line.length - 1)).drop 5
      if version.length ≠ 0 then
        match pf version with
        | none => .err { d with r := r1 }
        | some v => .ok ⟨⟩ { d with r := r1, Version := v }
      else .ok ⟨⟩ { d with r := r1 }

/-- The comment start that `readLine` computes: the index of the first `%`,
or the index of the last byte. -/
def commentStart (b : List Nat) : Nat :=
  match IndexByte b 37 with
  | some i => i
  | none => b.length - 1

/-- The method `readLine`: reads a line and trims the comment. -/
def readLine (d : Decoder) : Out (List Nat) :=
  match d.r.ReadBytes 10 with
  | (b, okr, r1) =>
    if !okr then .err { d with r := r1 }
    else if commentStart b ≠ b.length - 1 then
      .ok (TrimSpace (b.take (commentStart b))) { d with r := r1 }
    else .ok (TrimSpace (b.take (b.length - 1))) { d with r := r1 }

/-- The recursion of `skipComments`; every call consumes a byte, so the length
of the stream bounds the depth. -/
def skipCommentsAux : Nat → Reader → Reader
  | 0, r => (r.Peek 1).2.2
  | n + 1, r =>
    match r.Peek 1 with
    | (b, _, r1) => if b = [37] then skipCommentsAux n (r1.ReadBytes 10).2.2 else r1

/-- The method `skipComments`. -/
def skipComments (d : Decoder) : Decoder :=
  { d with r := skipCommentsAux d.r.buf.length d.r }

/-- The function `NewDecoder` on a reader over the stream `input`. -/
def NewDecoder (input : List Nat) (disableFileCheck : Bool) : Decoder :=
  { r := { buf := input }, fileCheck := disableFileCheck }

/-- The method `skipBOM`: `ReadRune`, then `UnreadRune` unless the rune is U+FEFF. -/
def skipBOM (d : Decoder) : Out NoValue :=
  match d.r.buf with
  | [] => .err d
  | 0xEF :: 0xBB :: 0xBF :: rest => .ok ⟨⟩ { d with r := { buf := rest, lastByte := some 0xBF } }
  | _ => .ok ⟨⟩ { d with r := { d.r with lastByte := none } }

/-! ## The information-field dispatcher (`informationFields.go`) -/

/-- The assignment `d.Tunes[len(d.Tunes)-1].F = v`, which panics without a tune. -/
def setLastTune (f : Tune → Tune) (d : Decoder) : Out NoValue :=
  if d.Tunes = [] then .panic else .ok ⟨⟩ { d with Tunes := updLast f d.Tunes }

/-- The `M` case of the switch of `readInformationField`. -/
def meterField (line : List Nat) (d : Decoder) : Out NoValue :=
  match IndexByte line 47 with
  | none => .err d
  | some divisor =>
    match ParseUint (line.take divisor) with
    | none => .err d
    | some top =>
      match ParseUint (line.drop (divisor + 1)) with
      | none => .err d
      | some bottom =>
        if d.inFileHeader then .ok ⟨⟩ { d with MeterTop := top, MeterBottom := bottom }
        else match d.Tunes.getLast? with
          | none => .panic
          | some current =>
            if !d.tuneHeaderDone then
              .ok ⟨⟩ { d with
                Tunes := updLast (fun t => { t with MeterTop := top, MeterBottom := bottom }) d.Tunes }
            else if current.Measures = [] then .panic
            else .ok ⟨⟩ { d with
                Tunes := updLast (fun t => { t with
                  Measures := updLast (fun m => { m with MeterTop := top, MeterBottom := bottom })
                                t.Measures }) d.Tunes }

/-- The `+` case of the switch of `readInformationField`. -/
def continuationField (line : List Nat) (d : Decoder) : Out NoValue :=
  if d.lastInformationField = [68] then
    (if d.inFileHeader then .ok ⟨⟩ { d with Discography := d.Discography ++ 10 :: line }
     else setLastTune (fun t => { t with Discography := t.Discography ++ 10 :: line }) d)
  else if d.lastInformationField = [72] then
    (if d.inFileHeader then .ok ⟨⟩ { d with History := d.History ++ 10 :: line }
     else setLastTune (fun t => { t with History := t.History ++ 10 :: line }) d)
  else if d.lastInformationField = [87] ∨ d.lastInformationField = [119] then
    setLastTune (fun t => { t with Words := t.Words ++ 10 :: line }) d
  else .ok ⟨⟩ d

/-- The switch of `readInformationField` on the field letter `c`, in the order
of the source; `line` is the text after the colon. -/
def dispatchField (c : Nat) (line : List Nat) (d : Decoder) : Out NoValue :=
  if c = 73 then .ok ⟨⟩ d
  else if c = 75 then
    setLastTune (fun t => { t with Key := line }) { d with tuneHeaderDone := true }
  else if c = 76 then .ok ⟨⟩ d
  else if c = 77 then meterField line d
  else if c = 109 then .ok ⟨⟩ d
  else if c = 81 then .ok ⟨⟩ d
  else if c = 115 then .ok ⟨⟩ d
  else if c = 85 then .ok ⟨⟩ d
  else if c = 88 then
    match ParseInt line with
    | none => .err { d with tuneHeaderDone := false }
    | some num =>
      .ok ⟨⟩ { d with tuneHeaderDone := false,
                      Tunes := d.Tunes ++ [{ ReferenceNumber := toUint64 num }] }
  else if c = 86 then .ok ⟨⟩ d
  else if c = 80 then .ok ⟨⟩ d
  else if c = 43 then continuationField line d
  else if c = 65 then
    (if d.inFileHeader then .ok ⟨⟩ { d with Area := line }
     else setLastTune (fun t => { t with Area := line }) d)
  else if c = 66 then
    (if d.inFileHeader then .ok ⟨⟩ { d with Book := line }
     else setLastTune (fun t => { t with Book := line }) d)
  else if c = 67 then
    (if d.inFileHeader then .ok ⟨⟩ { d with Composer := line }
     else setLastTune (fun t => { t with Composer := line }) d)
  else if c = 68 then
    (if d.inFileHeader then .ok ⟨⟩ { d with lastInformationField := [c], Discography := line }
     else setLastTune (fun t => { t with Discography := line })
       { d with lastInformationField := [c] })
  else if c = 70 then
    (if d.inFileHeader then .ok ⟨⟩ { d with FileURL := line }
     else setLastTune (fun t => { t with FileURL := line }) d)
  else if c = 71 then
    (if d.inFileHeader then .ok ⟨⟩ { d with Group := line }
     else setLastTune (fun t => { t with Group := line }) d)
  else if c = 72 then
    (if d.inFileHeader then .ok ⟨⟩ { d with lastInformationField := [c], History := line }
     else setLastTune (fun t => { t with History := line })
       { d with lastInformationField := [c] })
  else if c = 78 then
    (if d.inFileHeader then .ok ⟨⟩ { d with NoteText := line }
     else setLastTune (fun t => { t with NoteText := line }) d)
  else if c = 79 then
    (if d.inFileHeader then .ok ⟨⟩ { d with Origin := line }
     else setLastTune (fun t => { t with Origin := line }) d)
  else if c = 82 then
    (if d.inFileHeader then .ok ⟨⟩ { d with Rhythm := line }
     else setLastTune (fun t => { t with Rhythm := line }) d)
  else if c = 114 then
    (if d.inFileHeader then .ok ⟨⟩ { d with Remark := line }
     else setLastTune (fun t => { t with Remark := line }) d)
  else if c = 83 then
    (if d.inFileHeader then .ok ⟨⟩ { d with Source := line }
     else setLastTune (fun t => { t with Source := line }) d)
  else if c = 84 then
    setLastTune (fun t =>
      if t.Title = [] then { t with Title := line }
      else { t with Title := t.Title ++ 32 :: 10 :: line }) d
  else if c = 87 ∨ c = 119 then
    setLastTune (fun t => { t with Words := line }) { d with lastInformationField := [c] }
  else if c = 90 then
    (if d.inFileHeader then .ok ⟨⟩ { d with Transcription := line }
     else setLastTune (fun t => { t with Transcription := line }) d)
  else .ok ⟨⟩ d

/-- What `readInformationField` does with the text `fullLine` it has read. -/
def processField (fullLine : List Nat) (d : Decoder) : Out NoValue :=
  match fullLine with
  | [] => .panic
  | [_] => .panic
  | informationCharacter :: c1 :: line =>
    if c1 ≠ 58 then .ok ⟨⟩ d else dispatchField informationCharacter line d

/-- The method `readInformationField`. -/
def readInformationField (inline : Bool) (d : Decoder) : Out NoValue :=
  match (if !inline then readLine (skipComments d) else readInline (skipComments d)) with
  | .ok fullLine d1 => processField fullLine d1
  | .err d1 => .err d1
  | .panic => .panic
  | .timeout => .timeout

/-! ## Pitch and duration (`decoder.go`) -/

/-- The loop of `readPitch` after the pitch letter: `buf` is the stream and
`last` the `lastByte` register.  At the end of the stream `ReadByte` fails, the
byte read is `0`, and `UnreadByte` puts back the byte read before. -/
def readPitchLoop (retString : List Nat) : List Nat → Option Nat → List Nat × Reader
  | [], last => (retString, Reader.UnreadByte { buf := [], lastByte := last })
  | b :: rest, _ =>
    if isPitchLetter b then (retString, Reader.UnreadByte { buf := rest, lastByte := some b })
    else if isOctaveMark b then readPitchLoop (retString ++ [b]) rest (some b)
    else (retString, Reader.UnreadByte { buf := rest, lastByte := some b })

/-- The method `readPitch`, which uses only the reader: the pitch read
(`none` for an error) and the reader afterwards. -/
def Reader.readPitch (r : Reader) : Option (List Nat) × Reader :=
  match r.ReadByte with
  | (none, r1) => (none, r1)
  | (some b, r1) =>
    if isPitchLetter b then
      match readPitchLoop [b] r1.buf r1.lastByte with
      | (retString, r2) => (some retString, r2)
    else (none, r1)

/-- The method `readPitch` on the decoder. -/
def readPitch (d : Decoder) : Out (List Nat) :=
  match d.r.readPitch with
  | (some pitch, r1) => .ok pitch { d with r := r1 }
  | (none, r1) => .err { d with r := r1 }

/-- The digit loops of `readDuration`: the digits read, and the first byte that
is not a digit with the stream behind it (`none` when the stream ends first). -/
def readDigits : List Nat → List Nat × Option (Nat × List Nat)
  | [] => ([], none)
  | b :: rest =>
    if isDigitByte b then
      match readDigits rest with
      | (ds, stop) => (b :: ds, stop)
    else ([], some (b, rest))

/-- The method `readDuration`, which uses only the reader: the duration read
(`none` for an error) and the reader afterwards. -/
def Reader.readDuration (r : Reader) : Option F64 × Reader :=
  match readDigits r.buf with
  | (nominatorString, none) =>
    (none, { buf := [], lastByte :=
      if nominatorString = [] then r.lastByte else nominatorString.getLast? })
  | (nominatorString, some (b, rest)) =>
    let r1 : Reader := { buf := rest, lastByte := some b }
    let isFraction : Bool := decide (b = 47)
    if nominatorString.length = 0 ∧ isFraction = false then
      (some F64.one, r1.UnreadByte)
    else
      match (if 0 < nominatorString.length then parseFloatDigits nominatorString
             else some F64.zero) with
      | none => (none, r1)
      | some nominator =>
        if isFraction = false then (some nominator, r1.UnreadByte)
        else
          match readDigits rest with
          | (denominatorString, none) =>
            (none, { buf := [], lastByte :=
              if denominatorString = [] then some b else denominatorString.getLast? })
          | (denominatorString, some (c, rest2)) =>
            let r2 : Reader := Reader.UnreadByte { buf := rest2, lastByte := some c }
            if denominatorString.length = 0 then (none, r2)
            else
              match parseFloatDigits denominatorString with
              | none => (none, r2)
              | some denominator =>
                (some (F64.div (if nominator = F64.zero then F64.one else nominator) denominator),
                  r2)

/-- The method `readDuration` on the decoder. -/
def readDuration (d : Decoder) : Out F64 :=
  match d.r.readDuration with
  | (some duration, r1) => .ok duration { d with r := r1 }
  | (none, r1) => .err { d with r := r1 }

/-! ## Elements, lines and the body of a tune (`decoder.go`) -/

/-- Apply `f` to the last measure of the last tune. -/
def updCurrentMeasure (f : Measure → Measure) (d : Decoder) : Decoder :=
  { d with Tunes := updLast (fun t => { t with Measures := updLast f t.Measures }) d.Tunes }

/-- Apply `f` to the last unit of the last note group of the last measure of the
last tune. -/
def updLastUnit (f : Unit → Unit) (d : Decoder) : Decoder :=
  updCurrentMeasure (fun m => { m with
    NoteGroups := updLast (fun g => { g with Units := updLast f g.Units }) m.NoteGroups }) d

/-- The broken-rhythm correction of a duration just read, and the flags after it. -/
def applyBrokenRhythm (duration : F64) (d : Decoder) : F64 × Decoder :=
  if d.halveDuration then (F64.half duration, { d with halveDuration := false })
  else if d.doubleDuration then (F64.double duration, { d with doubleDuration := false })
  else (duration, d)

/-- The note branch of `readElement`, taken when the token is a pitch. -/
def readNote (currentMeasure : Measure) (d : Decoder) : Out NoValue :=
  match readPitch d with
  | .ok pitch d1 =>
    (match readDuration d1 with
    | .ok duration d2 =>
      (match applyBrokenRhythm duration d2 with
      | (duration2, d3) =>
        if currentMeasure.NoteGroups = [] then .panic
        else .ok ⟨⟩ (updCurrentMeasure (fun m => { m with
          NoteGroups := updLast (fun g => { g with
            Units := g.Units ++ [Unit.note { Value := pitch, Duration := duration2 }] })
              m.NoteGroups }) d3))
    | .err d2 => .err d2
    | .panic => .panic
    | .timeout => .timeout)
  | .err d1 => .err d1
  | .panic => .panic
  | .timeout => .timeout

/-- The branches of `readElement` that read a delimited text and drop it
(the text in quotes, the chord): one byte, then up to `close`, then the slice
`[0 : len-2]`, which panics on a text of one byte. -/
def readDelimited (close : Nat) (d : Decoder) : Out NoValue :=
  match d.r.ReadByte with
  | (none, r1) => .err { d with r := r1 }
  | (some _, r1) =>
    match r1.ReadBytes close with
    | (full, okr, r2) =>
      if !okr then .err { d with r := r2 }
      else if full.length < 2 then .panic
      else .ok ⟨⟩ { d with r := r2 }

/-- The barline branch of `readElement`. -/
def readBarline (d : Decoder) : Out NoValue :=
  match d.r.ReadByte with
  | (none, r1) => .err { d with r := r1 }
  | (some barline, r1) =>
    let d1 : Decoder := { d with
      r := r1
      Tunes := updLast (fun t => { t with
        Measures := updLast (fun m =>
            if barline = 91 then { m with ThickEnd := true }
            else if barline = 58 then { m with RepeatEnd := true }
            else m) t.Measures ++ [{ NoteGroups := [{}] }] }) d.Tunes }
    match r1.Peek 1 with
    | (newBarline, okp, r2) =>
      if !okp then .err { d1 with r := r2 }
      else if newBarline = [124] then
        .ok ⟨⟩ (updCurrentMeasure (fun m => { m with BarlineStart := true })
          { d1 with r := r2.ReadByte.2 })
      else if newBarline = [91] then
        .ok ⟨⟩ (updCurrentMeasure (fun m => { m with ThickStart := true })
          { d1 with r := r2.ReadByte.2 })
      else if newBarline = [58] then
        .ok ⟨⟩ (updCurrentMeasure (fun m => { m with RepeatStart := true })
          { d1 with r := r2.ReadByte.2 })
      else .ok ⟨⟩ { d1 with r := r2 }

/-- The broken-rhythm branch of `readElement`. -/
def readBrokenRhythm (currentMeasure : Measure) (d : Decoder) : Out NoValue :=
  match d.r.ReadByte with
  | (none, r1) => .err { d with r := r1 }
  | (some brokenRhythm, r1) =>
    if brokenRhythm = 62 ∨ brokenRhythm = 60 then
      match currentMeasure.NoteGroups.getLast? with
      | none => .panic
      | some currNoteGroup =>
        if currNoteGroup.Units = [] then .panic
        else if brokenRhythm = 62 then
          .ok ⟨⟩ { updLastUnit (fun u => u.SetDuration (F64.double u.GetDuration))
                    { d with r := r1 } with halveDuration := true }
        else
          .ok ⟨⟩ { updLastUnit (fun u => u.SetDuration (F64.half u.GetDuration))
                    { d with r := r1 } with doubleDuration := true }
    else .ok ⟨⟩ { d with r := r1 }

/-- The method `readElement`.  The token has two bytes whenever `peekLexToken`
succeeds, so that no classifier indexes out of range here. -/
def readElement (d : Decoder) : Out NoValue :=
  match d.Tunes.getLast? with
  | none => .panic
  | some tune =>
    match tune.Measures.getLast? with
    | none => .panic
    | some currentMeasure =>
      match peekLexToken d.r with
      | (b, okp, r0) =>
        if !okp then .err { d with r := r0 }
        else if isNote b = some true then
          (if isPitch b = some true then readNote currentMeasure { d with r := r0 }
           else .ok ⟨⟩ { d with r := r0 })
        else if isAnnotation b = some true then readDelimited 34 { d with r := r0 }
        else if isSpace b = some true then
          (match r0.ReadByte with
           | (none, r1) => .err (updCurrentMeasure (fun m => { m with
               NoteGroups := m.NoteGroups ++ [{}] }) { d with r := r1 })
           | (some _, r1) => .ok ⟨⟩ (updCurrentMeasure (fun m => { m with
               NoteGroups := m.NoteGroups ++ [{}] }) { d with r := r1 }))
        else if isBarline b = some true then readBarline { d with r := r0 }
        else if isInline b = some true then readInformationField true { d with r := r0 }
        else if isRepeat b = some true then .ok ⟨⟩ { d with r := r0 }
        else if isChord b = some true then readDelimited 93 { d with r := r0 }
        else if isBrokenRhythm b = some true then readBrokenRhythm currentMeasure { d with r := r0 }
        else .ok ⟨⟩ { d with r := r0 }

/-- The loop `for b.isElement()` of `readABCLine`; the error of the
`peekLexToken` at the end of the loop body is ignored. -/
def elementLoop : Nat → List Nat → Decoder → Out NoValue
  | 0, _, _ => .timeout
  | fuel + 1, b, d =>
    match isElement b with
    | none => .panic
    | some false => .ok ⟨⟩ d
    | some true =>
      match readElement d with
      | .ok _ d1 =>
        (match peekLexToken d1.r with
         | (b1, _, r1) => elementLoop fuel b1 { d1 with r := r1 })
      | .err d1 => .err d1
      | .panic => .panic
      | .timeout => .timeout

/-- The method `readABCLine`. -/
def readABCLine (fuel : Nat) (d : Decoder) : Out NoValue :=
  match peekLexToken d.r with
  | (b, okp, r0) =>
    if !okp then .err { d with r := r0 }
    else if isTuneBodyInfoField b then
      match readInformationField false { d with r := r0 } with
      | .ok _ d1 => elementLoop fuel b d1
      | .err d1 => .err d1
      | .panic => .panic
      | .timeout => .timeout
    else elementLoop fuel b { d with r := r0 }

/-- The loop of `readTuneBody`; `b` is the byte peeked last. -/
def tuneBodyLoop : Nat → List Nat → Decoder → Out NoValue
  | 0, _, _ => .timeout
  | fuel + 1, b, d =>
    if b = [10] then .ok ⟨⟩ d
    else
      match readABCLine fuel d with
      | .ok _ d1 =>
        let d2 := skipComments d1
        (match d2.r.ReadByte with
         | (none, r3) => .err { d2 with r := r3 }
         | (some nl, r3) =>
           if nl ≠ 10 then .ok ⟨⟩ { d2 with r := r3 }
           else match r3.Peek 1 with
             | (b1, okp, r4) =>
               if !okp then .err { d2 with r := r4 }
               else tuneBodyLoop fuel b1 { d2 with r := r4 })
      | .err d1 => .err d1
      | .panic => .panic
      | .timeout => .timeout

/-- The method `readTuneBody`. -/
def readTuneBody (fuel : Nat) (d : Decoder) : Out NoValue :=
  if d.Tunes = [] then .panic
  else
    let d1 := skipComments { d with
      Tunes := updLast (fun t => { t with Measures := [{ NoteGroups := [{}] }] }) d.Tunes }
    match d1.r.Peek 1 with
    | (b, okp, r2) =>
      if !okp then .err { d1 with r := r2 }
      else tuneBodyLoop fuel b { d1 with r := r2 }

/-! ## Headers and the orchestrator (`decoder.go`) -/

/-- The loop `for !d.tuneHeaderDone` of `readTuneHeader`. -/
def tuneHeaderLoop : Nat → Decoder → Out NoValue
  | 0, _ => .timeout
  | fuel + 1, d =>
    if d.tuneHeaderDone then .ok ⟨⟩ d
    else
      match readInformationField false d with
      | .ok _ d1 => tuneHeaderLoop fuel d1
      | .err d1 => .err d1
      | .panic => .panic
      | .timeout => .timeout

/-- The method `readTuneHeader`. -/
def readTuneHeader (fuel : Nat) (d : Decoder) : Out NoValue :=
  match readInformationField false d with
  | .ok _ d1 =>
    if d1.Tunes.length = d.Tunes.length then .err d1
    else
      (match readInformationField false d1 with
       | .ok _ d2 =>
         (match d2.Tunes.getLast? with
          | none => .panic
          | some t => if t.Title = [] then .err d2 else tuneHeaderLoop fuel d2)
       | .err d2 => .err d2
       | .panic => .panic
       | .timeout => .timeout)
  | .err d1 => .err d1
  | .panic => .panic
  | .timeout => .timeout

/-- The loop `for !done` of `readFileHeader`: the error of
`readInformationField` is overwritten by the result of `Peek`. -/
def fileHeaderLoop : Nat → Decoder → Out NoValue
  | 0, _ => .timeout
  | fuel + 1, d =>
    match readInformationField false d with
    | .panic => .panic
    | .timeout => .timeout
    | .ok _ d1 | .err d1 =>
      match d1.r.Peek 1 with
      | (b, okp, r2) =>
        if !okp then .err { d1 with r := r2 }
        else if b = [10] then .ok ⟨⟩ { d1 with r := r2, inFileHeader := false }
        else fileHeaderLoop fuel { d1 with r := r2 }

/-- The method `readFileHeader`. -/
def readFileHeader (fuel : Nat) (d : Decoder) : Out NoValue :=
  match d.r.Peek 1 with
  | (b, okp, r1) =>
    if !okp then .err { d with r := r1 }
    else if b = [88] then .ok ⟨⟩ { d with r := r1 }
    else fileHeaderLoop fuel { d with r := r1, inFileHeader := true }

/-- The rest of `Decode` after `readTuneHeader`: the error of `readTuneBody` is
assigned and never looked at, one more line is read, and `nil` is returned. -/
def decodeBody (fuel : Nat) (d : Decoder) : Out NoValue :=
  match readTuneBody fuel d with
  | .ok _ d1 | .err d1 => .ok ⟨⟩ { d1 with r := (d1.r.ReadBytes 10).2.2 }
  | .panic => .panic
  | .timeout => .timeout

/-- The part of `Decode` from `skipComments` on. -/
def decodeFile (fuel : Nat) (d : Decoder) : Out NoValue :=
  match readFileHeader fuel (skipComments d) with
  | .ok _ d1 =>
    (match d1.r.ReadBytes 10 with
     | (b, okr, r2) =>
       if !okr then .err { d1 with r := r2 }
       else if b.length ≠ 1 then .err { d1 with r := r2 }
       else
         match readTuneHeader fuel { d1 with r := r2 } with
         | .ok _ d3 => decodeBody fuel d3
         | .err d3 => .err d3
         | .panic => .panic
         | .timeout => .timeout)
  | .err d1 => .err d1
  | .panic => .panic
  | .timeout => .timeout

/-- The method `Decode`; `fuel` bounds the number of iterations of each loop,
and `pf` is the float parser of `readMagicNumber`. -/
def Decode (pf : List Nat → Option F64) (fuel : Nat) (d : Decoder) : Out NoValue :=
  match skipBOM d with
  | .ok _ d1 =>
    if !d1.fileCheck then
      match readMagicNumber pf d1 with
      | .ok _ d2 => decodeFile fuel d2
      | .err d2 => .err d2
      | .panic => .panic
      | .timeout => .timeout
    else decodeFile fuel d1
  | .err d1 => .err d1
  | .panic => .panic
  | .timeout => .timeout

/-! ## Notions used to state the properties -/

/-- The stream behind an optional byte order mark (the bytes EF BB BF). -/
def dropBOM : List Nat → List Nat
  | 0xEF :: 0xBB :: 0xBF :: rest => rest
  | s => s

/-- Whether a result is a nil error. -/
def Out.isOk {α : Type} : Out α → Bool
  | .ok _ _ => true
  | _ => false

/-- Whether a result is a non-nil error. -/
def Out.isErr {α : Type} : Out α → Bool
  | .err _ => true
  | _ => false

/-- Every measure of the tune has at least one note group. -/
def Tune.groupsOk (t : Tune) : Prop := ∀ m ∈ t.Measures, m.NoteGroups ≠ []

/-- A change of a tune that neither gives a first measure to a tune without
measures nor removes the measures of a tune, and that keeps a note group in
every measure. -/
def TuneStep (t t' : Tune) : Prop :=
  (t'.Measures = [] ↔ t.Measures = []) ∧ (t.groupsOk → t'.groupsOk)

/-- A property of the tune list that survives what the field reader and the
element reader do to it: a new tune without measures is appended, or the last
tune makes a `TuneStep`. -/
def Stable (P : List Tune → Prop) : Prop :=
  (∀ ts t, t.Measures = [] → P ts → P (ts ++ [t])) ∧
  (∀ (f : Tune → Tune) ts, (∀ t, ts.getLast? = some t → TuneStep t (f t)) → P ts →
    P (updLast f ts))

/-- No tune has a measure: the state of the tune list before a tune body is read. -/
def noMeasures (ts : List Tune) : Prop := ∀ t ∈ ts, t.Measures = []

/-- Every measure of every tune has a note group, and exactly one tune has
measures: the state of the tune list once a tune body is being read. -/
def oneBody (ts : List Tune) : Prop :=
  (∀ t ∈ ts, t.groupsOk) ∧
  ∃ pre t post, ts = pre ++ t :: post ∧ t.Measures ≠ [] ∧
    (∀ u ∈ pre, u.Measures = []) ∧ (∀ u ∈ post, u.Measures = [])

/-- The tune list of every decoder state that a result carries satisfies `P`. -/
def OutP {α : Type} (P : List Tune → Prop) : Out α → Prop
  | .ok _ d => P d.Tunes
  | .err d => P d.Tunes
  | .panic => True
  | .timeout => True

/-- The tune list of the decoder state of a nil-error result satisfies `P`. -/
def OkP {α : Type} (P : List Tune → Prop) : Out α → Prop
  | .ok _ d => P d.Tunes
  | _ => True

/-- The text that `readLine` returns for the line `l` (given without its
newline): the comment is cut off and the surrounding white space trimmed. -/
def lineText (l : List Nat) : List Nat := TrimSpace (l.takeWhile (fun b => !decide (b = 37)))

/-- A field value: text without `%` or newline that does not end in white space. -/
def isFieldValue (v : List Nat) : Prop :=
  (∀ b ∈ v, b ≠ 10 ∧ b ≠ 37) ∧ dropSpaceRuneRev v.reverse = none

/-- A field letter: a printable ASCII byte other than `%`. -/
def isFieldLetter (L : Nat) : Prop := 33 ≤ L ∧ L ≤ 126 ∧ L ≠ 37

/-- The text of an unsigned decimal integer: a non-empty run of decimal digits. -/
def isUintText (s : List Nat) : Bool := !s.isEmpty && s.all isDigitByte

/-- The text of an unsigned decimal integer that fits in 64 bits. -/
def fitsUint64 (s : List Nat) : Prop := isUintText s = true ∧ natOfDigits s < 2 ^ 64

/-- The text before the first `/` (the whole text when there is none). -/
def beforeSlash (v : List Nat) : List Nat := v.takeWhile (fun b => !decide (b = 47))

/-- The text after the first `/`. -/
def afterSlash (v : List Nat) : List Nat := (v.dropWhile (fun b => !decide (b = 47))).drop 1

/-- The tune field that a letter among `A B C F G N O R r S Z` names, set to `v`. -/
def Tune.setField (L : Nat) (v : List Nat) (t : Tune) : Tune :=
  if L = 65 then { t with Area := v }
  else if L = 66 then { t with Book := v }
  else if L = 67 then { t with Composer := v }
  else if L = 70 then { t with FileURL := v }
  else if L = 71 then { t with Group := v }
  else if L = 78 then { t with NoteText := v }
  else if L = 79 then { t with Origin := v }
  else if L = 82 then { t with Rhythm := v }
  else if L = 114 then { t with Remark := v }
  else if L = 83 then { t with Source := v }
  else if L = 90 then { t with Transcription := v }
  else t

/-- The file-scope field that a letter among `A B C F G N O R r S Z` names, set to `v`. -/
def Decoder.setField (L : Nat) (v : List Nat) (d : Decoder) : Decoder :=
  if L = 65 then { d with Area := v }
  else if L = 66 then { d with Book := v }
  else if L = 67 then { d with Composer := v }
  else if L = 70 then { d with FileURL := v }
  else if L = 71 then { d with Group := v }
  else if L = 78 then { d with NoteText := v }
  else if L = 79 then { d with Origin := v }
  else if L = 82 then { d with Rhythm := v }
  else if L = 114 then { d with Remark := v }
  else if L = 83 then { d with Source := v }
  else if L = 90 then { d with Transcription := v }
  else d

/-- The reader of the decoder state of a nil-error result is `r`. -/
def OkReader {α : Type} (r : Reader) : Out α → Prop
  | .ok _ d => d.r = r
  | _ => True

/-- The value of a field as the line reader returns it: the text after the
colon up to the first `%`, without its trailing white space. -/
def fieldText (v : List Nat) : List Nat := trimRight (v.takeWhile (fun b => !decide (b = 37)))

/-- A double in IEEE form: `fin m q` with a 53-bit significand `m` and an
exponent in range, or a subnormal significand with the least exponent. -/
def F64.canonical : F64 → Prop
  | F64.fin m q => (2 ^ 52 ≤ m ∧ m < 2 ^ 53 ∧ -1074 ≤ q ∧ q ≤ 971) ∨ (m < 2 ^ 52 ∧ q = -1074)
  | _ => True

/-! # Theorems -/

/-! ## Auxiliary facts about the stream primitives -/

theorem splitAfter_length {delim : Nat} : ∀ {s l rest : List Nat},
    splitAfter delim s = some (l, rest) → 0 < l.length := by
  intro s
  induction s with
  | nil => intro l rest h; simp [splitAfter] at h
  | cons b t ih =>
    intro l rest h
    unfold splitAfter at h
    split_ifs at h with hb
    · simp at h; rw [← h.1]; simp
    · split at h
      · simp at h
      · simp at h; rw [← h.1]; simp

theorem splitAfter_append {delim : Nat} : ∀ {s l rest : List Nat},
    splitAfter delim s = some (l, rest) → s = l ++ rest := by
  intro s
  induction s with
  | nil => intro l rest h; simp [splitAfter] at h
  | cons b t ih =>
    intro l rest h
    unfold splitAfter at h
    split_ifs at h with hb
    · simp at h; rw [← h.1, ← h.2]; simp
    · split at h
      · simp at h
      · rename_i l1 r1 heq
        simp at h; rw [← h.1, ← h.2, ih heq]; simp

theorem skipComments_head {d : Decoder} {b : Nat} {t : List Nat}
    (h : d.r.buf = b :: t) (hb : b ≠ 37) :
    skipComments d = { d with r := { d.r with lastByte := none } } := by
  simp [skipComments, h, skipCommentsAux, Reader.Peek, hb]

theorem readDigits_run : ∀ (n : List Nat) (x : Nat) (rest : List Nat),
    (∀ b ∈ n, isDigitByte b = true) → isDigitByte x = false →
    readDigits (n ++ x :: rest) = (n, some (x, rest)) := by
  intro n
  induction n with
  | nil => intro x rest _ hx; simp [readDigits, hx]
  | cons b t ih =>
    intro x rest hn hx
    have hb : isDigitByte b = true := hn b (by simp)
    have ht : ∀ c ∈ t, isDigitByte c = true := fun c hc => hn c (by simp [hc])
    simp [readDigits, hb, ih x rest ht hx]

theorem isDigitByte_iff {b : Nat} : isDigitByte b = true ↔ 48 ≤ b ∧ b ≤ 57 := by
  simp [isDigitByte]

theorem dropSpaceRuneRev_digit {b : Nat} (t : List Nat) (hb : isDigitByte b = true) :
    dropSpaceRuneRev (b :: t) = none := by
  obtain ⟨h1, h2⟩ := isDigitByte_iff.mp hb
  interval_cases b <;> rfl

theorem trimLeft_of_none {s : List Nat} (h : dropSpaceRune s = none) : trimLeft s = s := by
  unfold trimLeft
  cases hl : s.length with
  | zero => rfl
  | succ n => simp [trimLeftAux, h]

theorem trimRight_of_none {s : List Nat} (h : dropSpaceRuneRev s.reverse = none) :
    trimRight s = s := by
  unfold trimRight
  cases hl : s.length with
  | zero => simp [trimRightAux]
  | succ n => simp [trimRightAux, h]

theorem TrimSpace_of_none {s : List Nat} (h1 : dropSpaceRune s = none)
    (h2 : dropSpaceRuneRev s.reverse = none) : TrimSpace s = s := by
  unfold TrimSpace
  rw [trimLeft_of_none h1, trimRight_of_none h2]

theorem splitAfter_run (delim : Nat) : ∀ (l rest : List Nat), (∀ b ∈ l, b ≠ delim) →
    splitAfter delim (l ++ delim :: rest) = some (l ++ [delim], rest) := by
  intro l
  induction l with
  | nil => intro rest _; simp [splitAfter]
  | cons b t ih =>
    intro rest h
    have hb : b ≠ delim := h b (by simp)
    have ht : ∀ c ∈ t, c ≠ delim := fun c hc => h c (by simp [hc])
    simp [splitAfter, hb, ih rest ht]

theorem IndexByte_none : ∀ (l : List Nat) (c : Nat), (∀ b ∈ l, b ≠ c) → IndexByte l c = none := by
  intro l
  induction l with
  | nil => intro c _; rfl
  | cons b t ih =>
    intro c h
    have hb : b ≠ c := h b (by simp)
    have ht : ∀ x ∈ t, x ≠ c := fun x hx => h x (by simp [hx])
    simp [IndexByte, hb, ih c ht]

theorem readLine_plain (d : Decoder) (l rest : List Nat)
    (hbuf : d.r.buf = l ++ 10 :: rest) (hl : ∀ b ∈ l, b ≠ 10 ∧ b ≠ 37) :
    readLine d = .ok (TrimSpace l) { d with r := { buf := rest, lastByte := some 10 } } := by
  have h1 := splitAfter_run 10 l rest (fun b hb => (hl b hb).1)
  have h2 : IndexByte (l ++ [10]) 37 = none := by
    apply IndexByte_none
    intro b hb
    simp at hb
    rcases hb with hb | hb
    · exact (hl b hb).2
    · omega
  simp [readLine, Reader.ReadBytes, hbuf, h1, commentStart, h2]

theorem readMagicNumber_reject (pf : List Nat → Option F64) (d : Decoder)
    (h : d.r.buf.take 4 ≠ [37, 97, 98, 99]) :
    ∃ r', readMagicNumber pf d = .err { d with r := r' } := by
  unfold readMagicNumber Reader.ReadBytes
  cases hsp : splitAfter 10 d.r.buf with
  | none => exact ⟨_, rfl⟩
  | some p =>
    obtain ⟨l, rest⟩ := p
    by_cases hlen : l.length ≤ 4
    · simp only [Bool.not_true, Bool.false_eq_true, if_false, hlen, if_true]
      exact ⟨_, rfl⟩
    · have hl : l.take 4 ≠ [37, 97, 98, 99] := by
        intro hl
        apply h
        rw [splitAfter_append hsp, List.take_append_of_le_length (by omega)]
        exact hl
      simp only [Bool.not_true, Bool.false_eq_true, if_false, hlen, hl, ne_eq, not_false_eq_true,
        if_true]
      exact ⟨_, rfl⟩

theorem dropBOM_default {s : List Nat} (h : ∀ rest, s ≠ 0xEF :: 0xBB :: 0xBF :: rest) :
    dropBOM s = s := by
  unfold dropBOM
  split
  · rename_i rest; exact absurd rfl (h rest)
  · rfl

theorem skipBOM_eq (d : Decoder) :
    skipBOM d = .err d ∨
    ∃ lb, skipBOM d = .ok ⟨⟩ { d with r := { buf := dropBOM d.r.buf, lastByte := lb } } := by
  unfold skipBOM
  split
  · exact Or.inl rfl
  · rename_i rest hbuf
    exact Or.inr ⟨some 0xBF, by rw [hbuf]; rfl⟩
  · rename_i hno
    refine Or.inr ⟨none, ?_⟩
    rw [dropBOM_default]
    intro rest hrest
    exact hno rest hrest

/-! ## Single steps of `readElement` -/

theorem updLast_append {α : Type} (f : α → α) : ∀ (l : List α) (a : α),
    updLast f (l ++ [a]) = l ++ [f a] := by
  intro l
  induction l with
  | nil => intro a; rfl
  | cons b t ih =>
    intro a
    cases t with
    | nil => rfl
    | cons c t' =>
      have := ih a
      simp only [List.cons_append] at this ⊢
      rw [updLast, this]

theorem isOctaveMark_iff {b : Nat} : isOctaveMark b = true ↔ b = 39 ∨ b = 44 := by
  simp [isOctaveMark]

theorem isPitchLetter_iff {b : Nat} :
    isPitchLetter b = true ↔ (97 ≤ b ∧ b ≤ 103) ∨ (65 ≤ b ∧ b ≤ 71) := by
  simp [isPitchLetter]

theorem readPitchLoop_run : ∀ (o ret : List Nat) (x : Nat) (tail : List Nat) (lb : Option Nat),
    (∀ b ∈ o, isOctaveMark b = true) → isOctaveMark x = false →
    readPitchLoop ret (o ++ x :: tail) lb = (ret ++ o, { buf := x :: tail, lastByte := none }) := by
  intro o
  induction o with
  | nil =>
    intro ret x tail lb _ hx
    by_cases hp : isPitchLetter x = true
    · simp [readPitchLoop, hp, Reader.UnreadByte]
    · simp [readPitchLoop, hp, hx, Reader.UnreadByte]
  | cons b t ih =>
    intro ret x tail lb ho hx
    have hb : isOctaveMark b = true := ho b (by simp)
    have hbp : isPitchLetter b = false := by
      rcases isOctaveMark_iff.mp hb with h | h <;> subst h <;> rfl
    have ht : ∀ c ∈ t, isOctaveMark c = true := fun c hc => ho c (by simp [hc])
    have := ih (ret ++ [b]) x tail (some b) ht hx
    simp [readPitchLoop, hbp, hb, this]

theorem Reader.readPitch_run (l : Nat) (o : List Nat) (x : Nat) (tail : List Nat)
    (lb : Option Nat) (hl : isPitchLetter l = true) (ho : ∀ b ∈ o, isOctaveMark b = true)
    (hx : isOctaveMark x = false) :
    Reader.readPitch { buf := l :: (o ++ x :: tail), lastByte := lb } =
      (some (l :: o), { buf := x :: tail, lastByte := none }) := by
  simp only [Reader.readPitch, Reader.ReadByte, hl, if_true]
  rw [readPitchLoop_run o [l] x tail (some l) ho hx]
  simp

theorem updCurrentMeasure_shape (f : Measure → Measure) (d : Decoder) (ts : List Tune) (t : Tune)
    (ms : List Measure) (m : Measure) (hT : d.Tunes = ts ++ [t]) (hM : t.Measures = ms ++ [m]) :
    updCurrentMeasure f d = { d with Tunes := ts ++ [{ t with Measures := ms ++ [f m] }] } := by
  simp [updCurrentMeasure, hT, updLast_append, hM]

/-- One call of `readElement` on a note `l o` followed by a duration text. -/
theorem readElement_note (e : Decoder) (t : Tune) (m : Measure) (l : Nat) (o : List Nat) (x : Nat)
    (tail : List Nat) (D : F64) (r' : Reader)
    (hT : e.Tunes.getLast? = some t) (hM : t.Measures.getLast? = some m)
    (hG : m.NoteGroups ≠ [])
    (hl : isPitchLetter l = true) (ho : ∀ b ∈ o, isOctaveMark b = true)
    (hx : isOctaveMark x = false)
    (hdur : Reader.readDuration { buf := x :: tail, lastByte := none } = (some D, r'))
    (hbuf : e.r.buf = l :: (o ++ x :: tail)) :
    readElement e = .ok ⟨⟩
      (updCurrentMeasure (fun m => { m with
          NoteGroups := updLast (fun g => { g with
            Units := g.Units ++
              [Unit.note ⟨l :: o, (applyBrokenRhythm D { e with r := r' }).1⟩] }) m.NoteGroups })
        (applyBrokenRhythm D { e with r := r' }).2) := by
  obtain ⟨y, rest, hy⟩ : ∃ y rest, o ++ x :: tail = y :: rest := by
    cases o with
    | nil => exact ⟨x, tail, rfl⟩
    | cons a o' => exact ⟨a, o' ++ x :: tail, rfl⟩
  have hl122 : l ≠ 122 := by
    rcases isPitchLetter_iff.mp hl with h | h <;> omega
  have hp := Reader.readPitch_run l o x tail none hl ho hx
  have htok : (l :: (o ++ x :: tail)).take 2 = [l, y] := by rw [hy]; rfl
  have hlen : 2 ≤ (l :: (o ++ x :: tail)).length := by rw [hy]; simp
  simp only [readElement, hT, hM, peekLexToken, Reader.Peek, hbuf, htok, hlen]
  simp [isNote, isRest, isPitch, por, hl, hl122, readNote, readPitch, hp, readDuration, hdur, hG]

/-- One call of `readElement` on `>` or `<` after a unit. -/
theorem readElement_brokenRhythm (e : Decoder) (t : Tune) (m : Measure) (g : NoteGroup)
    (sym y : Nat) (rest : List Nat)
    (hT : e.Tunes.getLast? = some t) (hM : t.Measures.getLast? = some m)
    (hG : m.NoteGroups.getLast? = some g) (hU : g.Units ≠ [])
    (hsym : sym = 62 ∨ sym = 60) (hbuf : e.r.buf = sym :: y :: rest) :
    readElement e = .ok ⟨⟩
      (if sym = 62 then
        { updLastUnit (fun u => u.SetDuration (F64.double u.GetDuration))
            { e with r := { buf := y :: rest, lastByte := some sym } } with halveDuration := true }
       else
        { updLastUnit (fun u => u.SetDuration (F64.half u.GetDuration))
            { e with r := { buf := y :: rest, lastByte := some sym } } with doubleDuration := true }) := by
  rcases hsym with h | h <;> subst h <;>
  simp [readElement, hT, hM, peekLexToken, Reader.Peek, hbuf, isNote, isRest, isPitch, por,
    isOctaveMark, isPitchLetter, isAnnotation, isSpace, isBarline, isInline, isRepeat, isChord,
    isBrokenRhythm, readBrokenRhythm, Reader.ReadByte, hG, hU]

theorem headOctave_split (ds : List Nat) (z : Nat) (tl : List Nat)
    (hz : isOctaveMark z = false) (h : ∀ b ∈ ds.head?, isOctaveMark b = false) :
    ∃ x tail, ds ++ z :: tl = x :: tail ∧ isOctaveMark x = false := by
  cases ds with
  | nil => exact ⟨z, tl, rfl, hz⟩
  | cons b t => exact ⟨b, t ++ z :: tl, rfl, h b (by simp)⟩

/-! ## Exactness of the float64 model on small integers -/

namespace F64

theorem log2Aux_spec : ∀ (b n : Nat), 0 < n → n ≤ b →
    2 ^ log2Aux b n ≤ n ∧ n < 2 ^ (log2Aux b n + 1) := by
  intro b
  induction b with
  | zero => intro n h1 h2; omega
  | succ b ih =>
    intro n h1 h2
    unfold log2Aux
    split_ifs with h
    · constructor <;> simp <;> omega
    · have h3 := ih (n / 2) (by omega) (by omega)
      obtain ⟨h4, h5⟩ := h3
      rw [pow_succ] at h5
      constructor
      · rw [pow_succ]; omega
      · rw [pow_succ, pow_succ]; omega

theorem log2_spec {n : Nat} (h : 0 < n) : 2 ^ log2 n ≤ n ∧ n < 2 ^ (log2 n + 1) :=
  log2Aux_spec n n h (le_refl n)

theorem log2_unique {n k : Nat} (h1 : 2 ^ k ≤ n) (h2 : n < 2 ^ (k + 1)) : log2 n = k := by
  have hn : 0 < n := lt_of_lt_of_le (by positivity) h1
  obtain ⟨h3, h4⟩ := log2_spec hn
  by_contra hne
  rcases Nat.lt_or_gt_of_ne hne with hlt | hgt
  · have : 2 ^ (log2 n + 1) ≤ 2 ^ k := Nat.pow_le_pow_right (by norm_num) hlt
    omega
  · have : 2 ^ (k + 1) ≤ 2 ^ log2 n := Nat.pow_le_pow_right (by norm_num) hgt
    omega

theorem roundHalfEven_mul (m d : Nat) (hd : 0 < d) : roundHalfEven (m * d) d = m := by
  unfold roundHalfEven
  simp [Nat.mul_div_cancel _ hd, hd]

/-- A quotient whose scaled value is a 53-bit integer `m` is returned exactly. -/
theorem round_exact (n d m : Nat) (s q : Int) (hd : 0 < d)
    (hm1 : 2 ^ 52 ≤ m) (hm2 : m < 2 ^ 53) (hq1 : -1074 ≤ q) (hq2 : q ≤ 971)
    (he : (log2 n : Int) - (log2 d : Int) + s - 52 = q)
    (hk : 0 ≤ s - q) (hval : n * 2 ^ (s - q).toNat = m * d) :
    round n d s = fin m q := by
  have hn : n ≠ 0 := by
    rintro rfl
    have : 0 < m * d := Nat.mul_pos (lt_of_lt_of_le (by norm_num) hm1) hd
    simp at hval; omega
  have hq1' : max ((log2 n : Int) - (log2 d : Int) + s - 52) (-1074) = q := by
    rw [he]; exact max_eq_left hq1
  have hsb : scaledBelow n d (s - q) = false := by
    unfold scaledBelow
    simp only [hk, if_true, hval, decide_eq_false_iff_not, not_lt]
    exact Nat.mul_le_mul_right d hm1
  have hsr : scaleRound n d (s - q) = m := by
    unfold scaleRound
    simp only [hk, if_true, hval]
    exact roundHalfEven_mul m d hd
  have hm3 : m ≠ 2 ^ 53 := by omega
  unfold round
  simp only [hn, if_false, hq1', hsb]
  simp only [hsr, Bool.false_eq_true, if_false, hm3]
  simp [not_lt.mpr hq2]

theorem ofNat_exact {n : Nat} (h0 : 0 < n) (h : n < 2 ^ 53) :
    ofNat n = fin (n * 2 ^ (52 - log2 n)) ((log2 n : Int) - 52) := by
  obtain ⟨h1, h2⟩ := log2_spec h0
  have hlg : log2 n ≤ 52 := by
    by_contra hc
    have : 2 ^ 53 ≤ 2 ^ log2 n := Nat.pow_le_pow_right (by norm_num) (by omega)
    omega
  have hl1 : log2 1 = 0 := by decide
  have hpow : 2 ^ log2 n * 2 ^ (52 - log2 n) = 2 ^ 52 := by
    rw [← pow_add]; congr 1; omega
  have hpow' : 2 ^ (log2 n + 1) * 2 ^ (52 - log2 n) = 2 ^ 53 := by
    rw [← pow_add]; congr 1; omega
  have hk : (0 - ((log2 n : Int) - 52)).toNat = 52 - log2 n := by omega
  unfold ofNat
  apply round_exact n 1 _ 0 _ (by norm_num)
  · calc 2 ^ 52 = 2 ^ log2 n * 2 ^ (52 - log2 n) := hpow.symm
      _ ≤ n * 2 ^ (52 - log2 n) := Nat.mul_le_mul_right _ h1
  · calc n * 2 ^ (52 - log2 n) < 2 ^ (log2 n + 1) * 2 ^ (52 - log2 n) :=
          Nat.mul_lt_mul_of_pos_right h2 (by positivity)
      _ = 2 ^ 53 := hpow'
  · omega
  · omega
  · rw [hl1]; omega
  · omega
  · rw [hk]; simp

theorem toRat_ofNat {n : Nat} (h0 : 0 < n) (h : n < 2 ^ 53) :
    toRat (ofNat n) = some (n : ℚ) := by
  obtain ⟨h1, h2⟩ := log2_spec h0
  have hlg : log2 n ≤ 52 := by
    by_contra hc
    have : 2 ^ 53 ≤ 2 ^ log2 n := Nat.pow_le_pow_right (by norm_num) (by omega)
    omega
  rw [ofNat_exact h0 h]
  simp only [toRat, Option.some.injEq]
  have : ((log2 n : Int) - 52) = -((52 - log2 n : Nat) : Int) := by omega
  rw [this, zpow_neg, zpow_natCast]
  push_cast
  field_simp

end F64

theorem parseFloatDigits_small {ds : List Nat} (h : natOfDigits ds < 2 ^ 53) :
    ∃ v, parseFloatDigits ds = some v ∧ v.toRat = some (natOfDigits ds : ℚ) ∧
      (0 < natOfDigits ds → v ≠ F64.zero) ∧ (natOfDigits ds = 0 → v = F64.zero) := by
  unfold parseFloatDigits
  rcases Nat.eq_zero_or_pos (natOfDigits ds) with h0 | h0
  · rw [h0]
    refine ⟨F64.zero, rfl, ?_, by omega, fun _ => rfl⟩
    simp [F64.zero, F64.toRat]
  · rw [F64.ofNat_exact h0 h]
    refine ⟨_, rfl, ?_, ?_, by omega⟩
    · rw [← F64.ofNat_exact h0 h]; exact F64.toRat_ofNat h0 h
    · intro _ hz
      simp only [F64.zero, F64.fin.injEq] at hz
      have : 0 < natOfDigits ds * 2 ^ (52 - F64.log2 (natOfDigits ds)) :=
        Nat.mul_pos h0 (by positivity)
      omega

theorem toRat_one : F64.toRat F64.one = some 1 := by
  simp only [F64.one, F64.toRat, Option.some.injEq]
  norm_num

theorem F64.div_ofNat_pow2 {N k : Nat} (hN0 : 0 < N) (hN : N < 2 ^ 53) (hk : 2 ^ k < 2 ^ 53) :
    F64.toRat (F64.div (F64.ofNat N) (F64.ofNat (2 ^ k))) = some ((N : ℚ) / 2 ^ k) := by
  have hk52 : k ≤ 52 := by
    by_contra hc
    have : 2 ^ 53 ≤ 2 ^ k := Nat.pow_le_pow_right (by norm_num) (by omega)
    omega
  obtain ⟨h1, h2⟩ := F64.log2_spec hN0
  have hlg : F64.log2 N ≤ 52 := by
    by_contra hc
    have : 2 ^ 53 ≤ 2 ^ F64.log2 N := Nat.pow_le_pow_right (by norm_num) (by omega)
    omega
  have hlk : F64.log2 (2 ^ k) = k :=
    F64.log2_unique (le_refl _) (Nat.pow_lt_pow_right (by norm_num) (by omega))
  have hpow : 2 ^ F64.log2 N * 2 ^ (52 - F64.log2 N) = 2 ^ 52 := by
    rw [← pow_add]; congr 1; omega
  have hpow' : 2 ^ (F64.log2 N + 1) * 2 ^ (52 - F64.log2 N) = 2 ^ 53 := by
    rw [← pow_add]; congr 1; omega
  have hM1 : 2 ^ 52 ≤ N * 2 ^ (52 - F64.log2 N) := by
    calc 2 ^ 52 = 2 ^ F64.log2 N * 2 ^ (52 - F64.log2 N) := hpow.symm
      _ ≤ N * 2 ^ (52 - F64.log2 N) := Nat.mul_le_mul_right _ h1
  have hM2 : N * 2 ^ (52 - F64.log2 N) < 2 ^ 53 := by
    calc N * 2 ^ (52 - F64.log2 N) < 2 ^ (F64.log2 N + 1) * 2 ^ (52 - F64.log2 N) :=
          Nat.mul_lt_mul_of_pos_right h2 (by positivity)
      _ = 2 ^ 53 := hpow'
  have hD : 2 ^ k * 2 ^ (52 - k) = 2 ^ 52 := by
    rw [← pow_add]; congr 1; omega
  rw [F64.ofNat_exact hN0 hN, F64.ofNat_exact (by positivity) hk, hlk, hD]
  have hne : (2 : Nat) ^ 52 ≠ 0 := by positivity
  simp only [F64.div, hne, if_false]
  have hl52 : F64.log2 (2 ^ 52) = 52 := by decide
  have hlM : F64.log2 (N * 2 ^ (52 - F64.log2 N)) = 52 := F64.log2_unique hM1 hM2
  rw [F64.round_exact _ _ (N * 2 ^ (52 - F64.log2 N)) _ ((F64.log2 N : Int) - 52 - k)
    (by positivity) hM1 hM2 (by omega) (by omega) (by rw [hlM, hl52]; omega) (by omega)
    (by
      have : ((F64.log2 N : Int) - 52 - ((k : Int) - 52) - ((F64.log2 N : Int) - 52 - k)).toNat
          = 52 := by omega
      rw [this])]
  simp only [F64.toRat, Option.some.injEq]
  have : ((F64.log2 N : Int) - 52 - k) = -((52 - F64.log2 N + k : Nat) : Int) := by omega
  rw [this, zpow_neg, zpow_natCast, pow_add]
  push_cast
  field_simp
  ring

namespace F64

theorem roundHalfEven_lower (n d L : Nat) (hd : 0 < d) (h : L * d ≤ n) :
    L ≤ roundHalfEven n d := by
  have h1 : L ≤ n / d := (Nat.le_div_iff_mul_le hd).mpr h
  unfold roundHalfEven
  dsimp only
  split_ifs <;> omega

theorem roundHalfEven_upper (n d H : Nat) (hd : 0 < d) (h : n ≤ H * d) :
    roundHalfEven n d ≤ H := by
  have h1 : n / d ≤ H := by
    calc n / d ≤ H * d / d := Nat.div_le_div_right h
      _ = H := Nat.mul_div_cancel _ hd
  have h2 := Nat.div_add_mod n d
  have h3 : n % d < d := Nat.mod_lt _ hd
  unfold roundHalfEven
  dsimp only
  by_cases hlt : n / d < H
  · split_ifs <;> omega
  · have heq : n / d = H := by omega
    have hr : n % d = 0 := by
      have h4 : d * H + n % d = n := by rw [← heq]; exact h2
      have h5 : n ≤ d * H := by rw [Nat.mul_comm]; exact h
      omega
    simp [hr, hd]
    omega

theorem scaleRound_eq (n d : Nat) (k : Int) :
    scaleRound n d k = roundHalfEven (n * 2 ^ k.toNat) (d * 2 ^ (-k).toNat) := by
  unfold scaleRound
  split_ifs with h
  · have : (-k).toNat = 0 := Int.toNat_eq_zero.mpr (by omega)
    simp [this]
  · have : k.toNat = 0 := Int.toNat_eq_zero.mpr (by omega)
    simp [this]

theorem scaledBelow_eq (n d : Nat) (k : Int) :
    scaledBelow n d k = decide (n * 2 ^ k.toNat < 2 ^ 52 * (d * 2 ^ (-k).toNat)) := by
  unfold scaledBelow
  split_ifs with h
  · have : (-k).toNat = 0 := Int.toNat_eq_zero.mpr (by omega)
    simp [this]
  · have : k.toNat = 0 := Int.toNat_eq_zero.mpr (by omega)
    simp [this]

/-- The quotient of the two scaled integers is `(n / d) * 2 ^ k`. -/
theorem scaled_quotient (n d : Nat) (k : Int) (hd : 0 < d) :
    ((n * 2 ^ k.toNat : Nat) : ℚ) / ((d * 2 ^ (-k).toNat : Nat) : ℚ) =
      (n : ℚ) / d * (2 : ℚ) ^ k := by
  have hd' : (d : ℚ) ≠ 0 := by exact_mod_cast hd.ne'
  rcases le_or_lt 0 k with h | h
  · obtain ⟨j, rfl⟩ := Int.eq_ofNat_of_zero_le h
    have : (-(j : Int)).toNat = 0 := Int.toNat_eq_zero.mpr (by omega)
    rw [this]
    simp only [Int.toNat_ofNat, pow_zero, mul_one, zpow_natCast]
    push_cast
    field_simp
  · obtain ⟨j, hj⟩ : ∃ j : Nat, k = -(j : Int) := ⟨(-k).toNat, by omega⟩
    subst hj
    have h0 : (-(j : Int)).toNat = 0 := Int.toNat_eq_zero.mpr (by omega)
    rw [h0]
    simp only [neg_neg, Int.toNat_ofNat, pow_zero, mul_one, zpow_neg, zpow_natCast]
    push_cast
    field_simp

end F64

namespace F64

/-- The bounds on the scaled value that the choice of the exponent in `round`
guarantees. -/
theorem round_exponent (n d : Nat) (s q1 Q : Int) (hn : 0 < n) (hd : 0 < d)
    (hq1 : max ((log2 n : Int) - (log2 d : Int) + s - 52) (-1074) = q1)
    (hQ : (if scaledBelow n d (s - q1) = true then max (q1 - 1) (-1074) else q1) = Q) :
    -1074 ≤ Q ∧ (n : ℚ) / d * (2 : ℚ) ^ (s - Q) ≤ 2 ^ 53 ∧
      ((2 : ℚ) ^ 52 ≤ (n : ℚ) / d * (2 : ℚ) ^ (s - Q) ∨ Q = -1074) := by
  obtain ⟨ha1, ha2⟩ := log2_spec hn
  obtain ⟨hb1, hb2⟩ := log2_spec hd
  generalize log2 n = a at *
  generalize log2 d = b at *
  have hdq : (0 : ℚ) < d := by exact_mod_cast hd
  have h2 : (0 : ℚ) < 2 := by norm_num
  have ha1q : (2 : ℚ) ^ (a : Int) ≤ n := by rw [zpow_natCast]; exact_mod_cast ha1
  have ha2q : (n : ℚ) < (2 : ℚ) ^ ((a : Int) + 1) := by
    have : (n : ℚ) < (2 : ℚ) ^ (a + 1) := by exact_mod_cast ha2
    rw [show ((a : Int) + 1) = ((a + 1 : Nat) : Int) by push_cast; rfl, zpow_natCast]
    exact this
  have hb1q : (2 : ℚ) ^ (b : Int) ≤ d := by rw [zpow_natCast]; exact_mod_cast hb1
  have hb2q : (d : ℚ) < (2 : ℚ) ^ ((b : Int) + 1) := by
    have : (d : ℚ) < (2 : ℚ) ^ (b + 1) := by exact_mod_cast hb2
    rw [show ((b : Int) + 1) = ((b + 1 : Nat) : Int) by push_cast; rfl, zpow_natCast]
    exact this
  -- bounds on the quotient
  have hvhi : (n : ℚ) / d < (2 : ℚ) ^ ((a : Int) - b + 1) := by
    rw [div_lt_iff₀ hdq]
    calc (n : ℚ) < (2 : ℚ) ^ ((a : Int) + 1) := ha2q
      _ = (2 : ℚ) ^ ((a : Int) - b + 1) * (2 : ℚ) ^ (b : Int) := by
          rw [← zpow_add₀ (by norm_num : (2 : ℚ) ≠ 0)]; congr 1; ring
      _ ≤ (2 : ℚ) ^ ((a : Int) - b + 1) * d :=
          mul_le_mul_of_nonneg_left hb1q (le_of_lt (zpow_pos h2 _))
  have hvlo : (2 : ℚ) ^ ((a : Int) - b - 1) < (n : ℚ) / d := by
    rw [lt_div_iff₀ hdq]
    calc (2 : ℚ) ^ ((a : Int) - b - 1) * d
        < (2 : ℚ) ^ ((a : Int) - b - 1) * (2 : ℚ) ^ ((b : Int) + 1) :=
          mul_lt_mul_of_pos_left hb2q (zpow_pos h2 _)
      _ = (2 : ℚ) ^ (a : Int) := by
          rw [← zpow_add₀ (by norm_num : (2 : ℚ) ≠ 0)]; congr 1; ring
      _ ≤ n := ha1q
  -- scaled bounds
  have hup : ∀ q : Int, (a : Int) - b + s - 52 ≤ q →
      (n : ℚ) / d * (2 : ℚ) ^ (s - q) ≤ 2 ^ 53 := by
    intro q hq
    have hpos : (0 : ℚ) < (2 : ℚ) ^ (s - q) := zpow_pos h2 _
    calc (n : ℚ) / d * (2 : ℚ) ^ (s - q)
        ≤ (2 : ℚ) ^ ((a : Int) - b + 1) * (2 : ℚ) ^ (s - q) :=
          mul_le_mul_of_nonneg_right (le_of_lt hvhi) (le_of_lt hpos)
      _ = (2 : ℚ) ^ ((a : Int) - b + 1 + (s - q)) := by
          rw [← zpow_add₀ (by norm_num : (2 : ℚ) ≠ 0)]
      _ ≤ (2 : ℚ) ^ ((53 : Nat) : Int) :=
          zpow_le_zpow_right₀ (by norm_num) (by push_cast; omega)
      _ = 2 ^ 53 := zpow_natCast _ _
  have hsb : scaledBelow n d (s - q1) = true ↔
      (n : ℚ) / d * (2 : ℚ) ^ (s - q1) < 2 ^ 52 := by
    rw [scaledBelow_eq, decide_eq_true_iff, ← scaled_quotient n d (s - q1) hd]
    have hB : (0 : ℚ) < ((d * 2 ^ (-(s - q1)).toNat : Nat) : ℚ) := by
      exact_mod_cast Nat.mul_pos hd (by positivity)
    rw [div_lt_iff₀ hB]
    constructor
    · intro h; exact_mod_cast h
    · intro h; exact_mod_cast h
  have hq1lo : -1074 ≤ q1 := by rw [← hq1]; exact le_max_right _ _
  have hq1e : (a : Int) - b + s - 52 ≤ q1 := by rw [← hq1]; exact le_max_left _ _
  by_cases hbelow : scaledBelow n d (s - q1) = true
  · rw [if_pos hbelow] at hQ
    have hlt := hsb.mp hbelow
    by_cases hq : -1074 ≤ q1 - 1
    · have hQe : Q = q1 - 1 := by rw [← hQ]; exact max_eq_left hq
      have hq1eq : q1 = (a : Int) - b + s - 52 := by
        rw [← hq1] at hq ⊢
        rcases max_cases ((a : Int) - b + s - 52) (-1074) with ⟨h, _⟩ | ⟨h, _⟩
        · exact h
        · rw [h] at hq; omega
      have hX : (n : ℚ) / d * (2 : ℚ) ^ (s - Q) = 2 * ((n : ℚ) / d * (2 : ℚ) ^ (s - q1)) := by
        rw [hQe, show s - (q1 - 1) = (s - q1) + 1 by ring,
          zpow_add_one₀ (by norm_num : (2 : ℚ) ≠ 0)]
        ring
      refine ⟨by omega, ?_, Or.inl ?_⟩
      · rw [hX]
        have : (2 : ℚ) ^ 53 = 2 * 2 ^ 52 := by norm_num
        rw [this]
        linarith
      · have hpos : (0 : ℚ) < (2 : ℚ) ^ (s - Q) := zpow_pos h2 _
        calc (2 : ℚ) ^ 52 = (2 : ℚ) ^ ((52 : Nat) : Int) := (zpow_natCast _ _).symm
          _ = (2 : ℚ) ^ ((a : Int) - b - 1) * (2 : ℚ) ^ (s - Q) := by
              rw [← zpow_add₀ (by norm_num : (2 : ℚ) ≠ 0)]; congr 1; push_cast; omega
          _ ≤ (n : ℚ) / d * (2 : ℚ) ^ (s - Q) :=
              mul_le_mul_of_nonneg_right (le_of_lt hvlo) (le_of_lt hpos)
    · have hQe : Q = -1074 := by rw [← hQ]; exact max_eq_right (by omega)
      have hq1eq : q1 = -1074 := by omega
      refine ⟨by omega, ?_, Or.inr hQe⟩
      rw [hQe, ← hq1eq]
      have : (2 : ℚ) ^ 52 ≤ 2 ^ 53 := by norm_num
      linarith
  · rw [if_neg hbelow] at hQ
    subst hQ
    refine ⟨hq1lo, hup q1 hq1e, Or.inl ?_⟩
    by_contra hc
    exact hbelow (hsb.mpr (lt_of_not_le hc))

end F64

namespace F64

/-- Every value of `round` is a double in IEEE form. -/
theorem round_canonical (n d : Nat) (s : Int) (hd : 0 < d) : (round n d s).canonical := by
  unfold round
  by_cases hn : n = 0
  · simp [hn, canonical]
  · rw [if_neg hn]
    dsimp only
    generalize hq1 : max ((log2 n : Int) - (log2 d : Int) + s - 52) (-1074) = q1
    generalize hQ : (if scaledBelow n d (s - q1) = true then max (q1 - 1) (-1074) else q1) = Q
    obtain ⟨hQlo, hXhi, hXlo⟩ := round_exponent n d s q1 Q (Nat.pos_of_ne_zero hn) hd hq1 hQ
    have hB : 0 < d * 2 ^ (-(s - Q)).toNat := Nat.mul_pos hd (by positivity)
    have hBq : (0 : ℚ) < ((d * 2 ^ (-(s - Q)).toNat : Nat) : ℚ) := by exact_mod_cast hB
    rw [← scaled_quotient n d (s - Q) hd] at hXhi hXlo
    have hmhi : scaleRound n d (s - Q) ≤ 2 ^ 53 := by
      rw [scaleRound_eq]
      apply roundHalfEven_upper _ _ _ hB
      rw [div_le_iff₀ hBq] at hXhi
      exact_mod_cast hXhi
    have hmlo : 2 ^ 52 ≤ scaleRound n d (s - Q) ∨ Q = -1074 := by
      rcases hXlo with h | h
      · left
        rw [scaleRound_eq]
        apply roundHalfEven_lower _ _ _ hB
        rw [le_div_iff₀ hBq] at h
        exact_mod_cast h
      · exact Or.inr h
    generalize scaleRound n d (s - Q) = m at hmhi hmlo
    by_cases hm : m = 2 ^ 53
    · simp only [hm, if_true]
      by_cases hov : 971 < Q + 1
      · simp [hov, canonical]
      · simp only [hov, if_false, canonical]
        left
        refine ⟨le_refl _, by norm_num, by omega, by omega⟩
    · simp only [hm, if_false]
      by_cases hov : 971 < Q
      · simp [hov, canonical]
      · simp only [hov, if_false, canonical]
        rcases hmlo with h | h
        · left; exact ⟨h, by omega, hQlo, by omega⟩
        · by_cases h52 : 2 ^ 52 ≤ m
          · left; exact ⟨h52, by omega, hQlo, by omega⟩
          · right; exact ⟨by omega, h⟩

theorem ofNat_canonical (n : Nat) : (ofNat n).canonical := round_canonical n 1 0 (by norm_num)

theorem one_canonical : one.canonical :=
  Or.inl ⟨le_refl _, by norm_num, by norm_num, by norm_num⟩

theorem zero_canonical : zero.canonical := Or.inr ⟨by norm_num, rfl⟩

theorem div_canonical (x y : F64) : (div x y).canonical := by
  cases x with
  | nan => cases y <;> trivial
  | inf => cases y <;> trivial
  | fin m q =>
    cases y with
    | nan => trivial
    | inf => exact zero_canonical
    | fin m2 q2 =>
      simp only [div]
      split_ifs with h1 h2
      · trivial
      · trivial
      · exact round_canonical m m2 (q - q2) (Nat.pos_of_ne_zero h1)

end F64

theorem parseFloatDigits_canonical {ds : List Nat} {v : F64} (h : parseFloatDigits ds = some v) :
    v.canonical := by
  unfold parseFloatDigits at h
  have hc := F64.ofNat_canonical (natOfDigits ds)
  cases hv : F64.ofNat (natOfDigits ds) with
  | fin m q =>
    rw [hv] at h hc
    simp only [Option.some.injEq] at h
    rw [← h]; exact hc
  | inf => rw [hv] at h; simp at h
  | nan => rw [hv] at h; simp at h

/-- Every duration that `readDuration` returns is a double in IEEE form. -/
theorem Reader.readDuration_canonical (r r' : Reader) (D : F64)
    (h : Reader.readDuration r = (some D, r')) : D.canonical := by
  unfold Reader.readDuration at h
  cases h1 : readDigits r.buf with
  | mk ns stop =>
    rw [h1] at h
    cases stop with
    | none => simp at h
    | some p =>
      obtain ⟨b, rest⟩ := p
      dsimp only at h
      by_cases hA : ns.length = 0 ∧ decide (b = 47) = false
      · rw [if_pos hA] at h
        simp only [Prod.mk.injEq, Option.some.injEq] at h
        rw [← h.1]; exact F64.one_canonical
      · rw [if_neg hA] at h
        have hnom : ∀ nominator,
            (if 0 < ns.length then parseFloatDigits ns else some F64.zero) = some nominator →
            nominator.canonical := by
          intro nominator hn
          split_ifs at hn
          · exact parseFloatDigits_canonical hn
          · simp only [Option.some.injEq] at hn
            rw [← hn]; exact F64.zero_canonical
        generalize (if 0 < ns.length then parseFloatDigits ns else some F64.zero) = nom at h hnom
        cases nom with
        | none => simp at h
        | some nominator =>
          dsimp only at h
          by_cases hF : decide (b = 47) = false
          · rw [if_pos hF] at h
            simp only [Prod.mk.injEq, Option.some.injEq] at h
            rw [← h.1]; exact hnom nominator rfl
          · rw [if_neg hF] at h
            cases h2 : readDigits rest with
            | mk dsn stop2 =>
              rw [h2] at h
              cases stop2 with
              | none => simp at h
              | some q =>
                obtain ⟨c, rest2⟩ := q
                dsimp only at h
                by_cases hD : dsn.length = 0
                · rw [if_pos hD] at h; simp at h
                · rw [if_neg hD] at h
                  cases hpd : parseFloatDigits dsn with
                  | none => rw [hpd] at h; simp at h
                  | some den =>
                    rw [hpd] at h
                    simp only [Prod.mk.injEq, Option.some.injEq] at h
                    rw [← h.1]; exact F64.div_canonical _ _

namespace F64

/-- A quotient whose value is `m * 2 ^ -1074` with `m` below `2^52` is returned
exactly, as a subnormal. -/
theorem round_subnormal (n d m : Nat) (s : Int) (hd : 0 < d) (hn : n ≠ 0) (hm : m < 2 ^ 52)
    (he : (log2 n : Int) - (log2 d : Int) + s - 52 ≤ -1074)
    (hval : n * 2 ^ (s + 1074).toNat = m * (d * 2 ^ (-(s + 1074)).toNat)) :
    round n d s = fin m (-1074) := by
  have hB : 0 < d * 2 ^ (-(s + 1074)).toNat := Nat.mul_pos hd (by positivity)
  have hq1 : max ((log2 n : Int) - (log2 d : Int) + s - 52) (-1074) = -1074 := max_eq_right he
  have hs : s - -1074 = s + 1074 := by ring
  have hsb : scaledBelow n d (s + 1074) = true := by
    rw [scaledBelow_eq, hval, decide_eq_true_iff]
    exact Nat.mul_lt_mul_of_pos_right hm hB
  have hQ : max ((-1074 : Int) - 1) (-1074) = -1074 := by decide
  have hsr : scaleRound n d (s + 1074) = m := by
    rw [scaleRound_eq, hval]
    exact roundHalfEven_mul m _ hB
  have hm3 : m ≠ 2 ^ 53 := by omega
  unfold round
  simp only [hn, if_false, hq1, hs, hsb, if_true, hQ, hsr, hm3]
  simp

theorem log2_le_of_lt {n k : Nat} (h0 : 0 < n) (h : n < 2 ^ (k + 1)) : log2 n ≤ k := by
  obtain ⟨h1, _⟩ := log2_spec h0
  by_contra hc
  have : 2 ^ (k + 1) ≤ 2 ^ log2 n := Nat.pow_le_pow_right (by norm_num) (by omega)
  omega

/-- Doubling a double in IEEE form whose significand is below `2^52`. -/
theorem double_subnormal (m : Nat) (hm : m < 2 ^ 52) :
    double (fin m (-1074)) = fin (2 * m) (-1074) := by
  have hl1 : log2 1 = 0 := by decide
  unfold double
  rcases Nat.eq_zero_or_pos m with h0 | h0
  · subst h0; simp [round]
  · by_cases h51 : 2 * m < 2 ^ 52
    · apply round_subnormal m 1 (2 * m) _ (by norm_num) (by omega) h51
      · have := log2_le_of_lt h0 (show m < 2 ^ (51 + 1) by omega)
        rw [hl1]; omega
      · have e1 : ((-1074 : Int) + 1 + 1074).toNat = 1 := by decide
        have e2 : (-((-1074 : Int) + 1 + 1074)).toNat = 0 := by decide
        rw [e1, e2]; ring
    · have hl : log2 m = 51 := log2_unique (by omega) (by omega)
      apply round_exact m 1 (2 * m) _ (-1074) (by norm_num) (by omega) (by omega) (by norm_num)
        (by norm_num)
      · rw [hl, hl1]; norm_num
      · norm_num
      · have e1 : ((-1074 : Int) + 1 - -1074).toNat = 1 := by decide
        rw [e1]; ring

/-- Doubling a normal double below the last binade. -/
theorem double_normal (m : Nat) (q : Int) (h1 : 2 ^ 52 ≤ m) (h2 : m < 2 ^ 53)
    (hq1 : -1074 ≤ q) (hq2 : q < 971) : double (fin m q) = fin m (q + 1) := by
  have hl1 : log2 1 = 0 := by decide
  have hl : log2 m = 52 := log2_unique h1 h2
  unfold double
  apply round_exact m 1 m _ (q + 1) (by norm_num) h1 h2 (by omega) (by omega)
  · rw [hl, hl1]; push_cast; ring
  · omega
  · have : (q + 1 - (q + 1)).toNat = 0 := by simp
    rw [this]; ring

/-- Halving a normal double above the least exponent. -/
theorem half_normal (m : Nat) (q : Int) (h1 : 2 ^ 52 ≤ m) (h2 : m < 2 ^ 53)
    (hq1 : -1074 < q) (hq2 : q ≤ 971) : half (fin m q) = fin m (q - 1) := by
  have hl1 : log2 1 = 0 := by decide
  have hl : log2 m = 52 := log2_unique h1 h2
  unfold half
  apply round_exact m 1 m _ (q - 1) (by norm_num) h1 h2 (by omega) (by omega)
  · rw [hl, hl1]; push_cast; ring
  · omega
  · have : (q - 1 - (q - 1)).toNat = 0 := by simp
    rw [this]; ring

/-- Halving a double of the least exponent with an even significand. -/
theorem half_even (k : Nat) (hk : 2 * k < 2 ^ 53) :
    half (fin (2 * k) (-1074)) = fin k (-1074) := by
  have hl1 : log2 1 = 0 := by decide
  unfold half
  rcases Nat.eq_zero_or_pos k with h0 | h0
  · subst h0; simp [round]
  · apply round_subnormal (2 * k) 1 k _ (by norm_num) (by omega) (by omega)
    · have := log2_le_of_lt (show 0 < 2 * k by omega) (show 2 * k < 2 ^ (52 + 1) from hk)
      rw [hl1]; omega
    · have e1 : ((-1074 : Int) - 1 + 1074).toNat = 0 := by decide
      have e2 : (-((-1074 : Int) - 1 + 1074)).toNat = 1 := by decide
      rw [e1, e2]; ring

/-- The float64 product `x * 2.0` of a double in IEEE form is exactly twice
`x` whenever twice `x` is below `2^1024`. -/
theorem toRat_double (D : F64) (hc : D.canonical) (x : ℚ) (hx : toRat D = some x)
    (hlt : 2 * x < 2 ^ 1024) : toRat (double D) = some (2 * x) := by
  cases D with
  | inf => simp [toRat] at hx
  | nan => simp [toRat] at hx
  | fin m q =>
    simp only [toRat, Option.some.injEq] at hx
    rcases hc with ⟨h1, h2, hq1, hq2⟩ | ⟨h1, hq⟩
    · have hq971 : q < 971 := by
        by_contra hge
        have hq : q = 971 := by omega
        subst hq
        have : (2 : ℚ) ^ 1024 ≤ 2 * x := by
          rw [← hx]
          have hm : ((2 : ℚ) ^ 52) ≤ (m : ℚ) := by exact_mod_cast h1
          have : (2 : ℚ) ^ 1024 = 2 * ((2 : ℚ) ^ 52 * (2 : ℚ) ^ (971 : Int)) := by
            rw [show (971 : Int) = ((971 : Nat) : Int) by rfl, zpow_natCast, ← pow_add,
              ← pow_succ']
          rw [this]
          have hp : (0 : ℚ) < (2 : ℚ) ^ (971 : Int) := zpow_pos (by norm_num) _
          nlinarith
        linarith
      rw [double_normal m q h1 h2 hq1 hq971]
      simp only [toRat, Option.some.injEq]
      rw [← hx, zpow_add_one₀ (by norm_num : (2 : ℚ) ≠ 0)]
      ring
    · subst hq
      rw [double_subnormal m h1]
      simp only [toRat, Option.some.injEq]
      rw [← hx]
      push_cast
      ring

/-- The float64 quotient `x / 2.0` of a double in IEEE form is exactly half of
`x` whenever half of `x` is a multiple of `2^-1074`. -/
theorem toRat_half (D : F64) (hc : D.canonical) (x : ℚ) (hx : toRat D = some x)
    (hk : ∃ k : Nat, x = (k : ℚ) * (2 : ℚ) ^ (-1073 : Int)) :
    toRat (half D) = some (x / 2) := by
  cases D with
  | inf => simp [toRat] at hx
  | nan => simp [toRat] at hx
  | fin m q =>
    simp only [toRat, Option.some.injEq] at hx
    have hnormal : 2 ^ 52 ≤ m → m < 2 ^ 53 → -1074 < q → q ≤ 971 →
        toRat (half (fin m q)) = some (x / 2) := by
      intro h1 h2 hq1 hq2
      rw [half_normal m q h1 h2 hq1 hq2]
      simp only [toRat, Option.some.injEq]
      rw [← hx, zpow_sub_one₀ (by norm_num : (2 : ℚ) ≠ 0)]
      ring
    have heven : m < 2 ^ 53 → q = -1074 → toRat (half (fin m q)) = some (x / 2) := by
      intro h2 hq
      subst hq
      obtain ⟨k, hk⟩ := hk
      have hmk : m = 2 * k := by
        have h3 : (m : ℚ) * (2 : ℚ) ^ (-1074 : Int) = (k : ℚ) * (2 : ℚ) ^ (-1073 : Int) := by
          rw [hx, hk]
        have h4 : (2 : ℚ) ^ (-1073 : Int) = 2 * (2 : ℚ) ^ (-1074 : Int) := by
          rw [show (-1073 : Int) = -1074 + 1 by norm_num,
            zpow_add_one₀ (by norm_num : (2 : ℚ) ≠ 0)]
          ring
        rw [h4] at h3
        have hp : (2 : ℚ) ^ (-1074 : Int) ≠ 0 := (zpow_pos (by norm_num) _).ne'
        have h5 : (m : ℚ) = 2 * k := by
          have := mul_right_cancel₀ hp (show (m : ℚ) * (2 : ℚ) ^ (-1074 : Int) =
            (2 * (k : ℚ)) * (2 : ℚ) ^ (-1074 : Int) by rw [h3]; ring)
          exact this
        exact_mod_cast h5
      subst hmk
      rw [half_even k h2]
      simp only [toRat, Option.some.injEq]
      rw [← hx]
      push_cast
      ring
    rcases hc with ⟨h1, h2, hq1, hq2⟩ | ⟨h1, hq⟩
    · rcases eq_or_lt_of_le hq1 with hq | hq
      · exact heven h2 hq.symm
      · exact hnormal h1 h2 hq hq2
    · exact heven (by omega) hq

end F64

/-! ## The structural invariant along the parser -/

theorem updLast_length {α : Type} (f : α → α) : ∀ l : List α, (updLast f l).length = l.length := by
  intro l
  induction l with
  | nil => rfl
  | cons a t ih =>
    cases t with
    | nil => rfl
    | cons b t' => simp only [updLast, List.length_cons] at ih ⊢; omega

theorem updLast_eq_nil {α : Type} (f : α → α) (l : List α) : updLast f l = [] ↔ l = [] := by
  rw [← List.length_eq_zero, updLast_length, List.length_eq_zero]

theorem updLast_getLast? {α : Type} (f : α → α) : ∀ l : List α,
    (updLast f l).getLast? = l.getLast?.map f := by
  intro l
  induction l with
  | nil => rfl
  | cons a t ih =>
    cases t with
    | nil => rfl
    | cons b t' =>
      have hne : updLast f (b :: t') ≠ [] := by
        intro h; rw [updLast_eq_nil] at h; exact absurd h (by simp)
      rw [updLast, List.getLast?_cons_cons]
      obtain ⟨x, xs, hx⟩ := List.exists_cons_of_ne_nil hne
      rw [hx, List.getLast?_cons_cons, ← hx, ih]

theorem mem_updLast {α : Type} (f : α → α) : ∀ (l : List α) (x : α),
    x ∈ updLast f l → x ∈ l ∨ ∃ y ∈ l, x = f y := by
  intro l
  induction l with
  | nil => intro x h; simp [updLast] at h
  | cons a t ih =>
    intro x h
    cases t with
    | nil =>
      simp only [updLast, List.mem_singleton] at h
      exact Or.inr ⟨a, by simp, h⟩
    | cons b t' =>
      simp only [updLast, List.mem_cons] at h
      rcases h with h | h
      · exact Or.inl (by simp [h])
      · rcases ih x (by simpa using h) with h' | ⟨y, hy, hxy⟩
        · exact Or.inl (List.mem_cons_of_mem _ h')
        · exact Or.inr ⟨y, List.mem_cons_of_mem _ hy, hxy⟩

theorem OutP_ite {α : Type} {P : List Tune → Prop} {p : Prop} [Decidable p] {a b : Out α}
    (ha : OutP P a) (hb : OutP P b) : OutP P (if p then a else b) := by
  split_ifs <;> assumption

theorem readLine_Tunes (d : Decoder) : OutP (· = d.Tunes) (readLine d) := by
  unfold readLine
  generalize d.r.ReadBytes 10 = x
  obtain ⟨b, okr, r1⟩ := x
  dsimp only
  split_ifs <;> rfl

theorem readInline_Tunes (d : Decoder) : OutP (· = d.Tunes) (readInline d) := by
  unfold readInline
  generalize d.r.Peek 1 = x
  obtain ⟨b, okp, r1⟩ := x
  dsimp only
  generalize r1.ReadBytes 93 = y
  obtain ⟨l, okr, r2⟩ := y
  dsimp only
  split_ifs <;> rfl

theorem updLast_noteGroups_ne_nil (f : NoteGroup → NoteGroup) (m : Measure)
    (h : m.NoteGroups ≠ []) : updLast f m.NoteGroups ≠ [] := by
  intro hnil
  exact h ((updLast_eq_nil f _).mp hnil)

theorem readPitch_Tunes (d : Decoder) : OutP (· = d.Tunes) (readPitch d) := by
  unfold readPitch
  generalize d.r.readPitch = x
  obtain ⟨p, r1⟩ := x
  cases p <;> rfl

theorem readDuration_Tunes (d : Decoder) : OutP (· = d.Tunes) (readDuration d) := by
  unfold readDuration
  generalize d.r.readDuration = x
  obtain ⟨p, r1⟩ := x
  cases p <;> rfl

theorem applyBrokenRhythm_Tunes (D : F64) (d : Decoder) :
    (applyBrokenRhythm D d).2.Tunes = d.Tunes := by
  unfold applyBrokenRhythm
  split_ifs <;> rfl

theorem OkP_ite {α : Type} {P : List Tune → Prop} {p : Prop} [Decidable p] {a b : Out α}
    (ha : OkP P a) (hb : OkP P b) : OkP P (if p then a else b) := by
  split_ifs <;> assumption

theorem TuneStep_of_measures_eq {t t' : Tune} (h : t'.Measures = t.Measures) : TuneStep t t' := by
  unfold TuneStep Tune.groupsOk
  rw [h]
  exact ⟨Iff.rfl, id⟩

/-- Changing the last measure in a way that keeps its note groups non-empty is
a `TuneStep`. -/
theorem TuneStep_updLast (t : Tune) (g : Measure → Measure)
    (hg : ∀ m, m.NoteGroups ≠ [] → (g m).NoteGroups ≠ []) :
    TuneStep t { t with Measures := updLast g t.Measures } := by
  refine ⟨updLast_eq_nil g _, fun h m hm => ?_⟩
  rcases mem_updLast g _ m hm with h' | ⟨y, hy, hmy⟩
  · exact h m h'
  · rw [hmy]; exact hg y (h y hy)

theorem getLast?_snoc {α : Type} (l : List α) (a : α) : (l ++ [a]).getLast? = some a := by
  simp

theorem eq_nil_or_snoc {α : Type} (l : List α) : l = [] ∨ ∃ init y, l = init ++ [y] := by
  rcases List.eq_nil_or_concat l with h | ⟨init, y, h⟩
  · exact Or.inl h
  · exact Or.inr ⟨init, y, by rw [h, List.concat_eq_append]⟩

theorem updLast_concat_cases {α : Type} (f : α → α) (l : List α) :
    (l = [] ∧ updLast f l = []) ∨
    ∃ init y, l = init ++ [y] ∧ l.getLast? = some y ∧ updLast f l = init ++ [f y] := by
  rcases eq_nil_or_snoc l with h | ⟨init, y, h⟩
  · subst h; exact Or.inl ⟨rfl, rfl⟩
  · subst h
    exact Or.inr ⟨init, y, rfl, getLast?_snoc _ _, updLast_append f init y⟩

theorem noMeasures_stable : Stable noMeasures := by
  refine ⟨fun ts t ht h u hu => ?_, fun f ts hf h u hu => ?_⟩
  · rcases List.mem_append.mp hu with hu | hu
    · exact h u hu
    · simp only [List.mem_singleton] at hu
      rw [hu]; exact ht
  · rcases updLast_concat_cases f ts with ⟨_, h2⟩ | ⟨init, y, h1, h2, h3⟩
    · rw [h2] at hu; simp at hu
    · rw [h3] at hu
      rcases List.mem_append.mp hu with hu | hu
      · exact h u (by rw [h1]; exact List.mem_append_left _ hu)
      · simp only [List.mem_singleton] at hu
        rw [hu]
        exact ((hf y h2).1).mpr (h y (by rw [h1]; simp))

theorem oneBody_stable : Stable oneBody := by
  refine ⟨fun ts t ht h => ?_, fun f ts hf h => ?_⟩
  · obtain ⟨hg, pre, t0, post, hts, h0, hpre, hpost⟩ := h
    refine ⟨fun u hu => ?_, pre, t0, post ++ [t], by rw [hts]; simp, h0, hpre, fun u hu => ?_⟩
    · rcases List.mem_append.mp hu with hu | hu
      · exact hg u hu
      · simp only [List.mem_singleton] at hu
        rw [hu]
        intro m hm
        rw [ht] at hm
        simp at hm
    · rcases List.mem_append.mp hu with hu | hu
      · exact hpost u hu
      · simp only [List.mem_singleton] at hu
        rw [hu]; exact ht
  · obtain ⟨hg, pre, t0, post, hts, h0, hpre, hpost⟩ := h
    rcases eq_nil_or_snoc post with hp | ⟨post', y, hp⟩
    · subst hp
      have hlast : ts.getLast? = some t0 := by rw [hts]; exact getLast?_snoc _ _
      have hupd : updLast f ts = pre ++ [f t0] := by rw [hts]; exact updLast_append f pre t0
      have hstep := hf t0 hlast
      refine ⟨fun u hu => ?_, pre, f t0, [], hupd, fun hc => h0 (hstep.1.mp hc), hpre,
        fun u hu => by simp at hu⟩
      rw [hupd] at hu
      rcases List.mem_append.mp hu with hu | hu
      · exact hg u (by rw [hts]; exact List.mem_append_left _ hu)
      · simp only [List.mem_singleton] at hu
        rw [hu]
        exact hstep.2 (hg t0 (by rw [hts]; simp))
    · subst hp
      have hts' : ts = (pre ++ t0 :: post') ++ [y] := by rw [hts]; simp
      have hlast : ts.getLast? = some y := by rw [hts']; exact getLast?_snoc _ _
      have hupd : updLast f ts = (pre ++ t0 :: post') ++ [f y] := by
        rw [hts']; exact updLast_append f _ y
      have hstep := hf y hlast
      have hy : y.Measures = [] := hpost y (by simp)
      refine ⟨fun u hu => ?_, pre, t0, post' ++ [f y], by rw [hupd]; simp, h0, hpre,
        fun u hu => ?_⟩
      · rw [hupd] at hu
        rcases List.mem_append.mp hu with hu | hu
        · exact hg u (by rw [hts']; exact List.mem_append_left _ hu)
        · simp only [List.mem_singleton] at hu
          rw [hu]
          exact hstep.2 (hg y (by rw [hts']; simp))
      · rcases List.mem_append.mp hu with hu | hu
        · exact hpost u (List.mem_append_left _ hu)
        · simp only [List.mem_singleton] at hu
          rw [hu]
          exact hstep.1.mpr hy

/-- The first statement of `readTuneBody`, which gives the last tune its first
measure, starts the body phase. -/
theorem oneBody_of_noMeasures (ts : List Tune) (h : noMeasures ts) (hne : ts ≠ []) :
    oneBody (updLast (fun t : Tune => { t with Measures := [{ NoteGroups := [{}] }] }) ts) := by
  rcases updLast_concat_cases
      (fun t : Tune => { t with Measures := [{ NoteGroups := [{}] }] }) ts with
    ⟨h1, _⟩ | ⟨init, y, h1, _, h3⟩
  · exact absurd h1 hne
  · rw [h3]
    refine ⟨fun u hu m hm => ?_, init, _, [], rfl, by simp,
      fun u hu => h u (by rw [h1]; exact List.mem_append_left _ hu), fun u hu => by simp at hu⟩
    rcases List.mem_append.mp hu with hu | hu
    · have := h u (by rw [h1]; exact List.mem_append_left _ hu)
      rw [this] at hm
      simp at hm
    · simp only [List.mem_singleton] at hu
      rw [hu] at hm
      simp only [List.mem_singleton] at hm
      rw [hm]; simp

theorem setLastTune_stable {P : List Tune → Prop} (hP : Stable P) (f : Tune → Tune)
    (hf : ∀ t, TuneStep t (f t)) (d : Decoder) (h : P d.Tunes) : OutP P (setLastTune f d) := by
  unfold setLastTune
  split_ifs
  · trivial
  · exact hP.2 f _ (fun t _ => hf t) h

theorem meterField_stable {P : List Tune → Prop} (hP : Stable P) (line : List Nat) (d : Decoder)
    (h : P d.Tunes) : OutP P (meterField line d) := by
  unfold meterField
  repeat' (first
    | trivial
    | exact h
    | (refine hP.2 _ _ (fun t _ => ?_) h
       first
       | exact TuneStep_of_measures_eq rfl
       | exact TuneStep_updLast t _ (fun m hm => hm))
    | split)

theorem continuationField_stable {P : List Tune → Prop} (hP : Stable P) (line : List Nat)
    (d : Decoder) (h : P d.Tunes) : OutP P (continuationField line d) := by
  unfold continuationField
  repeat' (first
    | exact h
    | (refine setLastTune_stable hP _ (fun t => TuneStep_of_measures_eq ?_) _ h
       rfl)
    | split)

theorem dispatchField_stable {P : List Tune → Prop} (hP : Stable P) (c : Nat) (line : List Nat)
    (d : Decoder) (h : P d.Tunes) : OutP P (dispatchField c line d) := by
  unfold dispatchField
  repeat' (first
    | exact h
    | exact meterField_stable hP line d h
    | exact continuationField_stable hP line d h
    | (refine setLastTune_stable hP _ (fun t => TuneStep_of_measures_eq ?_) _ h
       first
       | rfl
       | (split_ifs <;> rfl))
    | exact hP.1 _ _ rfl h
    | apply OutP_ite
    | split)

theorem processField_stable {P : List Tune → Prop} (hP : Stable P) (fullLine : List Nat)
    (d : Decoder) (h : P d.Tunes) : OutP P (processField fullLine d) := by
  unfold processField
  split
  · trivial
  · trivial
  · split_ifs
    · exact h
    · exact dispatchField_stable hP _ _ d h

theorem readInformationField_stable {P : List Tune → Prop} (hP : Stable P) (inline : Bool)
    (d : Decoder) (h : P d.Tunes) : OutP P (readInformationField inline d) := by
  unfold readInformationField
  have h0 : OutP (· = d.Tunes)
      (if !inline then readLine (skipComments d) else readInline (skipComments d)) := by
    cases inline
    · exact readLine_Tunes (skipComments d)
    · exact readInline_Tunes (skipComments d)
  generalize (if !inline then readLine (skipComments d) else readInline (skipComments d)) = x
    at h0 ⊢
  cases x with
  | ok fl d1 =>
    have h1 : d1.Tunes = d.Tunes := h0
    exact processField_stable hP fl d1 (by rw [h1]; exact h)
  | err d1 =>
    have h1 : d1.Tunes = d.Tunes := h0
    show P d1.Tunes
    rw [h1]; exact h
  | panic => trivial
  | timeout => trivial

theorem updCurrentMeasure_stable {P : List Tune → Prop} (hP : Stable P) (g : Measure → Measure)
    (hg : ∀ m, m.NoteGroups ≠ [] → (g m).NoteGroups ≠ []) (d : Decoder)
    (h : P d.Tunes) : P (updCurrentMeasure g d).Tunes :=
  hP.2 _ _ (fun t _ => TuneStep_updLast t g hg) h

theorem readNote_stable {P : List Tune → Prop} (hP : Stable P) (cm : Measure) (d : Decoder)
    (h : P d.Tunes) : OutP P (readNote cm d) := by
  unfold readNote
  have h1 := readPitch_Tunes d
  generalize readPitch d = x at h1 ⊢
  cases x with
  | ok pitch d1 =>
    dsimp only
    have e1 : d1.Tunes = d.Tunes := h1
    have h2 := readDuration_Tunes d1
    generalize readDuration d1 = y at h2 ⊢
    cases y with
    | ok duration d2 =>
      dsimp only
      have e2 : d2.Tunes = d1.Tunes := h2
      have e3 := applyBrokenRhythm_Tunes duration d2
      generalize applyBrokenRhythm duration d2 = z at e3 ⊢
      obtain ⟨duration2, d3⟩ := z
      dsimp only at e3 ⊢
      apply OutP_ite
      · trivial
      · exact updCurrentMeasure_stable hP _ (fun m hm => updLast_noteGroups_ne_nil _ m hm) d3
          (by rw [e3, e2, e1]; exact h)
    | err d2 =>
      have e2 : d2.Tunes = d1.Tunes := h2
      show P d2.Tunes
      rw [e2, e1]; exact h
    | panic => trivial
    | timeout => trivial
  | err d1 =>
    have e1 : d1.Tunes = d.Tunes := h1
    show P d1.Tunes
    rw [e1]; exact h
  | panic => trivial
  | timeout => trivial

theorem readDelimited_stable {P : List Tune → Prop} (close : Nat) (d : Decoder)
    (h : P d.Tunes) : OutP P (readDelimited close d) := by
  unfold readDelimited
  generalize d.r.ReadByte = x
  obtain ⟨b, r1⟩ := x
  cases b with
  | none => exact h
  | some b =>
    dsimp only
    generalize r1.ReadBytes close = y
    obtain ⟨full, okr, r2⟩ := y
    dsimp only
    repeat' (first | trivial | exact h | apply OutP_ite)

/-- The barline branch, taken by `readElement` when the last tune has a measure. -/
theorem readBarline_stable {P : List Tune → Prop} (hP : Stable P) (d : Decoder) (tune : Tune)
    (hT : d.Tunes.getLast? = some tune) (hM : tune.Measures ≠ []) (h : P d.Tunes) :
    OutP P (readBarline d) := by
  unfold readBarline
  generalize d.r.ReadByte = x
  obtain ⟨b, r1⟩ := x
  cases b with
  | none => exact h
  | some barline =>
    dsimp only
    generalize r1.Peek 1 = y
    obtain ⟨newBarline, okp, r2⟩ := y
    dsimp only
    have h1 : P (updLast (fun t : Tune => { t with
        Measures := updLast (fun m : Measure =>
            if barline = 91 then { m with ThickEnd := true }
            else if barline = 58 then { m with RepeatEnd := true }
            else m) t.Measures ++ [{ NoteGroups := [{}] }] }) d.Tunes) := by
      refine hP.2 _ _ (fun t ht => ?_) h
      have ht' : t = tune := by rw [hT] at ht; exact (Option.some.inj ht).symm
      subst ht'
      refine ⟨by simp [hM], fun hg m hm => ?_⟩
      rcases List.mem_append.mp hm with hm | hm
      · rcases mem_updLast _ _ m hm with h' | ⟨y, hy, hmy⟩
        · exact hg m h'
        · rw [hmy]
          split_ifs <;> exact hg y hy
      · simp only [List.mem_singleton] at hm
        rw [hm]; simp
    repeat' (first
      | exact h1
      | (refine updCurrentMeasure_stable hP _ ?_ _ h1
         intro m hm
         exact hm)
      | apply OutP_ite)

theorem readBrokenRhythm_stable {P : List Tune → Prop} (hP : Stable P) (cm : Measure)
    (d : Decoder) (h : P d.Tunes) : OutP P (readBrokenRhythm cm d) := by
  unfold readBrokenRhythm
  generalize d.r.ReadByte = x
  obtain ⟨b, r1⟩ := x
  cases b with
  | none => exact h
  | some b =>
    dsimp only
    apply OutP_ite
    · cases cm.NoteGroups.getLast? with
      | none => trivial
      | some g =>
        dsimp only
        repeat' (first
          | trivial
          | exact updCurrentMeasure_stable hP _ (fun m hm => updLast_noteGroups_ne_nil _ m hm)
              { d with r := r1 } h
          | apply OutP_ite)
    · exact h

theorem readElement_stable {P : List Tune → Prop} (hP : Stable P) (d : Decoder)
    (h : P d.Tunes) : OutP P (readElement d) := by
  unfold readElement
  cases hT : d.Tunes.getLast? with
  | none => trivial
  | some tune =>
    dsimp only
    cases hM : tune.Measures.getLast? with
    | none => trivial
    | some cm =>
      have hMne : tune.Measures ≠ [] := by
        intro hnil; rw [hnil] at hM; simp at hM
      dsimp only
      generalize peekLexToken d.r = x
      obtain ⟨b, okp, r0⟩ := x
      dsimp only
      apply OutP_ite
      · exact h
      apply OutP_ite
      · apply OutP_ite
        · exact readNote_stable hP cm _ h
        · exact h
      apply OutP_ite
      · exact readDelimited_stable 34 _ h
      apply OutP_ite
      · generalize r0.ReadByte = y
        obtain ⟨c, r1⟩ := y
        cases c <;>
          exact updCurrentMeasure_stable hP _ (fun m _ => by simp) { d with r := r1 } h
      apply OutP_ite
      · exact readBarline_stable hP { d with r := r0 } tune hT hMne h
      apply OutP_ite
      · exact readInformationField_stable hP true _ h
      apply OutP_ite
      · exact h
      apply OutP_ite
      · exact readDelimited_stable 93 _ h
      apply OutP_ite
      · exact readBrokenRhythm_stable hP cm _ h
      · exact h

theorem elementLoop_stable {P : List Tune → Prop} (hP : Stable P) :
    ∀ (fuel : Nat) (b : List Nat) (d : Decoder), P d.Tunes → OutP P (elementLoop fuel b d) := by
  intro fuel
  induction fuel with
  | zero => intro b d h; trivial
  | succ n ih =>
    intro b d h
    unfold elementLoop
    cases isElement b with
    | none => trivial
    | some e =>
      cases e with
      | false => exact h
      | true =>
        dsimp only
        have h1 := readElement_stable hP d h
        generalize readElement d = x at h1 ⊢
        cases x with
        | ok a d1 =>
          dsimp only
          generalize peekLexToken d1.r = y
          obtain ⟨b1, okp, r1⟩ := y
          exact ih b1 _ h1
        | err d1 => exact h1
        | panic => trivial
        | timeout => trivial

theorem readABCLine_stable {P : List Tune → Prop} (hP : Stable P) (fuel : Nat) (d : Decoder)
    (h : P d.Tunes) : OutP P (readABCLine fuel d) := by
  unfold readABCLine
  generalize peekLexToken d.r = x
  obtain ⟨b, okp, r0⟩ := x
  dsimp only
  apply OutP_ite
  · exact h
  apply OutP_ite
  · have h1 := readInformationField_stable hP false { d with r := r0 } h
    generalize readInformationField false { d with r := r0 } = y at h1 ⊢
    cases y with
    | ok a d1 => exact elementLoop_stable hP fuel b d1 h1
    | err d1 => exact h1
    | panic => trivial
    | timeout => trivial
  · exact elementLoop_stable hP fuel b _ h

theorem tuneBodyLoop_stable {P : List Tune → Prop} (hP : Stable P) :
    ∀ (fuel : Nat) (b : List Nat) (d : Decoder), P d.Tunes → OutP P (tuneBodyLoop fuel b d) := by
  intro fuel
  induction fuel with
  | zero => intro b d h; trivial
  | succ n ih =>
    intro b d h
    unfold tuneBodyLoop
    apply OutP_ite
    · exact h
    have h1 := readABCLine_stable hP n d h
    generalize readABCLine n d = x at h1 ⊢
    cases x with
    | ok a d1 =>
      dsimp only
      have h2 : P (skipComments d1).Tunes := h1
      generalize (skipComments d1) = d2 at h2 ⊢
      generalize d2.r.ReadByte = y
      obtain ⟨nl, r3⟩ := y
      cases nl with
      | none => exact h2
      | some nl =>
        dsimp only
        apply OutP_ite
        · exact h2
        generalize r3.Peek 1 = z
        obtain ⟨b1, okp, r4⟩ := z
        dsimp only
        apply OutP_ite
        · exact h2
        · exact ih b1 _ h2
    | err d1 => exact h1
    | panic => trivial
    | timeout => trivial

/-- Started with no measure in any tune, `readTuneBody` ends, successful or
not, with a note group in every measure and measures in exactly one tune. -/
theorem readTuneBody_oneBody (fuel : Nat) (d : Decoder) (h : noMeasures d.Tunes) :
    OutP oneBody (readTuneBody fuel d) := by
  unfold readTuneBody
  split_ifs with hnil
  · trivial
  · have h0 := oneBody_of_noMeasures d.Tunes h hnil
    dsimp only
    generalize hd1 : skipComments { d with
      Tunes := updLast (fun t : Tune => { t with Measures := [{ NoteGroups := [{}] }] })
        d.Tunes } = d1
    have hT1 : d1.Tunes =
        updLast (fun t : Tune => { t with Measures := [{ NoteGroups := [{}] }] }) d.Tunes := by
      rw [← hd1]; rfl
    rw [← hT1] at h0
    generalize d1.r.Peek 1 = x
    obtain ⟨b, okp, r2⟩ := x
    dsimp only
    apply OutP_ite
    · exact h0
    · exact tuneBodyLoop_stable oneBody_stable fuel b { d1 with r := r2 } h0

theorem decodeBody_oneBody (fuel : Nat) (d : Decoder) (h : noMeasures d.Tunes) :
    OkP oneBody (decodeBody fuel d) := by
  unfold decodeBody
  have h1 := readTuneBody_oneBody fuel d h
  generalize readTuneBody fuel d = x at h1 ⊢
  cases x with
  | ok a d1 => exact h1
  | err d1 => exact h1
  | panic => trivial
  | timeout => trivial

theorem fileHeaderLoop_stable {P : List Tune → Prop} (hP : Stable P) :
    ∀ (fuel : Nat) (d : Decoder), P d.Tunes → OutP P (fileHeaderLoop fuel d) := by
  intro fuel
  induction fuel with
  | zero => intro d h; trivial
  | succ n ih =>
    intro d h
    unfold fileHeaderLoop
    have h1 := readInformationField_stable hP false d h
    have key : ∀ d1 : Decoder, P d1.Tunes →
        OutP P (match d1.r.Peek 1 with
          | (b, okp, r2) =>
            if !okp then Out.err { d1 with r := r2 }
            else if b = [10] then Out.ok PUnit.unit { d1 with r := r2, inFileHeader := false }
            else fileHeaderLoop n { d1 with r := r2 }) := by
      intro d1 hd1
      generalize d1.r.Peek 1 = y
      obtain ⟨b, okp, r2⟩ := y
      dsimp only
      apply OutP_ite
      · exact hd1
      apply OutP_ite
      · exact hd1
      · exact ih _ hd1
    generalize readInformationField false d = x at h1 ⊢
    cases x with
    | ok a d1 => exact key d1 h1
    | err d1 => exact key d1 h1
    | panic => trivial
    | timeout => trivial

theorem readFileHeader_stable {P : List Tune → Prop} (hP : Stable P) (fuel : Nat) (d : Decoder)
    (h : P d.Tunes) : OutP P (readFileHeader fuel d) := by
  unfold readFileHeader
  generalize d.r.Peek 1 = y
  obtain ⟨b, okp, r1⟩ := y
  dsimp only
  apply OutP_ite
  · exact h
  apply OutP_ite
  · exact h
  · exact fileHeaderLoop_stable hP fuel _ h

theorem tuneHeaderLoop_stable {P : List Tune → Prop} (hP : Stable P) :
    ∀ (fuel : Nat) (d : Decoder), P d.Tunes → OutP P (tuneHeaderLoop fuel d) := by
  intro fuel
  induction fuel with
  | zero => intro d h; trivial
  | succ n ih =>
    intro d h
    unfold tuneHeaderLoop
    apply OutP_ite
    · exact h
    have h1 := readInformationField_stable hP false d h
    generalize readInformationField false d = x at h1 ⊢
    cases x with
    | ok a d1 => exact ih d1 h1
    | err d1 => exact h1
    | panic => trivial
    | timeout => trivial

theorem readTuneHeader_stable {P : List Tune → Prop} (hP : Stable P) (fuel : Nat) (d : Decoder)
    (h : P d.Tunes) : OutP P (readTuneHeader fuel d) := by
  unfold readTuneHeader
  have h1 := readInformationField_stable hP false d h
  generalize readInformationField false d = x at h1 ⊢
  cases x with
  | ok a d1 =>
    dsimp only
    apply OutP_ite
    · exact h1
    have h2 := readInformationField_stable hP false d1 h1
    generalize readInformationField false d1 = y at h2 ⊢
    cases y with
    | ok a d2 =>
      dsimp only
      cases d2.Tunes.getLast? with
      | none => trivial
      | some t =>
        dsimp only
        apply OutP_ite
        · exact h2
        · exact tuneHeaderLoop_stable hP fuel d2 h2
    | err d2 => exact h2
    | panic => trivial
    | timeout => trivial
  | err d1 => exact h1
  | panic => trivial
  | timeout => trivial

theorem decodeFile_oneBody (fuel : Nat) (d : Decoder) (h : noMeasures d.Tunes) :
    OkP oneBody (decodeFile fuel d) := by
  unfold decodeFile
  have h1 := readFileHeader_stable noMeasures_stable fuel (skipComments d) h
  generalize readFileHeader fuel (skipComments d) = x at h1 ⊢
  cases x with
  | ok a d1 =>
    dsimp only
    generalize d1.r.ReadBytes 10 = y
    obtain ⟨b, okr, r2⟩ := y
    dsimp only
    apply OkP_ite
    · trivial
    apply OkP_ite
    · trivial
    have h2 := readTuneHeader_stable noMeasures_stable fuel { d1 with r := r2 } h1
    generalize readTuneHeader fuel { d1 with r := r2 } = z at h2 ⊢
    cases z with
    | ok a d3 => exact decodeBody_oneBody fuel d3 h2
    | err d3 => trivial
    | panic => trivial
    | timeout => trivial
  | err d1 => trivial
  | panic => trivial
  | timeout => trivial

theorem skipBOM_Tunes (d : Decoder) : OutP (· = d.Tunes) (skipBOM d) := by
  unfold skipBOM
  split <;> rfl

theorem readMagicNumber_Tunes (pf : List Nat → Option F64) (d : Decoder) :
    OutP (· = d.Tunes) (readMagicNumber pf d) := by
  unfold readMagicNumber
  generalize d.r.ReadBytes 10 = x
  obtain ⟨line, okr, r1⟩ := x
  dsimp only
  repeat' (first | trivial | rfl | apply OutP_ite | split)

/-- Started with no measure in any tune, `Decode` returns no error only with a
note group in every measure and measures in exactly one tune. -/
theorem Decode_oneBody (pf : List Nat → Option F64) (fuel : Nat) (d : Decoder)
    (h : noMeasures d.Tunes) : OkP oneBody (Decode pf fuel d) := by
  unfold Decode
  have h1 := skipBOM_Tunes d
  generalize skipBOM d = x at h1 ⊢
  cases x with
  | ok a d1 =>
    have e1 : d1.Tunes = d.Tunes := h1
    dsimp only
    apply OkP_ite
    · have h2 := readMagicNumber_Tunes pf d1
      generalize readMagicNumber pf d1 = y at h2 ⊢
      cases y with
      | ok a d2 =>
        have e2 : d2.Tunes = d1.Tunes := h2
        exact decodeFile_oneBody fuel d2 (by rw [e2, e1]; exact h)
      | err d2 => trivial
      | panic => trivial
      | timeout => trivial
    · exact decodeFile_oneBody fuel d1 (by rw [e1]; exact h)
  | err d1 => trivial
  | panic => trivial
  | timeout => trivial

/-! ## Information fields read from a line -/

theorem IndexByte_mem (c : Nat) : ∀ (l s : List Nat), c ∈ l →
    IndexByte (l ++ s) c = some (l.takeWhile (fun b => !decide (b = c))).length ∧
    (l.takeWhile (fun b => !decide (b = c))).length < l.length := by
  intro l
  induction l with
  | nil => intro s h; simp at h
  | cons b t ih =>
    intro s h
    by_cases hb : b = c
    · subst hb
      simp [IndexByte]
    · have hc : c ∈ t := by
        rcases List.mem_cons.mp h with h | h
        · exact absurd h.symm hb
        · exact h
      obtain ⟨h1, h2⟩ := ih s hc
      simp [IndexByte, hb, h1, h2]

theorem take_takeWhile_length (p : Nat → Bool) : ∀ (l s : List Nat),
    (l ++ s).take (l.takeWhile p).length = l.takeWhile p := by
  intro l
  induction l with
  | nil => intro s; simp
  | cons b t ih =>
    intro s
    by_cases hb : p b = true
    · simp [List.takeWhile_cons, hb, ih s]
    · simp [List.takeWhile_cons, hb]

/-- The method `readLine` on a whole line. -/
theorem readLine_line (d : Decoder) (l rest : List Nat)
    (hbuf : d.r.buf = l ++ 10 :: rest) (hl : ∀ b ∈ l, b ≠ 10) :
    readLine d = .ok (lineText l) { d with r := { buf := rest, lastByte := some 10 } } := by
  have h1 := splitAfter_run 10 l rest hl
  by_cases hc : 37 ∈ l
  · obtain ⟨h2, h3⟩ := IndexByte_mem 37 l [10] hc
    have h4 := take_takeWhile_length (fun b => !decide (b = 37)) l [10]
    have h5 : (l.takeWhile (fun b => !decide (b = 37))).length ≠ (l ++ [10]).length - 1 := by
      simp; omega
    simp only [readLine, Reader.ReadBytes, hbuf, h1, commentStart, h2]
    simp only [Bool.not_true, Bool.false_eq_true, if_false, h5, ne_eq, not_false_eq_true, if_true,
      h4, lineText]
  · have h2 : IndexByte (l ++ [10]) 37 = none := by
      apply IndexByte_none
      intro b hb
      simp at hb
      rcases hb with hb | hb
      · intro h; exact hc (h ▸ hb)
      · omega
    have h3 : l.takeWhile (fun b => !decide (b = 37)) = l := by
      rw [List.takeWhile_eq_self_iff]
      intro b hb
      simp only [Bool.not_eq_true', decide_eq_false_iff_not]
      intro h; exact hc (h ▸ hb)
    simp [readLine, Reader.ReadBytes, hbuf, h1, commentStart, h2, lineText, h3]

/-- The method `readInformationField(false)` on a whole line that is not a comment line. -/
theorem readInformationField_line (d : Decoder) (l rest : List Nat)
    (hbuf : d.r.buf = l ++ 10 :: rest) (hl : ∀ b ∈ l, b ≠ 10) (hc : l.head? ≠ some 37) :
    readInformationField false d =
      processField (lineText l) { d with r := { buf := rest, lastByte := some 10 } } := by
  obtain ⟨b, t, hbt, hb⟩ : ∃ b t, d.r.buf = b :: t ∧ b ≠ 37 := by
    cases l with
    | nil => exact ⟨10, rest, by simpa using hbuf, by decide⟩
    | cons a l' =>
      refine ⟨a, l' ++ 10 :: rest, by simpa using hbuf, ?_⟩
      intro h; apply hc; simp [h]
  have hs := skipComments_head hbt hb
  have hrl := readLine_line (skipComments d) l rest (by rw [hs]; exact hbuf) hl
  rw [readInformationField]
  simp only [Bool.not_false, if_true, hrl]
  rw [hs]

theorem dropSpaceRune_eq_none {s : List Nat} :
    dropSpaceRune s = none ↔ ∀ w ∈ spaceRunes, startsWith w s = false := by
  simp [dropSpaceRune, List.find?_eq_none]

theorem dropSpaceRuneRev_eq_none {s : List Nat} :
    dropSpaceRuneRev s = none ↔ ∀ w ∈ spaceRunes, startsWith w.reverse s = false := by
  simp [dropSpaceRuneRev, List.find?_eq_none]

theorem startsWith_head_ne {a x : Nat} (w t : List Nat) (h : a ≠ x) :
    startsWith (a :: w) (x :: t) = false := by
  simp [startsWith, h]

theorem spaceRunes_head : ∀ w ∈ spaceRunes, ∃ a w', w = a :: w' ∧ (a ≤ 32 ∨ 128 ≤ a) := by
  intro w hw
  simp only [spaceRunes, List.mem_cons, List.mem_singleton, List.not_mem_nil, or_false] at hw
  rcases hw with h | h | h | h | h | h | h | h | h | h | h | h | h | h | h | h | h | h | h | h | h |
    h | h | h | h <;> subst h <;> exact ⟨_, _, rfl, by omega⟩

theorem spaceRunes_last : ∀ w ∈ spaceRunes, ∃ a w', w.reverse = a :: w' ∧
    (∀ b ∈ a :: w', b ≤ 32 ∨ 128 ≤ b) := by
  intro w hw
  simp only [spaceRunes, List.mem_cons, List.mem_singleton, List.not_mem_nil, or_false] at hw
  rcases hw with h | h | h | h | h | h | h | h | h | h | h | h | h | h | h | h | h | h | h | h | h |
    h | h | h | h <;> subst h <;> exact ⟨_, _, rfl, by decide⟩

theorem dropSpaceRune_ascii {L : Nat} (t : List Nat) (h1 : 33 ≤ L) (h2 : L ≤ 126) :
    dropSpaceRune (L :: t) = none := by
  rw [dropSpaceRune_eq_none]
  intro w hw
  obtain ⟨a, w', rfl, ha⟩ := spaceRunes_head w hw
  exact startsWith_head_ne _ _ (by omega)

theorem startsWith_append_false : ∀ (p s : List Nat) (x : Nat) (t : List Nat), p ≠ [] →
    (∀ a ∈ p, a ≠ x) → startsWith p s = false → startsWith p (s ++ x :: t) = false := by
  intro p
  induction p with
  | nil => intro s x t h; exact absurd rfl h
  | cons a p' ih =>
    intro s x t _ hx hs
    cases s with
    | nil => simp [startsWith, hx a (by simp)]
    | cons b s' =>
      simp only [startsWith, Bool.and_eq_false_imp, decide_eq_true_eq, List.cons_append] at hs ⊢
      intro hab
      have hs' := hs hab
      have hp' : p' ≠ [] := by
        rintro rfl
        simp [startsWith] at hs'
      exact ih s' x t hp' (fun c hc => hx c (by simp [hc])) hs'

theorem dropSpaceRuneRev_append_ascii {s : List Nat} {x : Nat} (t : List Nat)
    (h1 : 33 ≤ x) (h2 : x ≤ 126) (h : dropSpaceRuneRev s = none) :
    dropSpaceRuneRev (s ++ x :: t) = none := by
  rw [dropSpaceRuneRev_eq_none] at h ⊢
  intro w hw
  obtain ⟨a, w', hrev, hb⟩ := spaceRunes_last w hw
  apply startsWith_append_false
  · rw [hrev]; simp
  · intro c hc
    rw [hrev] at hc
    have := hb c hc
    omega
  · exact h w hw

/-- The line reader returns the text `L:v` of a field unchanged. -/
theorem lineText_field {L : Nat} {v : List Nat} (hL : isFieldLetter L) (hv : isFieldValue v) :
    lineText (L :: 58 :: v) = L :: 58 :: v := by
  obtain ⟨h1, h2, h3⟩ := hL
  have htw : (L :: 58 :: v).takeWhile (fun b => !decide (b = 37)) = L :: 58 :: v := by
    rw [List.takeWhile_eq_self_iff]
    intro b hb
    simp only [Bool.not_eq_true', decide_eq_false_iff_not]
    simp only [List.mem_cons] at hb
    rcases hb with hb | hb | hb
    · omega
    · omega
    · exact (hv.1 b hb).2
  unfold lineText
  rw [htw]
  apply TrimSpace_of_none
  · exact dropSpaceRune_ascii _ h1 h2
  · have : (L :: 58 :: v).reverse = v.reverse ++ 58 :: [L] := by simp
    rw [this]
    exact dropSpaceRuneRev_append_ascii _ (by norm_num) (by norm_num) hv.2

/-- The method `readInformationField(false)` on the line `L:v`. -/
theorem readInformationField_field (d : Decoder) (L : Nat) (v rest : List Nat)
    (hL : isFieldLetter L) (hv : isFieldValue v)
    (hbuf : d.r.buf = L :: 58 :: (v ++ 10 :: rest)) :
    readInformationField false d =
      dispatchField L v { d with r := { buf := rest, lastByte := some 10 } } := by
  have hl : ∀ b ∈ L :: 58 :: v, b ≠ 10 := by
    intro b hb
    simp only [List.mem_cons] at hb
    rcases hb with hb | hb | hb
    · have := hL.1; omega
    · omega
    · exact (hv.1 b hb).1
  rw [readInformationField_line d (L :: 58 :: v) rest (by simpa using hbuf) hl
    (by simp; exact hL.2.2), lineText_field hL hv]
  simp [processField]

theorem ParseUint_of_fits {s : List Nat} (h : fitsUint64 s) :
    ParseUint s = some (natOfDigits s) := by
  obtain ⟨h1, h2⟩ := h
  simp only [isUintText, Bool.and_eq_true, Bool.not_eq_true', List.isEmpty_eq_false] at h1
  have h3 : natOfDigits s < 18446744073709551616 := by simpa using h2
  simp [ParseUint, h1.1, h3]
  simpa using h1.2

theorem ParseUint_eq_none_iff {s : List Nat} : ParseUint s = none ↔ ¬ fitsUint64 s := by
  constructor
  · intro h hf
    rw [ParseUint_of_fits hf] at h
    exact absurd h (by simp)
  · intro h
    unfold ParseUint
    split_ifs with h1 h2 h3
    · rfl
    · exfalso
      apply h
      refine ⟨?_, h3⟩
      simp only [isUintText, Bool.and_eq_true, Bool.not_eq_true', List.isEmpty_eq_false]
      exact ⟨by simpa using h1, h2⟩
    · rfl
    · rfl

theorem drop_takeWhile_length (p : Nat → Bool) : ∀ (l : List Nat),
    l.drop (l.takeWhile p).length = l.dropWhile p := by
  intro l
  induction l with
  | nil => simp
  | cons b t ih =>
    by_cases hb : p b = true
    · simp [List.takeWhile_cons, List.dropWhile_cons, hb, ih]
    · simp [List.takeWhile_cons, List.dropWhile_cons, hb]

theorem IndexByte_slash {v : List Nat} (h : 47 ∈ v) :
    ∃ k, IndexByte v 47 = some k ∧ v.take k = beforeSlash v ∧ v.drop (k + 1) = afterSlash v := by
  obtain ⟨h1, -⟩ := IndexByte_mem 47 v [] h
  rw [List.append_nil] at h1
  refine ⟨_, h1, ?_, ?_⟩
  · have := take_takeWhile_length (fun b => !decide (b = 47)) v []
    rw [List.append_nil] at this
    exact this
  · unfold afterSlash
    rw [← drop_takeWhile_length, List.drop_drop]

theorem IndexByte_eq_none_iff {v : List Nat} {c : Nat} : IndexByte v c = none ↔ c ∉ v := by
  constructor
  · intro h hc
    obtain ⟨h1, -⟩ := IndexByte_mem c v [] hc
    rw [List.append_nil, h] at h1
    exact absurd h1 (by simp)
  · intro h
    exact IndexByte_none v c (fun b hb hbc => h (hbc ▸ hb))

/-- The `M` case fails exactly when the value is not two 64-bit unsigned
integers around a `/`, and then it changes nothing. -/
theorem meterField_err (v : List Nat) (D : Decoder)
    (htarget : D.inFileHeader = true ∨
      ∃ t, D.Tunes.getLast? = some t ∧ (D.tuneHeaderDone = true → t.Measures ≠ [])) :
    ((∃ d', meterField v D = .err d') ↔
      (47 ∉ v ∨ ¬ fitsUint64 (beforeSlash v) ∨ ¬ fitsUint64 (afterSlash v))) ∧
    (∀ d', meterField v D = .err d' → d' = D) := by
  by_cases hs : 47 ∈ v
  · obtain ⟨k, hk, hk1, hk2⟩ := IndexByte_slash hs
    unfold meterField
    simp only [hk, hk1, hk2]
    by_cases hb : fitsUint64 (beforeSlash v)
    · by_cases ha : fitsUint64 (afterSlash v)
      · simp only [ParseUint_of_fits hb, ParseUint_of_fits ha]
        have hno : ¬ (47 ∉ v ∨ ¬ fitsUint64 (beforeSlash v) ∨ ¬ fitsUint64 (afterSlash v)) := by
          simp [hs, hb, ha]
        rcases htarget with hf | ⟨t, ht, hm⟩
        · simp [hf, hno]
        · by_cases hf : D.inFileHeader = true
          · simp [hf, hno]
          · by_cases hd : D.tuneHeaderDone = true
            · simp [hf, ht, hd, hm hd, hno]
            · simp [hf, ht, hd, hno]
      · simp only [ParseUint_of_fits hb, ParseUint_eq_none_iff.mpr ha]
        exact ⟨⟨fun _ => Or.inr (Or.inr ha), fun _ => ⟨D, rfl⟩⟩,
          fun d' h => by simpa using h.symm⟩
    · simp only [ParseUint_eq_none_iff.mpr hb]
      exact ⟨⟨fun _ => Or.inr (Or.inl hb), fun _ => ⟨D, rfl⟩⟩,
        fun d' h => by simpa using h.symm⟩
  · unfold meterField
    simp only [IndexByte_eq_none_iff.mpr hs]
    exact ⟨⟨fun _ => Or.inl hs, fun _ => ⟨D, rfl⟩⟩, fun d' h => by simpa using h.symm⟩

theorem isFieldValue_meter {t b : List Nat} (ht : ∀ x ∈ t, isDigitByte x = true)
    (hb : ∀ x ∈ b, isDigitByte x = true) (hbne : b ≠ []) : isFieldValue (t ++ 47 :: b) := by
  constructor
  · intro x hx
    simp only [List.mem_append, List.mem_cons] at hx
    rcases hx with hx | hx | hx
    · have := isDigitByte_iff.mp (ht x hx); omega
    · omega
    · have := isDigitByte_iff.mp (hb x hx); omega
  · obtain ⟨y, ys, hy⟩ : ∃ y ys, b.reverse = y :: ys := by
      cases hr : b.reverse with
      | nil => simp at hr; exact absurd hr hbne
      | cons y ys => exact ⟨y, ys, rfl⟩
    have hyd : isDigitByte y = true := hb y (by
      have : y ∈ b.reverse := by rw [hy]; simp
      simpa using this)
    have : (t ++ 47 :: b).reverse = y :: (ys ++ 47 :: t.reverse) := by
      simp [hy]
    rw [this]
    exact dropSpaceRuneRev_digit _ hyd

theorem slash_split {t b : List Nat} (ht : ∀ x ∈ t, isDigitByte x = true) :
    IndexByte (t ++ 47 :: b) 47 = some t.length := by
  induction t with
  | nil => simp [IndexByte]
  | cons x t' ih =>
    have hx := isDigitByte_iff.mp (ht x (by simp))
    have hx47 : x ≠ 47 := by omega
    simp [IndexByte, hx47, ih (fun y hy => ht y (by simp [hy]))]

/-- On a line whose text is shorter than two bytes the field reader indexes
`fullLine[0]` or `fullLine[1]` out of range. -/
theorem readInformationField_short (d : Decoder) (l rest : List Nat)
    (hbuf : d.r.buf = l ++ 10 :: rest) (hl : ∀ b ∈ l, b ≠ 10) (hc : l.head? ≠ some 37)
    (hshort : (lineText l).length < 2) :
    readInformationField false d = .panic := by
  rw [readInformationField_line d l rest hbuf hl hc]
  unfold processField
  split
  · rfl
  · rfl
  · rename_i a b t heq
    rw [heq] at hshort
    simp only [List.length_cons] at hshort
    omega

/-- Outside the file header and without any tune, a field that is stored in the
last tune indexes `d.Tunes[len(d.Tunes)-1]` out of range. -/
theorem readInformationField_no_tune (d : Decoder) (L : Nat) (v rest : List Nat)
    (hL : L ∈ [65, 66, 67, 68, 70, 71, 72, 75, 78, 79, 82, 83, 84, 87, 90, 114, 119])
    (hv : isFieldValue v) (hT : d.Tunes = []) (hf : d.inFileHeader = false)
    (hbuf : d.r.buf = L :: 58 :: (v ++ 10 :: rest)) :
    readInformationField false d = .panic := by
  have hletter : isFieldLetter L := by
    simp only [List.mem_cons, List.mem_singleton, List.not_mem_nil, or_false] at hL
    unfold isFieldLetter
    omega
  rw [readInformationField_field d L v rest hletter hv hbuf]
  simp only [List.mem_cons, List.mem_singleton, List.not_mem_nil, or_false] at hL
  rcases hL with h | h | h | h | h | h | h | h | h | h | h | h | h | h | h | h | h <;> subst h <;>
    simp [dispatchField, setLastTune, hT, hf]

theorem isBarline_pair {b1 b2 : Nat} (h : isBarline [b1, b2] = some true) :
    b1 = 124 ∨ (b1 = 91 ∧ b2 = 124) ∨ (b1 = 58 ∧ b2 = 124) := by
  simp [isBarline] at h
  omega

theorem startsWith_length : ∀ (p s : List Nat), startsWith p s = true → p.length ≤ s.length := by
  intro p
  induction p with
  | nil => intro s _; simp
  | cons a p' ih =>
    intro s h
    cases s with
    | nil => simp [startsWith] at h
    | cons b s' =>
      simp only [startsWith, Bool.and_eq_true, decide_eq_true_eq] at h
      have := ih s' h.2
      simp only [List.length_cons]
      omega

theorem startsWith_append_true : ∀ (p s t : List Nat), startsWith p s = true →
    startsWith p (s ++ t) = true := by
  intro p
  induction p with
  | nil => intro s t _; rfl
  | cons a p' ih =>
    intro s t h
    cases s with
    | nil => simp [startsWith] at h
    | cons b s' =>
      simp only [startsWith, Bool.and_eq_true, decide_eq_true_eq, List.cons_append] at h ⊢
      exact ⟨h.1, ih s' t h.2⟩

/-- A reversed white-space rune matches at the end of `s ++ x :: t`, with `x` a
printable ASCII byte, exactly when it matches `s`. -/
theorem startsWith_spaceRune_append {s : List Nat} {x : Nat} (t : List Nat)
    (h1 : 33 ≤ x) (h2 : x ≤ 126) : ∀ w ∈ spaceRunes,
    startsWith w.reverse (s ++ x :: t) = startsWith w.reverse s := by
  intro w hw
  obtain ⟨a, w', hrev, hb⟩ := spaceRunes_last w hw
  cases hs : startsWith w.reverse s with
  | true => exact startsWith_append_true _ _ _ hs
  | false =>
    apply startsWith_append_false
    · rw [hrev]; simp
    · intro c hc
      rw [hrev] at hc
      have := hb c hc
      omega
    · exact hs

theorem find?_congr_mem {α : Type} {p q : α → Bool} : ∀ (l : List α),
    (∀ a ∈ l, p a = q a) → l.find? p = l.find? q := by
  intro l
  induction l with
  | nil => intro _; rfl
  | cons a t ih =>
    intro h
    have ha : p a = q a := h a (by simp)
    have ht := ih (fun b hb => h b (by simp [hb]))
    simp only [List.find?, ha, ht]

theorem dropSpaceRuneRev_append {s : List Nat} {x : Nat} (t : List Nat)
    (h1 : 33 ≤ x) (h2 : x ≤ 126) :
    dropSpaceRuneRev (s ++ x :: t) = (dropSpaceRuneRev s).map (· ++ x :: t) := by
  unfold dropSpaceRuneRev
  rw [find?_congr_mem spaceRunes (fun w hw => startsWith_spaceRune_append t h1 h2 w hw)]
  cases hf : spaceRunes.find? (fun w => startsWith w.reverse s) with
  | none => rfl
  | some w =>
    have hsw := List.find?_some hf
    have hlen := startsWith_length _ _ hsw
    simp only [List.length_reverse] at hlen
    simp only [Option.map_some', Option.some.injEq]
    rw [List.drop_append_of_le_length hlen]

theorem dropSpaceRuneRev_length {s t : List Nat} (h : dropSpaceRuneRev s = some t) :
    t.length < s.length := by
  unfold dropSpaceRuneRev at h
  cases hf : spaceRunes.find? (fun w => startsWith w.reverse s) with
  | none => rw [hf] at h; simp at h
  | some w =>
    rw [hf] at h
    simp only [Option.map_some', Option.some.injEq] at h
    have hsw := List.find?_some hf
    have hlen := startsWith_length _ _ hsw
    have hmem := List.mem_of_find?_eq_some hf
    obtain ⟨a, w', hrev, _⟩ := spaceRunes_last w hmem
    have hw : 0 < w.length := by
      have : w.reverse.length = (a :: w').length := by rw [hrev]
      simp only [List.length_reverse, List.length_cons] at this
      omega
    simp only [List.length_reverse] at hlen
    rw [← h, List.length_drop]
    omega

theorem trimRightAux_append {x : Nat} (t : List Nat) (h1 : 33 ≤ x) (h2 : x ≤ 126) :
    ∀ (n : Nat) (s : List Nat), trimRightAux n (s ++ x :: t) = trimRightAux n s ++ x :: t := by
  intro n
  induction n with
  | zero => intro s; rfl
  | succ n ih =>
    intro s
    simp only [trimRightAux, dropSpaceRuneRev_append t h1 h2]
    cases dropSpaceRuneRev s with
    | none => rfl
    | some u => exact ih u

theorem trimRightAux_fuel : ∀ (n m : Nat) (s : List Nat), s.length ≤ n → s.length ≤ m →
    trimRightAux n s = trimRightAux m s := by
  intro n
  induction n with
  | zero =>
    intro m s hn _
    have : s = [] := List.length_eq_zero.mp (by omega)
    subst this
    cases m <;> rfl
  | succ n ih =>
    intro m s hn hm
    cases m with
    | zero =>
      have : s = [] := List.length_eq_zero.mp (by omega)
      subst this
      rfl
    | succ m =>
      simp only [trimRightAux]
      cases hd : dropSpaceRuneRev s with
      | none => rfl
      | some u =>
        have := dropSpaceRuneRev_length hd
        exact ih m u (by omega) (by omega)

/-- Trailing white space is trimmed behind a printable ASCII byte as it is in
the text that follows the byte. -/
theorem trimRight_cons {x : Nat} (w : List Nat) (h1 : 33 ≤ x) (h2 : x ≤ 126) :
    trimRight (x :: w) = x :: trimRight w := by
  unfold trimRight
  have : (x :: w).reverse = w.reverse ++ x :: [] := by simp
  rw [this, trimRightAux_append [] h1 h2,
    trimRightAux_fuel (x :: w).length w.length w.reverse (by simp) (by simp)]
  simp

/-- The text that the line reader returns for the line `L:v`. -/
theorem lineText_letter {L : Nat} (v : List Nat) (hL : isFieldLetter L) :
    lineText (L :: 58 :: v) = L :: 58 :: fieldText v := by
  obtain ⟨h1, h2, h3⟩ := hL
  have htw : (L :: 58 :: v).takeWhile (fun b => !decide (b = 37)) =
      L :: 58 :: v.takeWhile (fun b => !decide (b = 37)) := by
    simp [List.takeWhile, h3]
  unfold lineText fieldText TrimSpace
  rw [htw, trimLeft_of_none (dropSpaceRune_ascii _ h1 h2), trimRight_cons _ h1 h2,
    trimRight_cons _ (by norm_num) (by norm_num)]

/-- A field value is returned unchanged by the line reader. -/
theorem fieldText_of_isFieldValue {v : List Nat} (hv : isFieldValue v) : fieldText v = v := by
  have htw : v.takeWhile (fun b => !decide (b = 37)) = v := by
    rw [List.takeWhile_eq_self_iff]
    intro b hb
    simp only [Bool.not_eq_true', decide_eq_false_iff_not]
    exact (hv.1 b hb).2
  unfold fieldText
  rw [htw]
  exact trimRight_of_none hv.2

/-- The method `readInformationField(false)` on the line `L:v`, for any text
`v` without a newline: the field `L` is dispatched with the value `fieldText v`. -/
theorem readInformationField_letter (d : Decoder) (L : Nat) (v rest : List Nat)
    (hL : isFieldLetter L) (hv : ∀ b ∈ v, b ≠ 10)
    (hbuf : d.r.buf = L :: 58 :: (v ++ 10 :: rest)) :
    readInformationField false d =
      dispatchField L (fieldText v) { d with r := { buf := rest, lastByte := some 10 } } := by
  have hl : ∀ b ∈ L :: 58 :: v, b ≠ 10 := by
    intro b hb
    simp only [List.mem_cons] at hb
    rcases hb with hb | hb | hb
    · have := hL.1; omega
    · omega
    · exact hv b hb
  rw [readInformationField_line d (L :: 58 :: v) rest (by simpa using hbuf) hl
    (by simp; exact hL.2.2), lineText_letter v hL]
  simp [processField]

/-! ## The file header, lines of a tune body and the element loop -/

/-- The only error of the loop of `readFileHeader` is the one of `Peek` at the
end of the stream: the error of a field is never returned. -/
theorem fileHeaderLoop_err : ∀ (fuel : Nat) (d d' : Decoder),
    fileHeaderLoop fuel d = .err d' → d'.r.buf = [] := by
  intro fuel
  induction fuel with
  | zero => intro d d' h; simp [fileHeaderLoop] at h
  | succ n ih =>
    intro d d' h
    unfold fileHeaderLoop at h
    have key : ∀ d1 : Decoder,
        (match d1.r.Peek 1 with
          | (b, okp, r2) =>
            if !okp then Out.err { d1 with r := r2 }
            else if b = [10] then Out.ok PUnit.unit { d1 with r := r2, inFileHeader := false }
            else fileHeaderLoop n { d1 with r := r2 }) = Out.err d' → d'.r.buf = [] := by
      intro d1 hk
      simp only [Reader.Peek] at hk
      split_ifs at hk with h1 h2
      · cases hk
        simp at h1
        simpa using h1
      · exact ih _ _ hk
    cases hr : readInformationField false d with
    | ok a d1 => rw [hr] at h; exact key d1 h
    | err d1 => rw [hr] at h; exact key d1 h
    | panic => rw [hr] at h; simp at h
    | timeout => rw [hr] at h; simp at h

theorem readFileHeader_err (fuel : Nat) (d d' : Decoder)
    (h : readFileHeader fuel d = .err d') : d'.r.buf = [] := by
  unfold readFileHeader at h
  simp only [Reader.Peek] at h
  split_ifs at h with h1 h2
  · cases h
    simp at h1
    simpa using h1
  · exact fileHeaderLoop_err _ _ _ h

/-- A file header made of a line `M:v` without `/`: the field reader rejects
the line, and `readFileHeader` returns no error. -/
theorem readFileHeader_rejected_meter (fuel : Nat) (v : List Nat) (hv : isFieldValue v)
    (hs : 47 ∉ v) (d : Decoder) (rest : List Nat)
    (hbuf : d.r.buf = 77 :: 58 :: (v ++ 10 :: 10 :: rest)) :
    readInformationField false d = .err { d with r := { buf := 10 :: rest, lastByte := some 10 } } ∧
    readFileHeader (fuel + 1) d =
      .ok ⟨⟩ { d with r := { buf := 10 :: rest, lastByte := none }, inFileHeader := false } := by
  have hM : isFieldLetter 77 := by unfold isFieldLetter; omega
  have hi : IndexByte v 47 = none := IndexByte_eq_none_iff.mpr hs
  constructor
  · rw [readInformationField_field d 77 v (10 :: rest) hM hv hbuf]
    simp [dispatchField, meterField, hi]
  · have h2 := readInformationField_field
      { d with r := { buf := d.r.buf, lastByte := none }, inFileHeader := true } 77 v (10 :: rest) hM hv hbuf
    simp only [readFileHeader, Reader.Peek, hbuf, fileHeaderLoop]
    simp only [hbuf] at h2
    simp [h2, dispatchField, meterField, hi]

/-- The line `M:t/b` read in a tune body sets the meter of the current measure. -/
theorem readInformationField_meter_body (d : Decoder) (t b rest : List Nat)
    (ts : List Tune) (tn : Tune) (ms : List Measure) (m : Measure)
    (ht : fitsUint64 t) (hb : fitsUint64 b)
    (hf : d.inFileHeader = false) (hd : d.tuneHeaderDone = true)
    (hT : d.Tunes = ts ++ [tn]) (hM : tn.Measures = ms ++ [m])
    (hbuf : d.r.buf = 77 :: 58 :: (t ++ 47 :: b ++ 10 :: rest)) :
    readInformationField false d = .ok ⟨⟩
      { d with
        r := { buf := rest, lastByte := some 10 }
        Tunes := ts ++ [{ tn with
          Measures := ms ++ [{ m with MeterTop := natOfDigits t, MeterBottom := natOfDigits b }] }] }
      := by
  have ht' : ∀ x ∈ t, isDigitByte x = true := by
    have := ht.1
    simp only [isUintText, Bool.and_eq_true, List.all_eq_true] at this
    exact this.2
  have hb' : ∀ x ∈ b, isDigitByte x = true := by
    have := hb.1
    simp only [isUintText, Bool.and_eq_true, List.all_eq_true] at this
    exact this.2
  have hbne : b ≠ [] := by
    have := hb.1
    simp only [isUintText, Bool.and_eq_true, Bool.not_eq_true', List.isEmpty_eq_false] at this
    exact this.1
  have hL : isFieldLetter 77 := by unfold isFieldLetter; omega
  rw [readInformationField_field d 77 (t ++ 47 :: b) rest hL (isFieldValue_meter ht' hb' hbne)
    (by simpa using hbuf)]
  have hdisp : ∀ D : Decoder, dispatchField 77 (t ++ 47 :: b) D = meterField (t ++ 47 :: b) D := by
    intro D; simp [dispatchField]
  rw [hdisp]
  unfold meterField
  simp only [slash_split ht', List.take_left', List.drop_left', ParseUint_of_fits ht,
    show List.drop (t.length + 1) (t ++ 47 :: b) = b by
      rw [← List.drop_drop]; simp,
    ParseUint_of_fits hb]
  simp [hf, hT, hd, hM, updLast_append]

/-- On a meter line in a tune body `readABCLine` reads the field and then tests
the token it peeked before the field, which is no element: it returns with the
stream at the start of the next line. -/
theorem readABCLine_meter_line (fuel : Nat) (d : Decoder) (t b rest : List Nat)
    (ts : List Tune) (tn : Tune) (ms : List Measure) (m : Measure)
    (ht : fitsUint64 t) (hb : fitsUint64 b)
    (hf : d.inFileHeader = false) (hd : d.tuneHeaderDone = true)
    (hT : d.Tunes = ts ++ [tn]) (hM : tn.Measures = ms ++ [m])
    (hbuf : d.r.buf = 77 :: 58 :: (t ++ 47 :: b ++ 10 :: rest)) :
    readABCLine (fuel + 1) d = .ok ⟨⟩
      { d with
        r := { buf := rest, lastByte := some 10 }
        Tunes := ts ++ [{ tn with
          Measures := ms ++ [{ m with MeterTop := natOfDigits t, MeterBottom := natOfDigits b }] }] }
      := by
  have hfield := readInformationField_meter_body
    { d with r := { buf := d.r.buf, lastByte := none } }
    t b rest ts tn ms m ht hb hf hd hT hM hbuf
  have he : isElement [77, 58] = some false := by decide
  have hi : isTuneBodyInfoField [77, 58] = true := by decide
  have htok : (d.r.buf).take 2 = [77, 58] := by rw [hbuf]; rfl
  have hlen : decide (2 ≤ d.r.buf.length) = true := by rw [hbuf]; simp
  simp only [readABCLine, peekLexToken, Reader.Peek, htok, hlen, hi, hfield, elementLoop, he,
    Bool.not_true, Bool.false_eq_true, if_false, if_true]

/-- A meter line in a tune body followed by a line that starts with `x`:
`readTuneBody` reads the field, takes `x` for the end of the field line, and
returns with the rest of that line unread. -/
theorem readTuneBody_meter_line (fuel : Nat) (d : Decoder) (t b : List Nat) (x : Nat)
    (rest : List Nat) (ts : List Tune) (tn : Tune)
    (ht : fitsUint64 t) (hb : fitsUint64 b)
    (hf : d.inFileHeader = false) (hd : d.tuneHeaderDone = true)
    (hT : d.Tunes = ts ++ [tn]) (hx10 : x ≠ 10) (hx37 : x ≠ 37)
    (hbuf : d.r.buf = 77 :: 58 :: (t ++ 47 :: b ++ 10 :: x :: rest)) :
    readTuneBody (fuel + 2) d = .ok ⟨⟩
      { d with
        r := { buf := rest, lastByte := some x }
        Tunes := ts ++ [{ tn with
          Measures := [{ MeterTop := natOfDigits t, MeterBottom := natOfDigits b,
                         NoteGroups := [{}] }] }] } := by
  have hne : d.Tunes ≠ [] := by rw [hT]; simp
  have hs1 := skipComments_head
    (d := { d with Tunes := ts ++ [{ tn with Measures := [{ NoteGroups := [{}] }] }] }) hbuf
    (by decide : (77 : Nat) ≠ 37)
  have hline := readABCLine_meter_line fuel
    { d with
      r := { buf := d.r.buf, lastByte := none }
      Tunes := ts ++ [{ tn with Measures := [{ NoteGroups := [{}] }] }] }
    t b (x :: rest) ts { tn with Measures := [{ NoteGroups := [{}] }] } [] { NoteGroups := [{}] }
    ht hb hf hd rfl rfl hbuf
  have hs2 : ∀ D : Decoder, D.r.buf = x :: rest →
      skipComments D = { D with r := { D.r with lastByte := none } } :=
    fun D hD => skipComments_head hD hx37
  have htk : (d.r.buf).take 1 = [77] := by rw [hbuf]; rfl
  have hlen : decide (1 ≤ d.r.buf.length) = true := by rw [hbuf]; simp
  unfold readTuneBody
  rw [if_neg hne]
  simp only [hT, updLast_append]
  rw [hs1]
  simp only [Reader.Peek, htk, hlen, tuneBodyLoop, hline]
  rw [hs2 _ rfl]
  simp [Reader.ReadByte, hx10]

/-- `skipComments` on a comment line followed by a line that is no comment:
the whole comment line is read, its newline included. -/
theorem skipComments_comment_line (d : Decoder) (c : List Nat) (x : Nat) (rest : List Nat)
    (hc : ∀ b ∈ c, b ≠ 10) (hx37 : x ≠ 37)
    (hbuf : d.r.buf = 37 :: (c ++ 10 :: x :: rest)) :
    skipComments d = { d with r := { buf := x :: rest, lastByte := none } } := by
  have hsp : splitAfter 10 (37 :: (c ++ 10 :: x :: rest)) = some (37 :: c ++ [10], x :: rest) := by
    have := splitAfter_run 10 (37 :: c) (x :: rest) (by
      intro b hb
      rcases List.mem_cons.mp hb with h | h
      · omega
      · exact hc b h)
    simpa using this
  have hx : [x] ≠ [37] := by simpa using hx37
  unfold skipComments
  rw [hbuf]
  simp only [List.length_cons, skipCommentsAux, Reader.Peek, hbuf, List.take, Reader.ReadBytes, hsp,
    if_true]
  cases hn : (c ++ 10 :: x :: rest).length with
  | zero => simp at hn
  | succ n => simp [skipCommentsAux, Reader.Peek, hx37]

theorem isElement_comment (y : Nat) : isElement [37, y] = some false := by
  simp [isElement, isNote, isRest, isPitch, isOctaveMark, isPitchLetter, por, isAnnotation,
    isBarline, isSpace, isInline, isRepeat, isChord, isBrokenRhythm]

/-- On a note followed by a comment `readABCLine` reads the note and stops at
the `%`, before the newline of the line. -/
theorem readABCLine_note_comment (fuel : Nat) (e : Decoder) (p y : Nat) (tl : List Nat)
    (ts : List Tune) (tn : Tune) (ms : List Measure) (m : Measure) (gs : List NoteGroup)
    (g : NoteGroup)
    (hp : isPitchLetter p = true)
    (hh : e.halveDuration = false) (hdd : e.doubleDuration = false)
    (hT : e.Tunes = ts ++ [tn]) (hM : tn.Measures = ms ++ [m]) (hG : m.NoteGroups = gs ++ [g])
    (hbuf : e.r.buf = p :: 37 :: y :: tl) :
    readABCLine (fuel + 2) e = .ok ⟨⟩
      { e with
        r := { buf := 37 :: y :: tl, lastByte := none }
        Tunes := ts ++ [{ tn with
          Measures := ms ++ [{ m with
            NoteGroups := gs ++ [{ g with Units := g.Units ++ [Unit.note ⟨[p], F64.one⟩] }] }] }] }
      := by
  have hdur : Reader.readDuration { buf := 37 :: y :: tl, lastByte := none } =
      (some F64.one, { buf := 37 :: y :: tl, lastByte := none }) := by
    simp [Reader.readDuration, readDigits, isDigitByte, Reader.UnreadByte]
  have hnote := readElement_note
    { e with r := { buf := e.r.buf, lastByte := none } }
    tn m p [] 37 (y :: tl) F64.one _ (by simp [hT]) (by simp [hM]) (by simp [hG]) hp (by simp)
    (by decide) hdur hbuf
  have hp122 : p ≠ 122 := by rcases isPitchLetter_iff.mp hp with h | h <;> omega
  have he : isElement [p, 37] = some true := by
    simp [isElement, isNote, isRest, isPitch, hp, por, hp122]
  have hi : isTuneBodyInfoField [p, 37] = false := by simp [isTuneBodyInfoField]
  have htok : (e.r.buf).take 2 = [p, 37] := by rw [hbuf]; rfl
  have hlen : decide (2 ≤ e.r.buf.length) = true := by rw [hbuf]; simp
  simp only [readABCLine, peekLexToken, Reader.Peek, htok, hlen, hi, elementLoop, he, hnote,
    Bool.not_true, Bool.false_eq_true, if_false, if_true]
  simp [applyBrokenRhythm, hh, hdd, updCurrentMeasure, hT, hM, hG, updLast_append,
    isElement_comment]

/-- A note and a comment on a line of a tune body, followed by a line that
starts with `x`: `readTuneBody` reads the note, `skipComments` reads the comment
with the newline of the line, `x` is taken for that newline, and the call
returns with the rest of the following line unread. -/
theorem readTuneBody_comment_line (fuel : Nat) (d : Decoder) (p : Nat) (c : List Nat) (x : Nat)
    (rest : List Nat) (ts : List Tune) (tn : Tune)
    (hp : isPitchLetter p = true) (hc : ∀ b ∈ c, b ≠ 10) (hx10 : x ≠ 10) (hx37 : x ≠ 37)
    (hh : d.halveDuration = false) (hdd : d.doubleDuration = false)
    (hT : d.Tunes = ts ++ [tn])
    (hbuf : d.r.buf = p :: 37 :: (c ++ 10 :: x :: rest)) :
    readTuneBody (fuel + 3) d = .ok ⟨⟩
      { d with
        r := { buf := rest, lastByte := some x }
        Tunes := ts ++ [{ tn with
          Measures := [{ NoteGroups := [{ Units := [Unit.note ⟨[p], F64.one⟩] }] }] }] } := by
  have hne : d.Tunes ≠ [] := by rw [hT]; simp
  have hp37 : p ≠ 37 := by
    rcases isPitchLetter_iff.mp hp with h | h <;> omega
  have hs1 := skipComments_head
    (d := { d with Tunes := ts ++ [{ tn with Measures := [{ NoteGroups := [{}] }] }] }) hbuf hp37
  obtain ⟨y, tl, hy⟩ : ∃ y tl, c ++ 10 :: x :: rest = y :: tl := by
    cases c with
    | nil => exact ⟨10, x :: rest, rfl⟩
    | cons a c' => exact ⟨a, c' ++ 10 :: x :: rest, rfl⟩
  have hline := readABCLine_note_comment fuel
    { d with
      r := { buf := d.r.buf, lastByte := none }
      Tunes := ts ++ [{ tn with Measures := [{ NoteGroups := [{}] }] }] }
    p y tl ts { tn with Measures := [{ NoteGroups := [{}] }] } [] { NoteGroups := [{}] } [] {}
    hp hh hdd rfl rfl rfl (by rw [← hy]; exact hbuf)
  have htk : (d.r.buf).take 1 = [p] := by rw [hbuf]; rfl
  have hlen1 : decide (1 ≤ d.r.buf.length) = true := by rw [hbuf]; simp
  have hp10 : [p] ≠ [10] := by
    have : p ≠ 10 := by rcases isPitchLetter_iff.mp hp with h | h <;> omega
    simpa using this
  have hs2 : ∀ D : Decoder, D.r.buf = 37 :: y :: tl →
      skipComments D = { D with r := { buf := x :: rest, lastByte := none } } :=
    fun D hD => skipComments_comment_line D c x rest hc hx37 (by rw [hy]; exact hD)
  unfold readTuneBody
  rw [if_neg hne]
  simp only [hT, updLast_append]
  rw [hs1]
  simp only [Reader.Peek, htk, hlen1, tuneBodyLoop, hline, Bool.not_true, Bool.false_eq_true,
    if_false, hp10]
  rw [hs2 _ rfl]
  simp [Reader.ReadByte, hx10]

/-- On a rest `z` the note branch of `readElement` is taken, the pitch test
fails, and the call returns without reading a byte. -/
theorem readElement_rest (d : Decoder) (t : Tune) (m : Measure) (c : Nat) (rest : List Nat)
    (hT : d.Tunes.getLast? = some t) (hM : t.Measures.getLast? = some m)
    (hbuf : d.r.buf = 122 :: c :: rest) :
    readElement d = .ok ⟨⟩ { d with r := { buf := 122 :: c :: rest, lastByte := none } } := by
  simp [readElement, hT, hM, peekLexToken, Reader.Peek, hbuf, isNote, isRest, isPitch, por,
    isOctaveMark, isPitchLetter]

/-- The element loop never ends on a rest: every iteration leaves the stream as it was. -/
theorem elementLoop_rest (c : Nat) (rest : List Nat) : ∀ (fuel : Nat) (d : Decoder) (t : Tune)
    (m : Measure), d.Tunes.getLast? = some t → t.Measures.getLast? = some m →
    d.r.buf = 122 :: c :: rest → elementLoop fuel [122, c] d = .timeout := by
  intro fuel
  induction fuel with
  | zero => intro d t m _ _ _; rfl
  | succ n ih =>
    intro d t m hT hM hbuf
    have he : isElement [122, c] = some true := by simp [isElement, isNote, isRest, por]
    simp only [elementLoop, he, readElement_rest d t m c rest hT hM hbuf, peekLexToken, Reader.Peek]
    exact ih _ t m hT hM rfl

theorem OkReader_ite {α : Type} {r : Reader} {p : Prop} [Decidable p] {a b : Out α}
    (ha : OkReader r a) (hb : OkReader r b) : OkReader r (if p then a else b) := by
  split_ifs
  · exact ha
  · exact hb

theorem setLastTune_reader (f : Tune → Tune) (d : Decoder) : OkReader d.r (setLastTune f d) := by
  unfold setLastTune
  split_ifs
  · trivial
  · rfl

theorem meterField_reader (line : List Nat) (d : Decoder) : OkReader d.r (meterField line d) := by
  unfold meterField
  repeat' (first
    | trivial
    | rfl
    | apply OkReader_ite
    | split)

theorem continuationField_reader (line : List Nat) (d : Decoder) :
    OkReader d.r (continuationField line d) := by
  unfold continuationField
  repeat' (first
    | trivial
    | rfl
    | exact setLastTune_reader _ d
    | apply OkReader_ite)

theorem dispatchField_reader (c : Nat) (line : List Nat) (d : Decoder) :
    OkReader d.r (dispatchField c line d) := by
  unfold dispatchField
  repeat' (first
    | trivial
    | rfl
    | exact meterField_reader line d
    | exact continuationField_reader line d
    | exact setLastTune_reader _ d
    | exact setLastTune_reader _ { d with tuneHeaderDone := true }
    | exact setLastTune_reader _ { d with lastInformationField := [c] }
    | apply OkReader_ite
    | split)

theorem processField_reader (fullLine : List Nat) (d : Decoder) :
    OkReader d.r (processField fullLine d) := by
  unfold processField
  split
  · trivial
  · trivial
  · split_ifs
    · rfl
    · exact dispatchField_reader _ _ d

theorem readPitchLoop_length : ∀ (s ret : List Nat) (last : Option Nat),
    (readPitchLoop ret s last).2.buf.length ≤ s.length + 1 ∧
    (s ≠ [] → (readPitchLoop ret s last).2.buf.length ≤ s.length) := by
  intro s
  induction s with
  | nil =>
    intro ret last
    cases last <;> simp [readPitchLoop, Reader.UnreadByte]
  | cons b t ih =>
    intro ret last
    unfold readPitchLoop
    split_ifs
    · simp [Reader.UnreadByte]
    · have := (ih (ret ++ [b]) (some b)).1
      simp only [List.length_cons]
      exact ⟨by omega, fun _ => this⟩
    · simp [Reader.UnreadByte]

/-- With two bytes or more in the stream `readPitch` consumes at least one. -/
theorem Reader.readPitch_length (r : Reader) (h : 2 ≤ r.buf.length) :
    (Reader.readPitch r).2.buf.length < r.buf.length := by
  obtain ⟨buf, lb⟩ := r
  match buf, h with
  | b :: c :: t, _ =>
    simp only [Reader.readPitch, Reader.ReadByte]
    split_ifs
    · have := (readPitchLoop_length (c :: t) [b] (some b)).2 (by simp)
      simp only [List.length_cons] at this ⊢
      omega
    · simp

theorem readDigits_length : ∀ (s ds : List Nat) (b : Nat) (rest : List Nat),
    readDigits s = (ds, some (b, rest)) → rest.length < s.length := by
  intro s
  induction s with
  | nil => intro ds b rest h; simp [readDigits] at h
  | cons a t ih =>
    intro ds b rest h
    unfold readDigits at h
    split_ifs at h
    · cases hr : readDigits t with
      | mk ds1 stop =>
        rw [hr] at h
        simp only [Prod.mk.injEq] at h
        have := ih ds1 b rest (by rw [hr, h.2])
        simp only [List.length_cons]
        omega
    · simp only [Prod.mk.injEq, Option.some.injEq] at h
      rw [← h.2.2]
      simp

theorem Reader.UnreadByte_some_length (rest : List Nat) (b : Nat) :
    (Reader.UnreadByte { buf := rest, lastByte := some b }).buf.length = rest.length + 1 := by
  simp [Reader.UnreadByte]

/-- The method `readDuration` never leaves more bytes in the stream than it found. -/
theorem Reader.readDuration_length (r : Reader) :
    (Reader.readDuration r).2.buf.length ≤ r.buf.length := by
  unfold Reader.readDuration
  cases h1 : readDigits r.buf with
  | mk ns stop =>
    cases stop with
    | none => simp
    | some p =>
      obtain ⟨b, rest⟩ := p
      have hl := readDigits_length _ _ _ _ h1
      dsimp only
      by_cases hA : ns.length = 0 ∧ decide (b = 47) = false
      · rw [if_pos hA]
        simp only [Reader.UnreadByte_some_length]
        omega
      · rw [if_neg hA]
        generalize (if 0 < ns.length then parseFloatDigits ns else some F64.zero) = nom
        cases nom with
        | none => dsimp only; omega
        | some nominator =>
          dsimp only
          by_cases hF : decide (b = 47) = false
          · rw [if_pos hF]
            simp only [Reader.UnreadByte_some_length]
            omega
          · rw [if_neg hF]
            cases h2 : readDigits rest with
            | mk dsn stop2 =>
              cases stop2 with
              | none => simp
              | some q =>
                obtain ⟨c, rest2⟩ := q
                have hl2 := readDigits_length _ _ _ _ h2
                dsimp only
                by_cases hD : dsn.length = 0
                · rw [if_pos hD]
                  simp only [Reader.UnreadByte_some_length]
                  omega
                · rw [if_neg hD]
                  cases parseFloatDigits dsn with
                  | none =>
                    dsimp only
                    simp only [Reader.UnreadByte_some_length]
                    omega
                  | some den =>
                    dsimp only
                    simp only [Reader.UnreadByte_some_length]
                    omega

theorem Reader.ReadBytes_length (r : Reader) (delim : Nat) :
    (r.ReadBytes delim).2.2.buf.length ≤ r.buf.length ∧
    ((r.ReadBytes delim).2.1 = true → (r.ReadBytes delim).2.2.buf.length < r.buf.length) := by
  unfold Reader.ReadBytes
  cases h : splitAfter delim r.buf with
  | none => simp
  | some p =>
    obtain ⟨l, rest⟩ := p
    have h1 := splitAfter_length h
    have h2 := splitAfter_append h
    have h3 : r.buf.length = l.length + rest.length := by rw [h2]; simp
    dsimp only
    omega

theorem readNote_length (m : Measure) (e e' : Decoder) (h : readNote m e = .ok ⟨⟩ e')
    (hlen : 2 ≤ e.r.buf.length) : e'.r.buf.length < e.r.buf.length := by
  have h1 := Reader.readPitch_length e.r hlen
  unfold readNote readPitch at h
  cases hp : e.r.readPitch with
  | mk o r1 =>
    rw [hp] at h h1
    cases o with
    | none => simp at h
    | some pitch =>
      have h2 := Reader.readDuration_length r1
      simp only [readDuration] at h
      cases hd : r1.readDuration with
      | mk o2 r2 =>
        rw [hd] at h h2
        cases o2 with
        | none => simp at h
        | some dur =>
          simp only [applyBrokenRhythm] at h
          dsimp only at h1 h2
          split_ifs at h <;>
          · simp only [Out.ok.injEq, true_and] at h
            rw [← h]
            simp only [updCurrentMeasure]
            omega

theorem readDelimited_length (close : Nat) (e e' : Decoder)
    (h : readDelimited close e = .ok ⟨⟩ e') : e'.r.buf.length < e.r.buf.length := by
  unfold readDelimited at h
  obtain ⟨r, _⟩ := e
  obtain ⟨buf, lb⟩ := r
  cases buf with
  | nil => simp [Reader.ReadByte] at h
  | cons b t =>
    simp only [Reader.ReadByte] at h
    have h2 := (Reader.ReadBytes_length { buf := t, lastByte := some b } close).1
    generalize Reader.ReadBytes { buf := t, lastByte := some b } close = x at h h2
    obtain ⟨full, okr, r2⟩ := x
    dsimp only at h h2
    split_ifs at h
    simp only [Out.ok.injEq, true_and] at h
    rw [← h]
    simp only [List.length_cons]
    omega

theorem readBarline_length (e e' : Decoder)
    (h : readBarline e = .ok ⟨⟩ e') : e'.r.buf.length < e.r.buf.length := by
  unfold readBarline at h
  obtain ⟨r, _⟩ := e
  obtain ⟨buf, lb⟩ := r
  cases buf with
  | nil => simp [Reader.ReadByte] at h
  | cons b t =>
    simp only [Reader.ReadByte, Reader.Peek] at h
    split_ifs at h <;>
    · simp only [Out.ok.injEq, true_and] at h
      rw [← h]
      cases t <;> simp [updCurrentMeasure, Reader.ReadByte] <;> omega

theorem readBrokenRhythm_length (m : Measure) (e e' : Decoder)
    (h : readBrokenRhythm m e = .ok ⟨⟩ e') : e'.r.buf.length < e.r.buf.length := by
  unfold readBrokenRhythm at h
  obtain ⟨r, _⟩ := e
  obtain ⟨buf, lb⟩ := r
  cases buf with
  | nil => simp [Reader.ReadByte] at h
  | cons b t =>
    simp only [Reader.ReadByte] at h
    split at h
    · split at h
      · simp at h
      · split at h
        · simp at h
        · split at h <;>
          · cases h
            simp [updLastUnit, updCurrentMeasure]
    · cases h
      simp

theorem readInline_length (e : Decoder) (text : List Nat) (e' : Decoder) (t : List Nat)
    (hbuf : e.r.buf = 91 :: t)
    (h : readInline e = .ok text e') : e'.r.buf.length < e.r.buf.length := by
  unfold readInline at h
  simp only [Reader.Peek, hbuf] at h
  have h2 := (Reader.ReadBytes_length { buf := 91 :: t, lastByte := none } 93).2
  generalize Reader.ReadBytes { buf := 91 :: t, lastByte := none } 93 = x at h h2
  obtain ⟨l, okr, r2⟩ := x
  simp at h
  dsimp only at h2
  cases okr with
  | false => simp at h
  | true =>
    simp at h
    rw [← h.2, hbuf]
    exact h2 rfl

theorem readInformationField_inline_length (e e' : Decoder) (t : List Nat)
    (hbuf : e.r.buf = 91 :: t)
    (h : readInformationField true e = .ok ⟨⟩ e') : e'.r.buf.length < e.r.buf.length := by
  unfold readInformationField at h
  rw [skipComments_head hbuf (by decide)] at h
  simp only [Bool.not_true, Bool.false_eq_true, if_false] at h
  cases hi : readInline { e with r := { e.r with lastByte := none } } with
  | ok text e1 =>
    rw [hi] at h
    have h1 := readInline_length _ text e1 t hbuf hi
    have h2 := processField_reader text e1
    dsimp only at h
    rw [h] at h2
    simp only [OkReader] at h2
    rw [h2]
    exact h1
  | err e1 => rw [hi] at h; simp at h
  | panic => rw [hi] at h; simp at h
  | timeout => rw [hi] at h; simp at h

theorem por_true {a b : Option Bool} (h : por a b = some true) : a = some true ∨ b = some true := by
  cases a with
  | none => simp [por] at h
  | some x =>
    cases x with
    | true => exact Or.inl rfl
    | false => exact Or.inr h

theorem isRepeat_inline {b0 b1 : Nat} (h : isRepeat [b0, b1] = some true) :
    isInline [b0, b1] = some true := by
  simp only [isRepeat, isInline] at h ⊢
  split_ifs at h ⊢ <;> simp at h ⊢
  omega

theorem isChord_inline_or_barline {b0 b1 : Nat} (h : isChord [b0, b1] = some true) :
    isInline [b0, b1] = some true ∨ isBarline [b0, b1] = some true := by
  simp [isChord] at h
  have hb : b0 = 91 := h.2
  subst hb
  by_cases h1 : b1 = 124
  · subst h1; exact Or.inr (by decide)
  · exact Or.inl (by simp [isInline, h1])

/-- On every element other than a rest, a call of `readElement` that returns no
error consumes at least one byte. -/
theorem readElement_consumes (d d' : Decoder) (h : readElement d = .ok ⟨⟩ d')
    (he : isElement (d.r.buf.take 2) = some true) (hz : d.r.buf.head? ≠ some 122) :
    d'.r.buf.length < d.r.buf.length := by
  unfold readElement at h
  cases hT : d.Tunes.getLast? with
  | none => rw [hT] at h; simp at h
  | some tune =>
    rw [hT] at h
    dsimp only at h
    cases hM : tune.Measures.getLast? with
    | none => rw [hM] at h; simp at h
    | some m =>
      rw [hM] at h
      simp only [peekLexToken, Reader.Peek] at h
      by_cases hlen : 2 ≤ d.r.buf.length
      · obtain ⟨b0, b1, tl, hbuf⟩ : ∃ b0 b1 tl, d.r.buf = b0 :: b1 :: tl := by
          match hb : d.r.buf, hlen with
          | b0 :: b1 :: tl, _ => exact ⟨b0, b1, tl, rfl⟩
        have htok : (d.r.buf).take 2 = [b0, b1] := by rw [hbuf]; rfl
        have hb0 : b0 ≠ 122 := by
          intro hb; apply hz; rw [hbuf, hb]; rfl
        rw [htok] at he h
        simp only [hlen, decide_True, Bool.not_true, Bool.false_eq_true, if_false] at h
        by_cases c1 : isNote [b0, b1] = some true
        · rw [if_pos c1] at h
          by_cases c2 : isPitch [b0, b1] = some true
          · rw [if_pos c2] at h
            have := readNote_length m _ d' h (by simpa using hlen)
            simpa using this
          · exfalso
            rcases por_true c1 with h1 | h1
            · simp [isRest] at h1; exact hb0 h1
            · exact c2 h1
        · rw [if_neg c1] at h
          by_cases c3 : isAnnotation [b0, b1] = some true
          · rw [if_pos c3] at h
            have := readDelimited_length 34 _ d' h
            simpa using this
          · rw [if_neg c3] at h
            by_cases c4 : isSpace [b0, b1] = some true
            · rw [if_pos c4, hbuf] at h
              simp only [Reader.ReadByte] at h
              cases h
              simp [updCurrentMeasure, hbuf]
            · rw [if_neg c4] at h
              by_cases c5 : isBarline [b0, b1] = some true
              · rw [if_pos c5] at h
                have := readBarline_length _ d' h
                simpa using this
              · rw [if_neg c5] at h
                by_cases c6 : isInline [b0, b1] = some true
                · rw [if_pos c6] at h
                  have hb91 : b0 = 91 := by
                    simp only [isInline] at c6
                    by_contra hne
                    simp [hne] at c6
                  have := readInformationField_inline_length _ d' (b1 :: tl)
                    (by rw [← hb91]; exact hbuf) h
                  simpa using this
                · rw [if_neg c6] at h
                  have c7 : ¬ isRepeat [b0, b1] = some true := fun hc => c6 (isRepeat_inline hc)
                  have c8 : ¬ isChord [b0, b1] = some true := fun hc =>
                    (isChord_inline_or_barline hc).elim c6 c5
                  rw [if_neg c7, if_neg c8] at h
                  by_cases c9 : isBrokenRhythm [b0, b1] = some true
                  · rw [if_pos c9] at h
                    have := readBrokenRhythm_length m _ d' h
                    simpa using this
                  · exfalso
                    unfold isElement at he
                    rcases por_true he with h1 | he
                    · exact c1 h1
                    rcases por_true he with h1 | he
                    · exact c3 h1
                    rcases por_true he with h1 | he
                    · exact c5 h1
                    rcases por_true he with h1 | he
                    · exact c4 h1
                    rcases por_true he with h1 | he
                    · exact c6 h1
                    rcases por_true he with h1 | he
                    · exact c7 h1
                    rcases por_true he with h1 | he
                    · exact c8 h1
                    · exact c9 he
      · simp [hlen] at h

/-- Two notes `p1 d1 > p2 d2` of one note group, read by three successive calls
of `readElement` with no modifier flag pending: the durations stored are
`F64.double D1` and `F64.half D2` (with `<`: `F64.half D1` and `F64.double D2`),
and neither flag is pending afterwards. -/
theorem readElement_pair (d : Decoder) (ts : List Tune) (t : Tune) (ms : List Measure) (m : Measure)
    (gs : List NoteGroup) (g : NoteGroup) (l1 l2 sym c : Nat) (o1 o2 d1 d2 tl : List Nat)
    (D1 D2 : F64)
    (hT : d.Tunes = ts ++ [t]) (hM : t.Measures = ms ++ [m]) (hG : m.NoteGroups = gs ++ [g])
    (hh : d.halveDuration = false) (hdd : d.doubleDuration = false)
    (hl1 : isPitchLetter l1 = true) (ho1 : ∀ b ∈ o1, isOctaveMark b = true)
    (hl2 : isPitchLetter l2 = true) (ho2 : ∀ b ∈ o2, isOctaveMark b = true)
    (hsym : sym = 62 ∨ sym = 60)
    (hx1 : ∀ b ∈ d1.head?, isOctaveMark b = false)
    (hx2 : ∀ b ∈ (d2 ++ [c]).head?, isOctaveMark b = false)
    (hd1 : Reader.readDuration { buf := d1 ++ sym :: l2 :: (o2 ++ (d2 ++ c :: tl)), lastByte := none }
      = (some D1, { buf := sym :: l2 :: (o2 ++ (d2 ++ c :: tl)), lastByte := none }))
    (hd2 : Reader.readDuration { buf := d2 ++ c :: tl, lastByte := none }
      = (some D2, { buf := c :: tl, lastByte := none }))
    (hbuf : d.r.buf = l1 :: (o1 ++ (d1 ++ sym :: l2 :: (o2 ++ (d2 ++ c :: tl))))) :
    ∃ dA dB, readElement d = .ok ⟨⟩ dA ∧ readElement dA = .ok ⟨⟩ dB ∧
      readElement dB = .ok ⟨⟩ { d with
        r := { buf := c :: tl, lastByte := none }
        halveDuration := false
        doubleDuration := false
        Tunes := ts ++ [{ t with
          Measures := ms ++ [{ m with
            NoteGroups := gs ++ [NoteGroup.mk (g.Units ++
              [Unit.note ⟨l1 :: o1, if sym = 62 then F64.double D1 else F64.half D1⟩,
               Unit.note ⟨l2 :: o2, if sym = 62 then F64.half D2 else F64.double D2⟩])] }] }] } := by
  have hsymo : isOctaveMark sym = false := by rcases hsym with h | h <;> subst h <;> rfl
  obtain ⟨x1, tail1, hs1, hxo1⟩ :=
    headOctave_split d1 sym (l2 :: (o2 ++ (d2 ++ c :: tl))) hsymo hx1
  obtain ⟨x2, tail2, hs2, hxo2⟩ : ∃ x tail, d2 ++ c :: tl = x :: tail ∧ isOctaveMark x = false := by
    cases d2 with
    | nil => exact ⟨c, tl, rfl, hx2 c (by simp)⟩
    | cons b t => exact ⟨b, t ++ c :: tl, rfl, hx2 b (by simp)⟩
  -- first note
  have hgl : ∀ {α : Type} (l : List α) (a : α), (l ++ [a]).getLast? = some a := by
    intro α l a; simp
  have s1 := readElement_note d t m l1 o1 x1 tail1 D1 _ (by rw [hT]; exact hgl _ _)
    (by rw [hM]; exact hgl _ _) (by rw [hG]; simp) hl1 ho1 hxo1 (by rw [← hs1]; exact hd1)
    (by rw [hbuf, hs1])
  have hA1 : applyBrokenRhythm D1 { d with
      r := { buf := sym :: l2 :: (o2 ++ (d2 ++ c :: tl)), lastByte := none } } =
      (D1, { d with r := { buf := sym :: l2 :: (o2 ++ (d2 ++ c :: tl)), lastByte := none } }) := by
    simp [applyBrokenRhythm, hh, hdd]
  rw [hA1] at s1
  dsimp only at s1
  rw [updCurrentMeasure_shape _
    { d with r := { buf := sym :: l2 :: (o2 ++ (d2 ++ c :: tl)), lastByte := none } }
    ts t ms m hT hM] at s1
  simp only [hG, updLast_append] at s1
  refine ⟨_, _, s1, readElement_brokenRhythm _ _ _ _ sym l2 (o2 ++ (d2 ++ c :: tl)) (hgl _ _)
    (hgl _ _) (hgl _ _) (by simp) hsym rfl, ?_⟩
  · rcases hsym with h | h <;> subst h
    · simp only [if_true]
      have s3 := readElement_note
        { updLastUnit (fun u => u.SetDuration (F64.double u.GetDuration))
            { d with
              r := { buf := l2 :: (o2 ++ (d2 ++ c :: tl)), lastByte := some 62 }
              Tunes := ts ++ [{ t with
                Measures := ms ++ [{ m with
                  NoteGroups := gs ++ [NoteGroup.mk (g.Units ++ [Unit.note ⟨l1 :: o1, D1⟩])] }] }] }
          with halveDuration := true }
        { t with Measures := ms ++ [{ m with
            NoteGroups := gs ++ [NoteGroup.mk (g.Units ++
              [Unit.note ⟨l1 :: o1, F64.double D1⟩])] }] }
        { m with NoteGroups := gs ++ [NoteGroup.mk (g.Units ++
              [Unit.note ⟨l1 :: o1, F64.double D1⟩])] }
        l2 o2 x2 tail2 D2 _
        (by simp [updLastUnit, updCurrentMeasure, updLast_append, Unit.SetDuration, Unit.GetDuration])
        (by simp) (by simp) hl2 ho2 hxo2 (by rw [← hs2]; exact hd2) (by simp [hs2, updLastUnit, updCurrentMeasure])
      rw [s3]
      simp [applyBrokenRhythm, updLastUnit, updCurrentMeasure, updLast_append, Unit.SetDuration,
        Unit.GetDuration, hdd]
    · simp only [show ¬ (60 = 62) by decide, if_false]
      have s3 := readElement_note
        { updLastUnit (fun u => u.SetDuration (F64.half u.GetDuration))
            { d with
              r := { buf := l2 :: (o2 ++ (d2 ++ c :: tl)), lastByte := some 60 }
              Tunes := ts ++ [{ t with
                Measures := ms ++ [{ m with
                  NoteGroups := gs ++ [NoteGroup.mk (g.Units ++ [Unit.note ⟨l1 :: o1, D1⟩])] }] }] }
          with doubleDuration := true }
        { t with Measures := ms ++ [{ m with
            NoteGroups := gs ++ [NoteGroup.mk (g.Units ++
              [Unit.note ⟨l1 :: o1, F64.half D1⟩])] }] }
        { m with NoteGroups := gs ++ [NoteGroup.mk (g.Units ++
              [Unit.note ⟨l1 :: o1, F64.half D1⟩])] }
        l2 o2 x2 tail2 D2 _
        (by simp [updLastUnit, updCurrentMeasure, updLast_append, Unit.SetDuration, Unit.GetDuration])
        (by simp) (by simp) hl2 ho2 hxo2 (by rw [← hs2]; exact hd2) (by simp [hs2, updLastUnit, updCurrentMeasure])
      rw [s3]
      simp [applyBrokenRhythm, updLastUnit, updCurrentMeasure, updLast_append, Unit.SetDuration,
        Unit.GetDuration, hh]

/-! ## The claims -/

/-- C1 (amended): when `Decode`, started on a new decoder, returns no error,
every measure of every tune has at least one note group, and exactly one tune
has at least one measure, every other tune having none; in particular, when the
decoder holds exactly one tune (no `X:` field was read besides the one that
opens the tune header), every tune has at least one measure. -/
theorem C1_decoded_tunes_structure (pf : List Nat → Option F64) (fuel : Nat) (input : List Nat)
    (disableFileCheck : Bool) (d : Decoder)
    (h : Decode pf fuel (NewDecoder input disableFileCheck) = .ok ⟨⟩ d) :
    (∀ t ∈ d.Tunes, ∀ m ∈ t.Measures, m.NoteGroups ≠ []) ∧
    (∃ pre t post, d.Tunes = pre ++ t :: post ∧ t.Measures ≠ [] ∧
      (∀ u ∈ pre, u.Measures = []) ∧ (∀ u ∈ post, u.Measures = [])) ∧
    (d.Tunes.length = 1 → ∀ t ∈ d.Tunes, t.Measures ≠ []) := by
  have key := Decode_oneBody pf fuel (NewDecoder input disableFileCheck)
    (fun t ht => by simp [NewDecoder] at ht)
  rw [h] at key
  obtain ⟨hg, pre, t, post, hts, ht, hpre, hpost⟩ := key
  refine ⟨hg, ⟨pre, t, post, hts, ht, hpre, hpost⟩, fun hone u hu => ?_⟩
  rw [hts] at hone hu
  have hpre0 : pre = [] := by
    cases pre with
    | nil => rfl
    | cons a l => simp at hone
  have hpost0 : post = [] := by
    cases post with
    | nil => rfl
    | cons a l => simp at hone; omega
  subst hpre0 hpost0
  simp only [List.nil_append, List.mem_singleton] at hu
  rw [hu]; exact ht

/-- Witness of C1 on a file whose tune header holds the lines `X:1` and `X:2`:
the tune opened by `X:2`, whose body is read, has a measure with a note group,
and the tune opened by `X:1` has no measure. -/
theorem C1_decoded_tunes_structure_witness :
    Decode (fun _ => none) 20 (NewDecoder (bytes "A:x\n\nX:1\nT:t\nX:2\nK:C\nA\n\n") true) =
      .ok ⟨⟩
        { r := { buf := [], lastByte := some 10 }
          fileCheck := true
          tuneHeaderDone := true
          Area := bytes "x"
          Tunes := [{ ReferenceNumber := 1, Title := bytes "t" },
                    { ReferenceNumber := 2, Key := bytes "C"
                      Measures := [{ NoteGroups :=
                        [{ Units := [Unit.note ⟨bytes "A", F64.one⟩] }] }] }] } ∧
    ((∀ t ∈ [({ ReferenceNumber := 1, Title := bytes "t" } : Tune),
              { ReferenceNumber := 2, Key := bytes "C"
                Measures := [{ NoteGroups := [{ Units := [Unit.note ⟨bytes "A", F64.one⟩] }] }] }],
        ∀ m ∈ t.Measures, m.NoteGroups ≠ []) ∧
     (∃ pre t post,
        [({ ReferenceNumber := 1, Title := bytes "t" } : Tune),
          { ReferenceNumber := 2, Key := bytes "C"
            Measures := [{ NoteGroups := [{ Units := [Unit.note ⟨bytes "A", F64.one⟩] }] }] }]
          = pre ++ t :: post ∧ t.Measures ≠ [] ∧
        (∀ u ∈ pre, u.Measures = []) ∧ (∀ u ∈ post, u.Measures = [])) ∧
     (List.length [({ ReferenceNumber := 1, Title := bytes "t" } : Tune),
          { ReferenceNumber := 2, Key := bytes "C"
            Measures := [{ NoteGroups := [{ Units := [Unit.note ⟨bytes "A", F64.one⟩] }] }] }] = 1 →
        ∀ t ∈ [({ ReferenceNumber := 1, Title := bytes "t" } : Tune),
          { ReferenceNumber := 2, Key := bytes "C"
            Measures := [{ NoteGroups := [{ Units := [Unit.note ⟨bytes "A", F64.one⟩] }] }] }],
          t.Measures ≠ [])) :=
  ⟨by decide,
   C1_decoded_tunes_structure (fun _ => none) 20 (bytes "A:x\n\nX:1\nT:t\nX:2\nK:C\nA\n\n") true
    { r := { buf := [], lastByte := some 10 }
      fileCheck := true
      tuneHeaderDone := true
      Area := bytes "x"
      Tunes := [{ ReferenceNumber := 1, Title := bytes "t" },
                { ReferenceNumber := 2, Key := bytes "C"
                  Measures := [{ NoteGroups :=
                    [{ Units := [Unit.note ⟨bytes "A", F64.one⟩] }] }] }] }
    (by decide)⟩

/-- Counterexample to C1 as stated: a second `X:` line in the tune header
appends a second tune; `Decode` returns no error, and the tune with reference
number 1 is left without any measure. -/
theorem C1_tune_without_measure_counterexample :
    (Decode (fun _ => none) 20 (NewDecoder (bytes "A:x\n\nX:1\nT:t\nX:2\nK:C\n\n") true)).isOk
      = true ∧
    (match Decode (fun _ => none) 20 (NewDecoder (bytes "A:x\n\nX:1\nT:t\nX:2\nK:C\n\n") true) with
      | .ok _ d => d.Tunes.map (fun t => (t.ReferenceNumber, t.Measures.length))
      | _ => []) = [(1, 0), (2, 1)] := by
  decide

/-- C2 (refuted by the code): `Decode` assigns the error of `readTuneBody` and
never looks at it.  On the body `A/` (a duration with `/` and no denominator)
`readTuneBody` returns an error in the very state `readTuneHeader` leaves, and
`Decode` on the whole file returns no error. -/
theorem C2_decode_ignores_tune_body_error :
    (readTuneBody 20
      { r := { buf := bytes "A/\n\n", lastByte := some 10 }
        fileCheck := true
        tuneHeaderDone := true
        Area := bytes "x"
        Tunes := [{ ReferenceNumber := 1, Title := bytes "t", Key := bytes "C" }] }).isErr = true ∧
    readTuneHeader 20
      { r := { buf := bytes "X:1\nT:t\nK:C\nA/\n\n", lastByte := some 10 }
        fileCheck := true
        Area := bytes "x" } =
      .ok ⟨⟩ { r := { buf := bytes "A/\n\n", lastByte := some 10 }
               fileCheck := true
               tuneHeaderDone := true
               Area := bytes "x"
               Tunes := [{ ReferenceNumber := 1, Title := bytes "t", Key := bytes "C" }] } ∧
    (Decode (fun _ => none) 20
      (NewDecoder (bytes "A:x\n\nX:1\nT:t\nK:C\nA/\n\n") true)).isOk = true := by
  decide

/-- C3 (refuted by the code): on every stream that starts directly with the
letter `X` of a tune, hence has no file header, `Decode` (file check disabled)
returns an error: the line that should be the blank line after a file header is
read unconditionally, and it is the `X:` line. -/
theorem C3_decode_without_file_header_fails (pf : List Nat → Option F64) (fuel : Nat) (rest : List Nat) :
    ∃ d', Decode pf fuel (NewDecoder (88 :: rest) true) = .err d' := by
  have hs : skipComments (NewDecoder (88 :: rest) true) = _ :=
    skipComments_head (d := NewDecoder (88 :: rest) true) rfl (by decide)
  simp only [Decode, NewDecoder, skipBOM] at *
  simp [decodeFile, hs, readFileHeader, Reader.Peek, Reader.ReadBytes, splitAfter]
  cases hsp : splitAfter 10 rest with
  | none => simp
  | some p =>
    obtain ⟨l, r⟩ := p
    have hl : l ≠ [] := by
      have := splitAfter_length hsp
      intro h; simp [h] at this
    simp [hl]

/-- C4 (amended): when the file check is enabled and the first line, after an
optional byte order mark, does not begin with the four bytes `%abc`, `Decode`
returns an error and only the reader of the decoder has changed. -/
theorem C4_first_line_rejected_after_bom (pf : List Nat → Option F64) (fuel : Nat) (d : Decoder)
    (hcheck : d.fileCheck = false)
    (hline : (dropBOM d.r.buf).take 4 ≠ [37, 97, 98, 99]) :
    ∃ r', Decode pf fuel d = .err { d with r := r' } := by
  unfold Decode
  rcases skipBOM_eq d with h | ⟨lb, h⟩
  · rw [h]; exact ⟨d.r, rfl⟩
  · rw [h]
    obtain ⟨r', hr⟩ := readMagicNumber_reject pf
      { d with r := { buf := dropBOM d.r.buf, lastByte := lb } } hline
    refine ⟨r', ?_⟩
    dsimp only
    rw [if_pos (by simpa using hcheck), hr]

/-- Witness of C4 on the stream `hello`. -/
theorem C4_first_line_rejected_witness :
    ∃ r', Decode (fun _ => none) 5 (NewDecoder (bytes "hello\n") false)
      = .err { NewDecoder (bytes "hello\n") false with r := r' } :=
  C4_first_line_rejected_after_bom (fun _ => none) 5 (NewDecoder (bytes "hello\n") false) rfl (by decide)

/-- Counterexample to C4 as stated: this stream begins with a byte order mark,
so its first line does not begin with the bytes `%abc`, and `Decode` with the
file check enabled returns no error. -/
theorem C4_bom_first_line_counterexample :
    ¬ ([0xEF, 0xBB, 0xBF] ++ bytes "%abc-\nA:x\n\nX:1\nT:t\nK:C\n\n").take 4 = bytes "%abc" ∧
    (Decode (fun _ => none) 20
      (NewDecoder ([0xEF, 0xBB, 0xBF] ++ bytes "%abc-\nA:x\n\nX:1\nT:t\nK:C\n\n") false)).isOk = true := by
  decide

/-- C5 (amended): on a possibly empty run of decimal digits of value below
`2^53` followed by a byte `c` that is neither a digit nor `/`, `readDuration`
returns without error the integer value of the run (`1` when the run is empty)
and leaves the cursor on `c`. -/
theorem C5_small_digit_run_duration (d : Decoder) (ds : List Nat) (c : Nat) (rest : List Nat)
    (hds : ∀ b ∈ ds, isDigitByte b = true) (hc : isDigitByte c = false) (hc47 : c ≠ 47)
    (hval : natOfDigits ds < 2 ^ 53) (hbuf : d.r.buf = ds ++ c :: rest) :
    ∃ v, readDuration d = .ok v { d with r := { buf := c :: rest, lastByte := none } } ∧
      v.toRat = some (if ds = [] then 1 else (natOfDigits ds : ℚ)) := by
  have h1 := readDigits_run ds c rest hds hc
  obtain ⟨v, hv1, hv2, -, -⟩ := parseFloatDigits_small hval
  simp only [readDuration, Reader.readDuration, hbuf, h1]
  by_cases hlen : ds = []
  · subst hlen
    refine ⟨F64.one, ?_, by simpa using toRat_one⟩
    simp [hc47, Reader.UnreadByte]
  · have hpos : 0 < ds.length := List.length_pos.mpr hlen
    refine ⟨v, ?_, by simpa [hlen] using hv2⟩
    simp [hc47, hpos, hv1, Reader.UnreadByte, Nat.pos_iff_ne_zero.mp hpos]

/-- Witness of C5 on the text `12` followed by a space. -/
theorem C5_small_digit_run_witness :
    ∃ v, readDuration { r := { buf := bytes "12 A" } } =
        .ok v { r := { buf := bytes " A", lastByte := none } } ∧
      v.toRat = some (if bytes "12" = [] then 1 else (natOfDigits (bytes "12") : ℚ)) :=
  C5_small_digit_run_duration { r := { buf := bytes "12 A" } } (bytes "12") 32 (bytes "A")
    (by decide) (by decide) (by decide) (by decide) rfl

set_option maxRecDepth 100000 in
/-- Counterexample to C5 as stated: the run `9007199254740993` (`2^53 + 1`) is
read as the double `2^53`, not as its integer value, and a run of 310 digits `9`
makes `strconv.ParseFloat` fail with a range error, so that `readDuration`
returns an error. -/
theorem C5_large_digit_run_counterexample :
    (readDuration { r := { buf := bytes "9007199254740993x" } } =
        .ok (F64.fin (2 ^ 52) 1) { r := { buf := bytes "x" } } ∧
      natOfDigits (bytes "9007199254740993") = 9007199254740993 ∧
      F64.toRat (F64.fin (2 ^ 52) 1) = some (9007199254740992 : ℚ)) ∧
    (readDuration { r := { buf := List.replicate 310 57 ++ bytes "x" } }).isErr = true := by
  refine ⟨⟨by decide, by decide, ?_⟩, by decide⟩
  simp only [F64.toRat, Option.some.injEq]
  norm_num

/-- C6 (amended): on `n / d c`, with `n` an empty run or a run of digits of
nonzero value, `d` a non-empty run of digits of nonzero value, both values below
`2^53`, and `c` not a digit, `readDuration` returns without error the float64
quotient of `N` (`1` when `n` is empty) by `D`, as IEEE division rounds it, and
leaves the cursor on `c`; the quotient is `N / D` exactly when `D` is a power of
two. -/
theorem C6_fraction_duration (d : Decoder) (n dd : List Nat) (c : Nat) (rest : List Nat)
    (hn : ∀ b ∈ n, isDigitByte b = true) (hd : ∀ b ∈ dd, isDigitByte b = true)
    (hdne : dd ≠ []) (hc : isDigitByte c = false)
    (hN0 : n = [] ∨ 0 < natOfDigits n) (hN : natOfDigits n < 2 ^ 53)
    (hD0 : 0 < natOfDigits dd) (hD : natOfDigits dd < 2 ^ 53)
    (hbuf : d.r.buf = n ++ 47 :: (dd ++ c :: rest)) :
    readDuration d =
      .ok (F64.div (F64.ofNat (if n = [] then 1 else natOfDigits n)) (F64.ofNat (natOfDigits dd)))
        { d with r := { buf := c :: rest, lastByte := none } } ∧
    ∀ k, natOfDigits dd = 2 ^ k →
      F64.toRat (F64.div (F64.ofNat (if n = [] then 1 else natOfDigits n))
          (F64.ofNat (natOfDigits dd))) =
        some (((if n = [] then 1 else natOfDigits n : Nat) : ℚ) / 2 ^ k) := by
  constructor
  · have h1 := readDigits_run n 47 (dd ++ c :: rest) hn (by decide)
    have h2 := readDigits_run dd c rest hd hc
    have hdpos : dd.length ≠ 0 := by
      intro h; exact hdne (List.length_eq_zero.mp h)
    have hpd : parseFloatDigits dd = some (F64.ofNat (natOfDigits dd)) := by
      unfold parseFloatDigits
      rw [F64.ofNat_exact hD0 hD]
    simp only [readDuration, Reader.readDuration, hbuf, h1, h2]
    by_cases hne : n = []
    · subst hne
      have h11 : F64.ofNat 1 = F64.one := by decide
      simp [hdpos, hpd, Reader.UnreadByte, h11]
    · have hpos : 0 < n.length := List.length_pos.mpr hne
      have hN0' : 0 < natOfDigits n := by
        rcases hN0 with h | h
        · exact absurd h hne
        · exact h
      have hpn : parseFloatDigits n = some (F64.ofNat (natOfDigits n)) := by
        unfold parseFloatDigits
        rw [F64.ofNat_exact hN0' hN]
      have hnz : F64.ofNat (natOfDigits n) ≠ F64.zero := by
        rw [F64.ofNat_exact hN0' hN]
        intro hz
        simp only [F64.zero, F64.fin.injEq] at hz
        have : 0 < natOfDigits n * 2 ^ (52 - F64.log2 (natOfDigits n)) :=
          Nat.mul_pos hN0' (by positivity)
        omega
      simp [hne, hpos, Nat.pos_iff_ne_zero.mp hpos, hdpos, hpn, hpd, Reader.UnreadByte, hnz]
  · intro k hk
    rw [hk]
    apply F64.div_ofNat_pow2
    · split_ifs
      · norm_num
      · rcases hN0 with h | h
        · contradiction
        · exact h
    · split_ifs
      · norm_num
      · exact hN
    · rw [← hk]; exact hD

/-- Witness of C6 on the text `3/4` followed by a space. -/
theorem C6_fraction_duration_witness :
    readDuration { r := { buf := bytes "3/4 A" } } =
      .ok (F64.div (F64.ofNat (if bytes "3" = [] then 1 else natOfDigits (bytes "3")))
          (F64.ofNat (natOfDigits (bytes "4"))))
        { r := { buf := bytes " A", lastByte := none } } ∧
    ∀ k, natOfDigits (bytes "4") = 2 ^ k →
      F64.toRat (F64.div (F64.ofNat (if bytes "3" = [] then 1 else natOfDigits (bytes "3")))
          (F64.ofNat (natOfDigits (bytes "4")))) =
        some (((if bytes "3" = [] then 1 else natOfDigits (bytes "3") : Nat) : ℚ) / 2 ^ k) :=
  C6_fraction_duration { r := { buf := bytes "3/4 A" } } (bytes "3") (bytes "4") 32 (bytes "A")
    (by decide) (by decide) (by decide) (by decide) (Or.inr (by decide)) (by decide)
    (by decide) (by decide) rfl

/-- Counterexample to C6 as stated: on `1/3` the duration returned is the
double `6004799503160661 * 2^-54`, which is not the quotient `1/3`. -/
theorem C6_inexact_quotient_counterexample :
    readDuration { r := { buf := bytes "1/3x" } } =
        .ok (F64.fin 6004799503160661 (-54)) { r := { buf := bytes "x" } } ∧
      F64.toRat (F64.fin 6004799503160661 (-54)) ≠ some ((1 : ℚ) / 3) := by
  refine ⟨by decide, ?_⟩
  simp only [F64.toRat, ne_eq, Option.some.injEq]
  norm_num

/-- C7: on a possibly empty run of digits, a `/` and a byte that is not a digit,
`readDuration` returns an error. -/
theorem C7_slash_without_denominator_errors (d : Decoder) (n : List Nat) (c : Nat) (rest : List Nat)
    (hn : ∀ b ∈ n, isDigitByte b = true) (hc : isDigitByte c = false)
    (hbuf : d.r.buf = n ++ 47 :: c :: rest) :
    ∃ d', readDuration d = .err d' := by
  have h1 := readDigits_run n 47 (c :: rest) hn (by decide)
  have h2 := readDigits_run [] c rest (by simp) hc
  simp only [List.nil_append] at h2
  simp only [readDuration, Reader.readDuration, hbuf, h1, h2]
  by_cases hlen : 0 < n.length
  · cases hp : parseFloatDigits n <;> simp [hlen, hp]
  · simp [hlen]
    

/-- Witness of C7 on the text `3/` followed by a space. -/
theorem C7_slash_without_denominator_witness : ∃ d', readDuration { r := { buf := bytes "3/ A" } } = .err d' :=
  C7_slash_without_denominator_errors { r := { buf := bytes "3/ A" } } (bytes "3") 32 (bytes "A")
    (by decide) (by decide) rfl

/-- C8 (amended): two notes `p1 d1 > p2 d2` of one note group (`p` a pitch letter
with octave marks, `d` a text from which `readDuration` parses the duration
`D`), read by three successive calls of `readElement` with no modifier flag
pending, leave the first note with the float64 product `D1 * 2.0` and append the
second with the float64 quotient `D2 / 2.0`; with `<` the durations are
`D1 / 2.0` and `D2 * 2.0`; neither flag is pending afterwards.  For each of the
two durations `D`, of value `x`, the product is exactly `2 * x` when
`2 * x < 2^1024`, and the quotient is exactly `x / 2` when `x / 2` is a multiple
of `2^-1074`. -/
theorem C8_broken_rhythm_pair (d : Decoder) (ts : List Tune) (t : Tune) (ms : List Measure) (m : Measure)
    (gs : List NoteGroup) (g : NoteGroup) (l1 l2 sym c : Nat) (o1 o2 d1 d2 tl : List Nat)
    (D1 D2 : F64)
    (hT : d.Tunes = ts ++ [t]) (hM : t.Measures = ms ++ [m]) (hG : m.NoteGroups = gs ++ [g])
    (hh : d.halveDuration = false) (hdd : d.doubleDuration = false)
    (hl1 : isPitchLetter l1 = true) (ho1 : ∀ b ∈ o1, isOctaveMark b = true)
    (hl2 : isPitchLetter l2 = true) (ho2 : ∀ b ∈ o2, isOctaveMark b = true)
    (hsym : sym = 62 ∨ sym = 60)
    (hx1 : ∀ b ∈ d1.head?, isOctaveMark b = false)
    (hx2 : ∀ b ∈ (d2 ++ [c]).head?, isOctaveMark b = false)
    (hd1 : Reader.readDuration { buf := d1 ++ sym :: l2 :: (o2 ++ (d2 ++ c :: tl)), lastByte := none }
      = (some D1, { buf := sym :: l2 :: (o2 ++ (d2 ++ c :: tl)), lastByte := none }))
    (hd2 : Reader.readDuration { buf := d2 ++ c :: tl, lastByte := none }
      = (some D2, { buf := c :: tl, lastByte := none }))
    (hbuf : d.r.buf = l1 :: (o1 ++ (d1 ++ sym :: l2 :: (o2 ++ (d2 ++ c :: tl))))) :
    (∃ dA dB, readElement d = .ok ⟨⟩ dA ∧ readElement dA = .ok ⟨⟩ dB ∧
      readElement dB = .ok ⟨⟩ { d with
        r := { buf := c :: tl, lastByte := none }
        halveDuration := false
        doubleDuration := false
        Tunes := ts ++ [{ t with
          Measures := ms ++ [{ m with
            NoteGroups := gs ++ [NoteGroup.mk (g.Units ++
              [Unit.note ⟨l1 :: o1, if sym = 62 then F64.double D1 else F64.half D1⟩,
               Unit.note ⟨l2 :: o2, if sym = 62 then F64.half D2 else F64.double D2⟩])] }] }] }) ∧
    (∀ D, D = D1 ∨ D = D2 → ∀ x : ℚ, F64.toRat D = some x →
      (2 * x < 2 ^ 1024 → F64.toRat (F64.double D) = some (2 * x)) ∧
      ((∃ k : Nat, x = (k : ℚ) * (2 : ℚ) ^ (-1073 : Int)) →
        F64.toRat (F64.half D) = some (x / 2))) := by
  refine ⟨readElement_pair d ts t ms m gs g l1 l2 sym c o1 o2 d1 d2 tl D1 D2 hT hM hG hh hdd
    hl1 ho1 hl2 ho2 hsym hx1 hx2 hd1 hd2 hbuf, ?_⟩
  intro D hD x hx
  have hc : D.canonical := by
    rcases hD with h | h
    · rw [h]; exact Reader.readDuration_canonical _ _ _ hd1
    · rw [h]; exact Reader.readDuration_canonical _ _ _ hd2
  exact ⟨fun hlt => F64.toRat_double D hc x hx hlt, fun hk => F64.toRat_half D hc x hx hk⟩

/-- Witness of C8 on the text `A2>B2`: the durations become `4` and `1`. -/
theorem C8_broken_rhythm_pair_witness :
    (∃ dA dB,
      readElement { r := { buf := bytes "A2>B2\n" }
                    Tunes := [{ Measures := [{ NoteGroups := [{ Units := [] }] }] }] }
        = .ok ⟨⟩ dA ∧
      readElement dA = .ok ⟨⟩ dB ∧
      readElement dB = .ok ⟨⟩
        { r := { buf := bytes "\n", lastByte := none }
          halveDuration := false
          doubleDuration := false
          Tunes := [{
            Measures := [{
              NoteGroups := [NoteGroup.mk
                [Unit.note ⟨bytes "A", F64.fin 4503599627370496 (-50)⟩,
                 Unit.note ⟨bytes "B", F64.fin 4503599627370496 (-52)⟩]] }] }] }) ∧
    F64.toRat (F64.ofNat 2) = some 2 ∧
    F64.toRat (F64.double (F64.ofNat 2)) = some (2 * 2) ∧
    F64.toRat (F64.half (F64.ofNat 2)) = some (2 / 2) :=
  have h := C8_broken_rhythm_pair
    { r := { buf := bytes "A2>B2\n" }
      Tunes := [{ Measures := [{ NoteGroups := [{ Units := [] }] }] }] }
    [] { Measures := [{ NoteGroups := [{ Units := [] }] }] } [] { NoteGroups := [{ Units := [] }] }
    [] { Units := [] } 65 66 62 10 [] [] (bytes "2") (bytes "2") [] (F64.ofNat 2) (F64.ofNat 2)
    rfl rfl rfl rfl rfl (by decide) (by decide) (by decide) (by decide) (Or.inl rfl)
    (by decide) (by decide) (by decide) (by decide) rfl
  have h2 : F64.toRat (F64.ofNat 2) = some 2 := by
    have := F64.toRat_ofNat (show 0 < 2 by norm_num) (show 2 < 2 ^ 53 by norm_num)
    simpa using this
  ⟨h.1, h2,
   (h.2 (F64.ofNat 2) (Or.inl rfl) 2 h2).1 (by norm_num),
   (h.2 (F64.ofNat 2) (Or.inl rfl) 2 h2).2 ⟨2 ^ 1074, by
      rw [show (-1073 : Int) = -((1073 : Nat) : Int) by rfl, zpow_neg, zpow_natCast]
      push_cast
      rw [show (2 : ℚ) ^ 1074 = 2 * 2 ^ 1073 by rw [pow_succ']]
      field_simp⟩⟩

set_option maxRecDepth 100000 in
/-- Counterexample to C8 as stated.  On `A` followed by 308 digits `9`, `>` and
`B`, the duration `D1` parsed is finite (`5010420900022432 * 2^971`) and the
first note ends with the duration `+Inf`, which is not `2 * D1`.  On `A>B/`
followed by 308 digits `8`, the duration `D2` parsed is
`2277025349707245 * 2^-1074` and the second note is appended with
`1138512674853622 * 2^-1074`, which is not `D2 / 2`. -/
theorem C8_overflow_underflow_counterexample :
    (readElement { r := { buf := 65 :: (List.replicate 308 57 ++ bytes ">B\n") }
                   Tunes := [{ Measures := [{ NoteGroups := [{}] }] }] } =
      .ok ⟨⟩ { r := { buf := bytes ">B\n" }
               Tunes := [{ Measures := [{ NoteGroups := [{ Units :=
                 [Unit.note ⟨bytes "A", F64.fin 5010420900022432 971⟩] }] }] }] } ∧
     readElement { r := { buf := bytes ">B\n" }
                   Tunes := [{ Measures := [{ NoteGroups := [{ Units :=
                     [Unit.note ⟨bytes "A", F64.fin 5010420900022432 971⟩] }] }] }] } =
      .ok ⟨⟩ { r := { buf := bytes "B\n", lastByte := some 62 }
               halveDuration := true
               Tunes := [{ Measures := [{ NoteGroups := [{ Units :=
                 [Unit.note ⟨bytes "A", F64.inf⟩] }] }] }] } ∧
     readElement { r := { buf := bytes "B\n", lastByte := some 62 }
                   halveDuration := true
                   Tunes := [{ Measures := [{ NoteGroups := [{ Units :=
                     [Unit.note ⟨bytes "A", F64.inf⟩] }] }] }] } =
      .ok ⟨⟩ { r := { buf := bytes "\n" }
               Tunes := [{ Measures := [{ NoteGroups := [{ Units :=
                 [Unit.note ⟨bytes "A", F64.inf⟩,
                  Unit.note ⟨bytes "B", F64.fin 4503599627370496 (-53)⟩] }] }] }] } ∧
     F64.toRat F64.inf = none) ∧
    (readElement { r := { buf := bytes "A>B/" ++ (List.replicate 308 56 ++ bytes "\n") }
                   Tunes := [{ Measures := [{ NoteGroups := [{}] }] }] } =
      .ok ⟨⟩ { r := { buf := bytes ">B/" ++ (List.replicate 308 56 ++ bytes "\n") }
               Tunes := [{ Measures := [{ NoteGroups := [{ Units :=
                 [Unit.note ⟨bytes "A", F64.one⟩] }] }] }] } ∧
     readElement { r := { buf := bytes ">B/" ++ (List.replicate 308 56 ++ bytes "\n") }
                   Tunes := [{ Measures := [{ NoteGroups := [{ Units :=
                     [Unit.note ⟨bytes "A", F64.one⟩] }] }] }] } =
      .ok ⟨⟩ { r := { buf := bytes "B/" ++ (List.replicate 308 56 ++ bytes "\n"),
                      lastByte := some 62 }
               halveDuration := true
               Tunes := [{ Measures := [{ NoteGroups := [{ Units :=
                 [Unit.note ⟨bytes "A", F64.fin 4503599627370496 (-51)⟩] }] }] }] } ∧
     readElement { r := { buf := bytes "B/" ++ (List.replicate 308 56 ++ bytes "\n"),
                          lastByte := some 62 }
                   halveDuration := true
                   Tunes := [{ Measures := [{ NoteGroups := [{ Units :=
                     [Unit.note ⟨bytes "A", F64.fin 4503599627370496 (-51)⟩] }] }] }] } =
      .ok ⟨⟩ { r := { buf := bytes "\n" }
               Tunes := [{ Measures := [{ NoteGroups := [{ Units :=
                 [Unit.note ⟨bytes "A", F64.fin 4503599627370496 (-51)⟩,
                  Unit.note ⟨bytes "B", F64.fin 1138512674853622 (-1074)⟩] }] }] }] } ∧
     readDuration { r := { buf := bytes "/" ++ (List.replicate 308 56 ++ bytes "\n") } } =
      .ok (F64.fin 2277025349707245 (-1074)) { r := { buf := bytes "\n" } } ∧
     F64.toRat (F64.fin 1138512674853622 (-1074)) ≠
      (F64.toRat (F64.fin 2277025349707245 (-1074))).map (· / 2)) := by
  refine ⟨⟨by decide, by decide, by decide, rfl⟩, ⟨by decide, by decide, by decide, by decide, ?_⟩⟩
  simp only [F64.toRat, Option.map_some', ne_eq, Option.some.injEq]
  have hp : (2 : ℚ) ^ (-1074 : Int) ≠ 0 := (zpow_pos (by norm_num) _).ne'
  intro h
  have h2 : (1138512674853622 : ℚ) * 2 = 2277025349707245 := by
    have h3 : (1138512674853622 : ℚ) * 2 * (2 : ℚ) ^ (-1074 : Int) =
        2277025349707245 * (2 : ℚ) ^ (-1074 : Int) := by
      linear_combination 2 * h
    exact mul_right_cancel₀ hp h3
  norm_num at h2

/-- C9 (refuted by the code): when the current note group holds no unit and
the stream starts with `>` or `<` followed by one more byte, `readElement`
indexes `Units[len-1]` out of range and panics instead of returning an error. -/
theorem C9_broken_rhythm_on_empty_group_panics (d : Decoder) (t : Tune) (m : Measure) (g : NoteGroup) (b c : Nat) (rest : List Nat)
    (ht : d.Tunes.getLast? = some t) (hm : t.Measures.getLast? = some m)
    (hg : m.NoteGroups.getLast? = some g) (hu : g.Units = [])
    (hbuf : d.r.buf = b :: c :: rest) (hb : b = 62 ∨ b = 60) :
    readElement d = .panic := by
  rcases hb with hb | hb <;> subst hb <;>
  simp [readElement, ht, hm, peekLexToken, Reader.Peek, hbuf, isNote, isRest, isPitch, por,
    isOctaveMark, isPitchLetter, isAnnotation, isSpace, isBarline, isInline, isRepeat, isChord,
    isBrokenRhythm, readBrokenRhythm, Reader.ReadByte, hg, hu]

/-- Witness of C9: the body text `>A` read into a fresh first measure. -/
theorem C9_broken_rhythm_on_empty_group_witness :
    readElement { r := { buf := bytes ">A\n" }
                  Tunes := [{ Measures := [{ NoteGroups := [{ Units := [] }] }] }] } = .panic :=
  C9_broken_rhythm_on_empty_group_panics _ { Measures := [{ NoteGroups := [{ Units := [] }] }] }
    { NoteGroups := [{ Units := [] }] } { Units := [] } 62 65 [10] rfl rfl rfl rfl rfl (Or.inl rfl)

/-- C10: on the line `X:n`, with `n` a non-empty run of decimal digits of value
below `2^63`, `readInformationField(false)` returns no error, appends one tune
with that reference number and no other field set, clears `tuneHeaderDone`, and
changes nothing else but the reader. -/
theorem C10_reference_number_appends_tune (d : Decoder) (n rest : List Nat) (hne : n ≠ [])
    (hn : ∀ b ∈ n, isDigitByte b = true) (hval : natOfDigits n < 2 ^ 63)
    (hbuf : d.r.buf = 88 :: 58 :: n ++ 10 :: rest) :
    readInformationField false d =
      .ok ⟨⟩ { d with
        r := { buf := rest, lastByte := some 10 }
        tuneHeaderDone := false
        Tunes := d.Tunes ++ [{ ReferenceNumber := natOfDigits n }] } := by
  have hs := skipComments_head hbuf (by decide)
  have hl : ∀ b ∈ 88 :: 58 :: n, b ≠ 10 ∧ b ≠ 37 := by
    intro b hb
    simp at hb
    rcases hb with hb | hb | hb
    · omega
    · omega
    · have := isDigitByte_iff.mp (hn b hb); omega
  have hrl := readLine_plain (skipComments d) (88 :: 58 :: n) rest (by rw [hs]; simpa using hbuf) hl
  have htrim : TrimSpace (88 :: 58 :: n) = 88 :: 58 :: n := by
    apply TrimSpace_of_none
    · rfl
    · obtain ⟨b, t, hbt⟩ : ∃ b t, n.reverse = b :: t := by
        cases hr : n.reverse with
        | nil => simp at hr; exact absurd hr hne
        | cons b t => exact ⟨b, t, rfl⟩
      have hb : isDigitByte b = true := hn b (by
        have : b ∈ n.reverse := by rw [hbt]; simp
        simpa using this)
      simp [hbt, dropSpaceRuneRev_digit _ hb]
  obtain ⟨c, t, hct⟩ : ∃ c t, n = c :: t := by
    cases n with
    | nil => exact absurd rfl hne
    | cons c t => exact ⟨c, t, rfl⟩
  have hc := isDigitByte_iff.mp (hn c (by simp [hct]))
  have hpi : ParseInt n = some (natOfDigits n : Int) := by
    have hall : (c :: t).all isDigitByte = true := by
      rw [List.all_eq_true]; intro x hx; exact hn x (by rw [hct]; exact hx)
    have hv : natOfDigits (c :: t) < 9223372036854775808 := by rw [← hct]; simpa using hval
    have h43 : c ≠ 43 := by omega
    have h45 : c ≠ 45 := by omega
    have hd : isDigitByte c = true ∧ ∀ x ∈ t, isDigitByte x = true :=
      ⟨hn c (by simp [hct]), fun x hx => hn x (by simp [hct, hx])⟩
    rw [hct]
    simp [ParseInt, h43, h45, hv, hd.1]
    exact hd.2
  have hu : toUint64 (natOfDigits n : Int) = natOfDigits n := by
    unfold toUint64
    have : ((natOfDigits n : Int) % (2 ^ 64 : Int)) = (natOfDigits n : Int) := by
      apply Int.emod_eq_of_lt
      · exact Int.natCast_nonneg _
      · have : (natOfDigits n : Int) < 2 ^ 63 := by exact_mod_cast hval
        omega
    rw [this]; simp
  rw [readInformationField]
  simp only [Bool.not_false, if_true, hrl, htrim, processField]
  simp [dispatchField, hpi, hu, hs]

/-- Witness of C10 on the line `X:12` with one tune already present. -/
theorem C10_reference_number_witness :
    readInformationField false
        { r := { buf := bytes "X:12\nT:t\n" }, Tunes := [{ ReferenceNumber := 7 }] } =
      .ok ⟨⟩ { r := { buf := bytes "T:t\n", lastByte := some 10 }
               tuneHeaderDone := false
               Tunes := [{ ReferenceNumber := 7 }] ++ [{ ReferenceNumber := natOfDigits (bytes "12") }] } :=
  C10_reference_number_appends_tune
    { r := { buf := bytes "X:12\nT:t\n" }, Tunes := [{ ReferenceNumber := 7 }] }
    (bytes "12") (bytes "T:t\n") (by decide) (by decide) (by decide) rfl

/-- C11 (refuted by the code): the value `-5` is not an unsigned decimal integer,
yet `readInformationField(false)` on the line `X:-5` returns no error and
appends a tune, with reference number `2^64 - 5`: the value is parsed with
`strconv.ParseInt` and converted with `uint64(num)`. -/
theorem C11_signed_reference_number_accepted :
    readInformationField false { r := { buf := bytes "X:-5\n" } } =
      .ok ⟨⟩ { r := { buf := [], lastByte := some 10 }
               Tunes := [{ ReferenceNumber := 18446744073709551611 }] } := by
  decide

/-- C12 (amended): with a last tune whose title is empty, and for values `a` and
`b` that hold no `%` and no newline and do not end in white space, `a` non-empty,
the line `T:a` sets the title of that tune to `a`, and the line `T:b` read next
sets it to `a`, a space, a newline and `b`; nothing else changes but the
reader. -/
theorem C12_title_accumulates (d : Decoder) (ts : List Tune) (t : Tune) (a b rest : List Nat)
    (hT : d.Tunes = ts ++ [t]) (ht : t.Title = []) (hane : a ≠ [])
    (ha : isFieldValue a) (hb : isFieldValue b)
    (hbuf : d.r.buf = 84 :: 58 :: (a ++ 10 :: 84 :: 58 :: (b ++ 10 :: rest))) :
    readInformationField false d =
      .ok ⟨⟩ { d with
        r := { buf := 84 :: 58 :: (b ++ 10 :: rest), lastByte := some 10 }
        Tunes := ts ++ [{ t with Title := a }] } ∧
    readInformationField false { d with
        r := { buf := 84 :: 58 :: (b ++ 10 :: rest), lastByte := some 10 }
        Tunes := ts ++ [{ t with Title := a }] } =
      .ok ⟨⟩ { d with
        r := { buf := rest, lastByte := some 10 }
        Tunes := ts ++ [{ t with Title := a ++ 32 :: 10 :: b }] } := by
  have hT84 : isFieldLetter 84 := by unfold isFieldLetter; omega
  constructor
  · rw [readInformationField_field d 84 a _ hT84 ha hbuf]
    simp [dispatchField, setLastTune, hT, updLast_append, ht]
  · rw [readInformationField_field _ 84 b rest hT84 hb rfl]
    simp [dispatchField, setLastTune, updLast_append, hane]

/-- Witness of C12 on the lines `T:Alpha` and `T:Beta`. -/
theorem C12_title_accumulates_witness :
    readInformationField false
        { r := { buf := bytes "T:Alpha\nT:Beta\n" }, Tunes := [{ ReferenceNumber := 1 }] } =
      .ok ⟨⟩ { r := { buf := 84 :: 58 :: (bytes "Beta" ++ 10 :: []), lastByte := some 10 }
               Tunes := [] ++ [{ ReferenceNumber := 1, Title := bytes "Alpha" }] } ∧
    readInformationField false
        { r := { buf := 84 :: 58 :: (bytes "Beta" ++ 10 :: []), lastByte := some 10 }
          Tunes := [] ++ [{ ReferenceNumber := 1, Title := bytes "Alpha" }] } =
      .ok ⟨⟩ { r := { buf := [], lastByte := some 10 }
               Tunes := [] ++ [{ ReferenceNumber := 1
                                 Title := bytes "Alpha" ++ 32 :: 10 :: bytes "Beta" }] } :=
  C12_title_accumulates
    { r := { buf := bytes "T:Alpha\nT:Beta\n" }, Tunes := [{ ReferenceNumber := 1 }] }
    [] { ReferenceNumber := 1 } (bytes "Alpha") (bytes "Beta") [] rfl rfl (by decide)
    ⟨by decide, by decide⟩ ⟨by decide, by decide⟩ rfl

/-- Counterexample to C12 as stated: of the non-empty value `100% Cotton` the
line `T:100% Cotton` stores only `100`, because the line reader cuts a line at
the first `%`; and of the value `Alpha ` (with a trailing space) the line
`T:Alpha ` stores `Alpha`, because the line reader trims the line. -/
theorem C12_title_value_cut_counterexample :
    readInformationField false
        { r := { buf := bytes "T:100% Cotton\n" }, Tunes := [{ ReferenceNumber := 1 }] } =
      .ok ⟨⟩ { r := { buf := [], lastByte := some 10 }
               Tunes := [{ ReferenceNumber := 1, Title := bytes "100" }] } ∧
    readInformationField false
        { r := { buf := bytes "T:Alpha \n" }, Tunes := [{ ReferenceNumber := 1 }] } =
      .ok ⟨⟩ { r := { buf := [], lastByte := some 10 }
               Tunes := [{ ReferenceNumber := 1, Title := bytes "Alpha" }] } ∧
    bytes "100" ≠ bytes "100% Cotton" ∧ bytes "Alpha" ≠ bytes "Alpha " := by
  decide

/-- C13 (amended): on the line `M:v`, read where the target of the meter exists
(file header, or a last tune, with a measure once its header is complete), let
`v'` be the value that the line reader returns for `v`: the text of `v` up to
the first `%`, without its trailing white space (`v` itself when `v` has no `%`
and does not end in white space).  Then `readInformationField(false)` returns an
error if and only if `v'` contains no `/`, or the text before the first `/` of
`v'` is not an unsigned decimal integer that fits in 64 bits, or the text after
it is not one; and when it returns an error only the reader has changed, so
that no meter value has. -/
theorem C13_meter_error_iff_malformed (d : Decoder) (v rest : List Nat) (hv : ∀ b ∈ v, b ≠ 10)
    (htarget : d.inFileHeader = true ∨
      ∃ t, d.Tunes.getLast? = some t ∧ (d.tuneHeaderDone = true → t.Measures ≠ []))
    (hbuf : d.r.buf = 77 :: 58 :: (v ++ 10 :: rest)) :
    ((∃ d', readInformationField false d = .err d') ↔
      (47 ∉ fieldText v ∨ ¬ fitsUint64 (beforeSlash (fieldText v)) ∨
        ¬ fitsUint64 (afterSlash (fieldText v)))) ∧
    (∀ d', readInformationField false d = .err d' →
      d' = { d with r := { buf := rest, lastByte := some 10 } }) ∧
    (isFieldValue v → fieldText v = v) := by
  have hL : isFieldLetter 77 := by unfold isFieldLetter; omega
  rw [readInformationField_letter d 77 v rest hL hv hbuf]
  have hdisp : ∀ D : Decoder,
      dispatchField 77 (fieldText v) D = meterField (fieldText v) D := by
    intro D; simp [dispatchField]
  rw [hdisp]
  have h := meterField_err (fieldText v) { d with r := { buf := rest, lastByte := some 10 } } htarget
  exact ⟨h.1, h.2, fieldText_of_isFieldValue⟩

/-- Witness of C13 on the line `M:3-4 %x`, whose value `3-4` has no `/`. -/
theorem C13_meter_error_witness :
    ((∃ d', readInformationField false
        { r := { buf := bytes "M:3-4 %x\n" }, inFileHeader := true } = .err d') ↔
      (47 ∉ fieldText (bytes "3-4 %x") ∨ ¬ fitsUint64 (beforeSlash (fieldText (bytes "3-4 %x"))) ∨
        ¬ fitsUint64 (afterSlash (fieldText (bytes "3-4 %x"))))) ∧
    (∀ d', readInformationField false
        { r := { buf := bytes "M:3-4 %x\n" }, inFileHeader := true } = .err d' →
      d' = { r := { buf := [], lastByte := some 10 }, inFileHeader := true }) ∧
    (isFieldValue (bytes "3-4 %x") → fieldText (bytes "3-4 %x") = bytes "3-4 %x") ∧
    fieldText (bytes "3-4 %x") = bytes "3-4" ∧
    (readInformationField false
        { r := { buf := bytes "M:3-4 %x\n" }, inFileHeader := true }).isErr = true :=
  ⟨(C13_meter_error_iff_malformed { r := { buf := bytes "M:3-4 %x\n" }, inFileHeader := true }
      (bytes "3-4 %x") [] (by decide) (Or.inl rfl) rfl).1,
   (C13_meter_error_iff_malformed { r := { buf := bytes "M:3-4 %x\n" }, inFileHeader := true }
      (bytes "3-4 %x") [] (by decide) (Or.inl rfl) rfl).2.1,
   (C13_meter_error_iff_malformed { r := { buf := bytes "M:3-4 %x\n" }, inFileHeader := true }
      (bytes "3-4 %x") [] (by decide) (Or.inl rfl) rfl).2.2,
   by decide, by decide⟩

/-- Counterexample to C13 as stated: in `M:18446744073709551616/4` the value has
a `/` with an unsigned decimal integer on each side, and the field is rejected,
because `2^64` does not fit the `uint64` that `strconv.ParseUint` returns; and
in `M:3/4 ` (with a trailing space) the text after the `/` is not an unsigned
decimal integer, and the field is accepted with the meter `3/4`, because the
line reader trims the line. -/
theorem C13_meter_overflow_counterexample :
    ((readInformationField false
      { r := { buf := bytes "M:18446744073709551616/4\n" }, inFileHeader := true }).isErr = true ∧
    47 ∈ bytes "18446744073709551616/4" ∧
    isUintText (beforeSlash (bytes "18446744073709551616/4")) = true ∧
    isUintText (afterSlash (bytes "18446744073709551616/4")) = true) ∧
    (readInformationField false { r := { buf := bytes "M:3/4 \n" }, inFileHeader := true } =
      .ok ⟨⟩ { r := { buf := [], lastByte := some 10 }, inFileHeader := true
               MeterTop := 3, MeterBottom := 4 } ∧
    afterSlash (bytes "3/4 ") = bytes "4 " ∧
    isUintText (afterSlash (bytes "3/4 ")) = false) := by
  decide

/-- C14: on the line `M:t/b` with `t` and `b` unsigned decimal integers that fit
in 64 bits: in the file header only the file-scope meter of the decoder becomes
`t`, `b`; otherwise, before the key, only the meter of the last tune does;
otherwise only the meter of the last measure of the last tune does.  Nothing
else changes but the reader.  (Outside the file header the last tune, and after
the key its last measure, are supposed to exist.) -/
theorem C14_meter_target (d : Decoder) (t b rest : List Nat)
    (ts : List Tune) (tn : Tune) (ms : List Measure) (m : Measure)
    (ht : fitsUint64 t) (hb : fitsUint64 b)
    (hT : d.inFileHeader = false → d.Tunes = ts ++ [tn])
    (hM : d.inFileHeader = false → d.tuneHeaderDone = true → tn.Measures = ms ++ [m])
    (hbuf : d.r.buf = 77 :: 58 :: (t ++ 47 :: b ++ 10 :: rest)) :
    readInformationField false d = .ok ⟨⟩
      (if d.inFileHeader = true then
        { d with
          r := { buf := rest, lastByte := some 10 }
          MeterTop := natOfDigits t
          MeterBottom := natOfDigits b }
      else if d.tuneHeaderDone = false then
        { d with
          r := { buf := rest, lastByte := some 10 }
          Tunes := ts ++ [{ tn with MeterTop := natOfDigits t, MeterBottom := natOfDigits b }] }
      else
        { d with
          r := { buf := rest, lastByte := some 10 }
          Tunes := ts ++ [{ tn with
            Measures := ms ++ [{ m with MeterTop := natOfDigits t, MeterBottom := natOfDigits b }] }] })
      := by
  have ht' : ∀ x ∈ t, isDigitByte x = true := by
    have := ht.1
    simp only [isUintText, Bool.and_eq_true, List.all_eq_true] at this
    exact this.2
  have hb' : ∀ x ∈ b, isDigitByte x = true := by
    have := hb.1
    simp only [isUintText, Bool.and_eq_true, List.all_eq_true] at this
    exact this.2
  have hbne : b ≠ [] := by
    have := hb.1
    simp only [isUintText, Bool.and_eq_true, Bool.not_eq_true', List.isEmpty_eq_false] at this
    exact this.1
  have hL : isFieldLetter 77 := by unfold isFieldLetter; omega
  rw [readInformationField_field d 77 (t ++ 47 :: b) rest hL (isFieldValue_meter ht' hb' hbne)
    (by simpa using hbuf)]
  have hdisp : ∀ D : Decoder, dispatchField 77 (t ++ 47 :: b) D = meterField (t ++ 47 :: b) D := by
    intro D; simp [dispatchField]
  rw [hdisp]
  unfold meterField
  simp only [slash_split ht', List.take_left', List.drop_left', ParseUint_of_fits ht,
    show List.drop (t.length + 1) (t ++ 47 :: b) = b by
      rw [← List.drop_drop]; simp,
    ParseUint_of_fits hb]
  by_cases hf : d.inFileHeader = true
  · simp [hf]
  · have hf' : d.inFileHeader = false := by simpa using hf
    have hTs := hT hf'
    by_cases hd : d.tuneHeaderDone = true
    · have hMs := hM hf' hd
      simp [hf', hTs, hd, hMs, updLast_append]
    · have hd' : d.tuneHeaderDone = false := by simpa using hd
      simp [hf', hTs, hd', updLast_append]

/-- Witness of C14: `M:3/4` in a tune body with two measures. -/
theorem C14_meter_target_witness :
    readInformationField false
        { r := { buf := bytes "M:3/4\nA\n" }
          tuneHeaderDone := true
          Tunes := [{ MeterTop := 6, MeterBottom := 8
                      Measures := [{ NoteGroups := [{}] }, { NoteGroups := [{}] }] }] } =
      .ok ⟨⟩
        (if false = true then
          { r := { buf := bytes "A\n", lastByte := some 10 }
            tuneHeaderDone := true
            MeterTop := natOfDigits (bytes "3")
            MeterBottom := natOfDigits (bytes "4")
            Tunes := [{ MeterTop := 6, MeterBottom := 8
                        Measures := [{ NoteGroups := [{}] }, { NoteGroups := [{}] }] }] }
        else if true = false then
          { r := { buf := bytes "A\n", lastByte := some 10 }
            tuneHeaderDone := true
            Tunes := [] ++ [{ MeterTop := natOfDigits (bytes "3"), MeterBottom := natOfDigits (bytes "4")
                              Measures := [{ NoteGroups := [{}] }, { NoteGroups := [{}] }] }] }
        else
          { r := { buf := bytes "A\n", lastByte := some 10 }
            tuneHeaderDone := true
            Tunes := [] ++ [{ MeterTop := 6, MeterBottom := 8
                              Measures := [{ NoteGroups := [{}] }] ++
                                [{ MeterTop := natOfDigits (bytes "3")
                                   MeterBottom := natOfDigits (bytes "4")
                                   NoteGroups := [{}] }] }] }) :=
  C14_meter_target
    { r := { buf := bytes "M:3/4\nA\n" }
      tuneHeaderDone := true
      Tunes := [{ MeterTop := 6, MeterBottom := 8
                  Measures := [{ NoteGroups := [{}] }, { NoteGroups := [{}] }] }] }
    (bytes "3") (bytes "4") (bytes "A\n") []
    { MeterTop := 6, MeterBottom := 8, Measures := [{ NoteGroups := [{}] }, { NoteGroups := [{}] }] }
    [{ NoteGroups := [{}] }] { NoteGroups := [{}] }
    ⟨by decide, by decide⟩ ⟨by decide, by decide⟩ (fun _ => rfl) (fun _ _ => rfl) rfl

/-- C15: for a letter `L` among `A B C F G N O R r S Z` and a field value `v`,
the line `L:v` sets the field that `L` names to exactly `v`, in the decoder when
`inFileHeader` is set and in the last tune (supposed to exist) otherwise, and
changes nothing else but the reader. -/
theorem C15_scalar_field_overwrite (d : Decoder) (L : Nat) (v rest : List Nat) (ts : List Tune) (tn : Tune)
    (hL : L ∈ [65, 66, 67, 70, 71, 78, 79, 82, 114, 83, 90]) (hv : isFieldValue v)
    (hT : d.inFileHeader = false → d.Tunes = ts ++ [tn])
    (hbuf : d.r.buf = L :: 58 :: (v ++ 10 :: rest)) :
    readInformationField false d = .ok ⟨⟩
      (if d.inFileHeader = true then
        Decoder.setField L v { d with r := { buf := rest, lastByte := some 10 } }
      else
        { d with
          r := { buf := rest, lastByte := some 10 }
          Tunes := ts ++ [Tune.setField L v tn] }) := by
  have hletter : isFieldLetter L := by
    simp only [List.mem_cons, List.mem_singleton, List.not_mem_nil, or_false] at hL
    unfold isFieldLetter
    omega
  rw [readInformationField_field d L v rest hletter hv hbuf]
  simp only [List.mem_cons, List.mem_singleton, List.not_mem_nil, or_false] at hL
  by_cases hf : d.inFileHeader = true
  · rcases hL with h | h | h | h | h | h | h | h | h | h | h <;> subst h <;>
      simp [dispatchField, Decoder.setField, hf]
  · have hf' : d.inFileHeader = false := by simpa using hf
    have hTs := hT hf'
    rcases hL with h | h | h | h | h | h | h | h | h | h | h <;> subst h <;>
      simp [dispatchField, Tune.setField, hf', setLastTune, hTs, updLast_append]

/-- Witness of C15: `C:Trad. arr` replaces the composer of the last tune. -/
theorem C15_scalar_field_overwrite_witness :
    readInformationField false
        { r := { buf := bytes "C:Trad. arr\nK:C\n" }
          Composer := bytes "file"
          Tunes := [{ ReferenceNumber := 1, Composer := bytes "old" }] } =
      .ok ⟨⟩
        (if false = true then
          Decoder.setField 67 (bytes "Trad. arr")
            { r := { buf := bytes "K:C\n", lastByte := some 10 }
              Composer := bytes "file"
              Tunes := [{ ReferenceNumber := 1, Composer := bytes "old" }] }
        else
          { r := { buf := bytes "K:C\n", lastByte := some 10 }
            Composer := bytes "file"
            Tunes := [] ++ [Tune.setField 67 (bytes "Trad. arr")
              { ReferenceNumber := 1, Composer := bytes "old" }] }) :=
  C15_scalar_field_overwrite
    { r := { buf := bytes "C:Trad. arr\nK:C\n" }
      Composer := bytes "file"
      Tunes := [{ ReferenceNumber := 1, Composer := bytes "old" }] }
    67 (bytes "Trad. arr") (bytes "K:C\n") [] { ReferenceNumber := 1, Composer := bytes "old" }
    (by decide) ⟨by decide, by decide⟩ (fun _ => rfl) rfl

/-- C16 (refuted by the code): on the line `+:v`, outside the file header and
without any tune, when the last field among `D H W w` was `D` or `H` (read in
the file header), `readInformationField` indexes `d.Tunes[len(d.Tunes)-1]` out
of range and panics; so it does whenever the last such field was `W` or `w` and
there is no tune.  Where the target exists, a newline and the value `v'` that
the line reader returns for `v` (the text of `v` up to the first `%`, without
trailing white space; `v` itself for a field value) are appended to the
discography (`D`) or the history (`H`), of the decoder when `inFileHeader` is
set and of the last tune otherwise, or to the words of the last tune (`W`,
`w`); when no such field was read, nothing changes.  Nothing else changes but
the reader. -/
theorem C16_continuation_without_tune_panics (d : Decoder) (v rest : List Nat) (ts : List Tune)
    (tn : Tune) (hv : ∀ b ∈ v, b ≠ 10)
    (hbuf : d.r.buf = 43 :: 58 :: (v ++ 10 :: rest)) :
    (d.lastInformationField = [68] ∨ d.lastInformationField = [72] → d.inFileHeader = false →
      d.Tunes = [] → readInformationField false d = .panic) ∧
    (d.lastInformationField = [87] ∨ d.lastInformationField = [119] → d.Tunes = [] →
      readInformationField false d = .panic) ∧
    (d.lastInformationField = [68] → d.inFileHeader = true →
      readInformationField false d = .ok ⟨⟩ { d with
        r := { buf := rest, lastByte := some 10 }
        Discography := d.Discography ++ 10 :: fieldText v }) ∧
    (d.lastInformationField = [68] → d.inFileHeader = false → d.Tunes = ts ++ [tn] →
      readInformationField false d = .ok ⟨⟩ { d with
        r := { buf := rest, lastByte := some 10 }
        Tunes := ts ++ [{ tn with Discography := tn.Discography ++ 10 :: fieldText v }] }) ∧
    (d.lastInformationField = [72] → d.inFileHeader = true →
      readInformationField false d = .ok ⟨⟩ { d with
        r := { buf := rest, lastByte := some 10 }
        History := d.History ++ 10 :: fieldText v }) ∧
    (d.lastInformationField = [72] → d.inFileHeader = false → d.Tunes = ts ++ [tn] →
      readInformationField false d = .ok ⟨⟩ { d with
        r := { buf := rest, lastByte := some 10 }
        Tunes := ts ++ [{ tn with History := tn.History ++ 10 :: fieldText v }] }) ∧
    (d.lastInformationField = [87] ∨ d.lastInformationField = [119] → d.Tunes = ts ++ [tn] →
      readInformationField false d = .ok ⟨⟩ { d with
        r := { buf := rest, lastByte := some 10 }
        Tunes := ts ++ [{ tn with Words := tn.Words ++ 10 :: fieldText v }] }) ∧
    (d.lastInformationField = [] →
      readInformationField false d = .ok ⟨⟩ { d with
        r := { buf := rest, lastByte := some 10 } }) ∧
    (isFieldValue v → fieldText v = v) := by
  have hL : isFieldLetter 43 := by unfold isFieldLetter; omega
  rw [readInformationField_letter d 43 v rest hL hv hbuf]
  have hdisp : ∀ D : Decoder,
      dispatchField 43 (fieldText v) D = continuationField (fieldText v) D := by
    intro D; simp [dispatchField]
  rw [hdisp]
  refine ⟨?_, ?_, ?_, ?_, ?_, ?_, ?_, ?_, fieldText_of_isFieldValue⟩
  · intro h1 h2 hT
    rcases h1 with h1 | h1 <;> simp [continuationField, h1, h2, setLastTune, hT]
  · intro h1 hT
    rcases h1 with h1 | h1 <;> simp [continuationField, h1, setLastTune, hT]
  · intro h1 h2
    simp [continuationField, h1, h2]
  · intro h1 h2 hT
    simp [continuationField, h1, h2, setLastTune, hT, updLast_append]
  · intro h1 h2
    simp [continuationField, h1, h2]
  · intro h1 h2 hT
    simp [continuationField, h1, h2, setLastTune, hT, updLast_append]
  · intro h1 hT
    rcases h1 with h1 | h1 <;>
      simp [continuationField, h1, setLastTune, hT, updLast_append]
  · intro h1
    simp [continuationField, h1]

/-- Witness of C16: the file header `D:x`, the blank line and the line `+:y`.
The line `+:y` is read in the state the file header leaves, without any tune,
and `Decode` on the whole stream panics. -/
theorem C16_continuation_without_tune_panics_witness :
    readFileHeader 10 { r := { buf := bytes "D:x\n\n+:y\n" }, fileCheck := true } =
      .ok ⟨⟩ { r := { buf := bytes "\n+:y\n", lastByte := none }
               fileCheck := true
               lastInformationField := [68]
               Discography := bytes "x" } ∧
    readInformationField false
        { r := { buf := bytes "+:y\n", lastByte := some 10 }
          fileCheck := true
          lastInformationField := [68]
          Discography := bytes "x" } = .panic ∧
    Decode (fun _ => none) 10 (NewDecoder (bytes "D:x\n\n+:y\n") true) = .panic :=
  ⟨by decide,
   (C16_continuation_without_tune_panics
      { r := { buf := bytes "+:y\n", lastByte := some 10 }
        fileCheck := true
        lastInformationField := [68]
        Discography := bytes "x" }
      (bytes "y") [] [] {} (by decide) rfl).1 (Or.inl rfl) rfl rfl,
   by decide⟩

/-- C17 (refuted by the code): on a line whose comment-stripped, trimmed text is
shorter than two bytes, `readInformationField(false)` indexes `fullLine[0]` or
`fullLine[1]` out of range and panics; on a text of two bytes or more whose
second byte is not `:` it returns no error and changes only the reader. -/
theorem C17_short_line_panics (d : Decoder) (l rest : List Nat)
    (hbuf : d.r.buf = l ++ 10 :: rest) (hl : ∀ b ∈ l, b ≠ 10) (hc : l.head? ≠ some 37) :
    ((lineText l).length < 2 → readInformationField false d = .panic) ∧
    (∀ a b t, lineText l = a :: b :: t → b ≠ 58 →
      readInformationField false d =
        .ok ⟨⟩ { d with r := { buf := rest, lastByte := some 10 } }) := by
  constructor
  · exact readInformationField_short d l rest hbuf hl hc
  · intro a b t heq hb
    rw [readInformationField_line d l rest hbuf hl hc, heq]
    simp [processField, hb]

/-- Witness of C17 on a blank line. -/
theorem C17_short_line_panics_witness :
    ((lineText []).length < 2 →
      readInformationField false { r := { buf := bytes "\nA\n" } } = .panic) ∧
    (∀ a b t, lineText [] = a :: b :: t → b ≠ 58 →
      readInformationField false { r := { buf := bytes "\nA\n" } } =
        .ok ⟨⟩ { r := { buf := bytes "A\n", lastByte := some 10 } }) :=
  C17_short_line_panics { r := { buf := bytes "\nA\n" } } [] (bytes "A\n") rfl (by decide) (by decide)

/-- C18 (refuted by the code): `readInline` keeps the opening bracket, so that
on `[L:v]` the second byte of the text is the letter `L` and not `:`;
`readInformationField(true)` then returns no error and changes only the reader,
whatever the field. -/
theorem C18_inline_field_has_no_effect (d : Decoder) (L : Nat) (v rest : List Nat) (hL : L ≠ 58)
    (hno : ∀ b ∈ L :: 58 :: v, b ≠ 93)
    (hbuf : d.r.buf = 91 :: L :: 58 :: (v ++ 93 :: rest)) :
    readInformationField true d =
      .ok ⟨⟩ { d with r := { buf := rest, lastByte := some 93 } } := by
  have hs := skipComments_head hbuf (by decide)
  have hsp := splitAfter_run 93 (91 :: L :: 58 :: v) rest (by
    intro b hb
    rcases List.mem_cons.mp hb with hb | hb
    · omega
    · exact hno b hb)
  have hsp' : splitAfter 93 (91 :: L :: 58 :: (v ++ 93 :: rest)) =
      some (91 :: L :: 58 :: (v ++ [93]), rest) := by simpa using hsp
  rw [readInformationField]
  simp only [Bool.not_true, Bool.false_eq_true, if_false, hs, readInline, Reader.Peek, hbuf,
    Reader.ReadBytes, hsp']
  simp [processField, hL]

/-- Witness of C18: the inline field `[K:C]` changes nothing, whereas the line
`K:C` sets the key of the last tune and `tuneHeaderDone`. -/
theorem C18_inline_field_has_no_effect_witness :
    readInformationField true
        { r := { buf := bytes "[K:C]A\n" }, Tunes := [{ ReferenceNumber := 1 }] } =
      .ok ⟨⟩ { r := { buf := bytes "A\n", lastByte := some 93 }
               Tunes := [{ ReferenceNumber := 1 }] } ∧
    readInformationField false
        { r := { buf := bytes "K:C\nA\n" }, Tunes := [{ ReferenceNumber := 1 }] } =
      .ok ⟨⟩ { r := { buf := bytes "A\n", lastByte := some 10 }
               tuneHeaderDone := true
               Tunes := [{ ReferenceNumber := 1, Key := bytes "C" }] } :=
  ⟨C18_inline_field_has_no_effect { r := { buf := bytes "[K:C]A\n" }, Tunes := [{ ReferenceNumber := 1 }] }
      75 (bytes "C") (bytes "A\n") (by decide) (by decide) rfl,
   by decide⟩

/-- C19 (refuted by the code): `readTuneHeader` panics, instead of returning an
error, when the text of its first line is shorter than two bytes, and when that
line is a field stored in the last tune (`T:`, `K:`, `A:`, ...) while the
decoder has no tune yet. -/
theorem C19_tune_header_panics (fuel : Nat) (d : Decoder) :
    (∀ l rest, d.r.buf = l ++ 10 :: rest → (∀ b ∈ l, b ≠ 10) → l.head? ≠ some 37 →
      (lineText l).length < 2 → readTuneHeader fuel d = .panic) ∧
    (∀ L v rest, L ∈ [65, 66, 67, 68, 70, 71, 72, 75, 78, 79, 82, 83, 84, 87, 90, 114, 119] →
      isFieldValue v → d.Tunes = [] → d.inFileHeader = false →
      d.r.buf = L :: 58 :: (v ++ 10 :: rest) → readTuneHeader fuel d = .panic) := by
  constructor
  · intro l rest hbuf hl hc hshort
    unfold readTuneHeader
    rw [readInformationField_short d l rest hbuf hl hc hshort]
  · intro L v rest hL hv hT hf hbuf
    unfold readTuneHeader
    rw [readInformationField_no_tune d L v rest hL hv hT hf hbuf]

/-- Witness of C19: a blank first line, a first line `T:t` without any tune, and
a blank line after the line `X:1`. -/
theorem C19_tune_header_panics_witness :
    readTuneHeader 10 { r := { buf := bytes "\nX:1\nT:t\nK:C\n" } } = .panic ∧
    readTuneHeader 10 { r := { buf := bytes "T:t\nX:1\nK:C\n" } } = .panic ∧
    readTuneHeader 10 { r := { buf := bytes "X:1\n\nT:t\nK:C\n" } } = .panic :=
  ⟨(C19_tune_header_panics 10 { r := { buf := bytes "\nX:1\nT:t\nK:C\n" } }).1 [] (bytes "X:1\nT:t\nK:C\n")
      rfl (by decide) (by decide) (by decide),
   (C19_tune_header_panics 10 { r := { buf := bytes "T:t\nX:1\nK:C\n" } }).2 84 (bytes "t") (bytes "X:1\nK:C\n")
      (by decide) ⟨by decide, by decide⟩ rfl rfl rfl,
   by decide⟩

/-- C20: with a current measure and a stream that starts with a barline token
`b1 b2`, `readElement` appends one measure with one empty note group; the
measure that was last gets `ThickEnd` when `b1` is `[` and `RepeatEnd` when `b1`
is `:`; the new measure gets `BarlineStart`, `ThickStart` or `RepeatStart` when
`b2` is `|`, `[` or `:`, and then `b2` is consumed too; nothing else changes. -/
theorem C20_barline_starts_measure (d : Decoder) (ts : List Tune) (t : Tune) (ms : List Measure) (m : Measure)
    (b1 b2 : Nat) (rest : List Nat)
    (hT : d.Tunes = ts ++ [t]) (hM : t.Measures = ms ++ [m])
    (hbar : isBarline [b1, b2] = some true)
    (hbuf : d.r.buf = b1 :: b2 :: rest) :
    readElement d = .ok ⟨⟩ { d with
      r := if b2 = 124 ∨ b2 = 91 ∨ b2 = 58 then { buf := rest, lastByte := some b2 }
           else { buf := b2 :: rest, lastByte := none }
      Tunes := ts ++ [{ t with
        Measures := ms ++
          [if b1 = 91 then { m with ThickEnd := true }
           else if b1 = 58 then { m with RepeatEnd := true }
           else m,
           if b2 = 124 then { NoteGroups := [{ Units := [] }], BarlineStart := true }
           else if b2 = 91 then { NoteGroups := [{ Units := [] }], ThickStart := true }
           else if b2 = 58 then { NoteGroups := [{ Units := [] }], RepeatStart := true }
           else { NoteGroups := [{ Units := [] }] }] }] } := by
  have hgl : ∀ {α : Type} (l : List α) (a : α), (l ++ [a]).getLast? = some a := by
    intro α l a; simp
  have hTl : d.Tunes.getLast? = some t := by rw [hT]; exact hgl _ _
  have hMl : t.Measures.getLast? = some m := by rw [hM]; exact hgl _ _
  have hup2 : ∀ (f : Measure → Measure) (x y : Measure),
      updLast f (ms ++ [x, y]) = ms ++ [x, f y] := by
    intro f x y
    have := updLast_append f (ms ++ [x]) y
    simpa using this
  rcases isBarline_pair hbar with h | ⟨h1, h2⟩ | ⟨h1, h2⟩
  · subst h
    by_cases h124 : b2 = 124
    · subst h124
      simp [readElement, hTl, hMl, peekLexToken, Reader.Peek, hbuf, isNote, isRest, isPitch, por,
        isOctaveMark, isPitchLetter, isAnnotation, isSpace, isBarline, readBarline,
        Reader.ReadByte, updCurrentMeasure, hT, hM, updLast_append, hup2]
    · by_cases h91 : b2 = 91
      · subst h91
        simp [readElement, hTl, hMl, peekLexToken, Reader.Peek, hbuf, isNote, isRest, isPitch,
          por, isOctaveMark, isPitchLetter, isAnnotation, isSpace, isBarline, readBarline,
          Reader.ReadByte, updCurrentMeasure, hT, hM, updLast_append, hup2]
      · by_cases h58 : b2 = 58
        · subst h58
          simp [readElement, hTl, hMl, peekLexToken, Reader.Peek, hbuf, isNote, isRest, isPitch,
            por, isOctaveMark, isPitchLetter, isAnnotation, isSpace, isBarline, readBarline,
            Reader.ReadByte, updCurrentMeasure, hT, hM, updLast_append, hup2]
        · simp [readElement, hTl, hMl, peekLexToken, Reader.Peek, hbuf, isNote, isRest, isPitch,
            por, isOctaveMark, isPitchLetter, isAnnotation, isSpace, isBarline, readBarline,
            Reader.ReadByte, updCurrentMeasure, hT, hM, updLast_append, h124, h91, h58]
  · subst h1; subst h2
    simp [readElement, hTl, hMl, peekLexToken, Reader.Peek, hbuf, isNote, isRest, isPitch, por,
      isOctaveMark, isPitchLetter, isAnnotation, isSpace, isBarline, readBarline,
      Reader.ReadByte, updCurrentMeasure, hT, hM, updLast_append, hup2]
  · subst h1; subst h2
    simp [readElement, hTl, hMl, peekLexToken, Reader.Peek, hbuf, isNote, isRest, isPitch, por,
      isOctaveMark, isPitchLetter, isAnnotation, isSpace, isBarline, readBarline,
      Reader.ReadByte, updCurrentMeasure, hT, hM, updLast_append, hup2]

/-- Witness of C20 on the text `:|:A`. -/
theorem C20_barline_starts_measure_witness :
    readElement
        { r := { buf := bytes ":|:A" }
          Tunes := [{ Measures := [{ NoteGroups := [{ Units := [Unit.note ⟨bytes "c", F64.one⟩] }] }] }] } =
      .ok ⟨⟩
        { r := if 124 = 124 ∨ 124 = 91 ∨ 124 = 58 then { buf := bytes ":A", lastByte := some 124 }
               else { buf := 124 :: bytes ":A", lastByte := none }
          Tunes := [] ++ [{
            Measures := [] ++
              [if 58 = 91 then
                 { NoteGroups := [{ Units := [Unit.note ⟨bytes "c", F64.one⟩] }], ThickEnd := true }
               else if 58 = 58 then
                 { NoteGroups := [{ Units := [Unit.note ⟨bytes "c", F64.one⟩] }], RepeatEnd := true }
               else { NoteGroups := [{ Units := [Unit.note ⟨bytes "c", F64.one⟩] }] },
               if 124 = 124 then { NoteGroups := [{ Units := [] }], BarlineStart := true }
               else if 124 = 91 then { NoteGroups := [{ Units := [] }], ThickStart := true }
               else if 124 = 58 then { NoteGroups := [{ Units := [] }], RepeatStart := true }
               else { NoteGroups := [{ Units := [] }] }] }] } :=
  C20_barline_starts_measure
    { r := { buf := bytes ":|:A" }
      Tunes := [{ Measures := [{ NoteGroups := [{ Units := [Unit.note ⟨bytes "c", F64.one⟩] }] }] }] }
    [] { Measures := [{ NoteGroups := [{ Units := [Unit.note ⟨bytes "c", F64.one⟩] }] }] }
    [] { NoteGroups := [{ Units := [Unit.note ⟨bytes "c", F64.one⟩] }] }
    58 124 (bytes ":A") rfl rfl (by decide) rfl

/-- C21 (refuted by the code): `readFileHeader` overwrites the error of
`readInformationField` with the result of `Peek`.  Whenever it returns an error
the stream is exhausted, so no error ever reports a rejected field; on a file
header made of a line `M:v` without `/`, followed by the blank line, the field
reader rejects the line and `readFileHeader` returns no error; and `Decode` on
such a header followed by a tune returns no error either. -/
theorem C21_file_header_error_dropped (pf : List Nat → Option F64) (fuel : Nat) (v : List Nat)
    (hv : isFieldValue v) (hs : 47 ∉ v) :
    (∀ d d', readFileHeader fuel d = .err d' → d'.r.buf = []) ∧
    (∀ d rest, d.r.buf = 77 :: 58 :: (v ++ 10 :: 10 :: rest) →
      readInformationField false d =
        .err { d with r := { buf := 10 :: rest, lastByte := some 10 } } ∧
      readFileHeader (fuel + 1) d =
        .ok ⟨⟩ { d with r := { buf := 10 :: rest, lastByte := none }, inFileHeader := false }) ∧
    Decode pf (fuel + 3) (NewDecoder (77 :: 58 :: (v ++ bytes "\n\nX:1\nT:t\nK:C\n\n")) true) =
      .ok ⟨⟩
        { r := { buf := [], lastByte := some 10 }
          fileCheck := true
          tuneHeaderDone := true
          Tunes := [{ ReferenceNumber := 1, Title := bytes "t", Key := bytes "C",
                      Measures := [{ NoteGroups := [{}] }] }] } := by
  refine ⟨fun d d' h => readFileHeader_err fuel d d' h,
    fun d rest hbuf => readFileHeader_rejected_meter fuel v hv hs d rest hbuf, ?_⟩
  have hs1 : skipComments
      { r := { buf := 77 :: 58 :: (v ++ bytes "\n\nX:1\nT:t\nK:C\n\n"), lastByte := none },
        fileCheck := true } = _ :=
    skipComments_head rfl (by decide)
  have h1 := (readFileHeader_rejected_meter (fuel + 2) v hv hs
    { r := { buf := 77 :: 58 :: (v ++ bytes "\n\nX:1\nT:t\nK:C\n\n"), lastByte := none },
      fileCheck := true }
    (bytes "X:1\nT:t\nK:C\n\n") rfl).2
  simp only [Decode, NewDecoder, skipBOM, decodeFile, hs1]
  simp only [Bool.not_true, Bool.false_eq_true, if_false]
  rw [h1]
  rfl

/-- Witness of C21: the file header `M:3` before the tune `X:1`. -/
theorem C21_file_header_error_dropped_witness :
    readInformationField false { r := { buf := bytes "M:3\n\nX:1\nT:t\nK:C\n\n" } } =
      .err { r := { buf := bytes "\nX:1\nT:t\nK:C\n\n", lastByte := some 10 } } ∧
    readFileHeader 10 { r := { buf := bytes "M:3\n\nX:1\nT:t\nK:C\n\n" } } =
      .ok ⟨⟩ { r := { buf := bytes "\nX:1\nT:t\nK:C\n\n", lastByte := none } } ∧
    Decode (fun _ => none) 12 (NewDecoder (bytes "M:3\n\nX:1\nT:t\nK:C\n\n") true) =
      .ok ⟨⟩
        { r := { buf := [], lastByte := some 10 }
          fileCheck := true
          tuneHeaderDone := true
          Tunes := [{ ReferenceNumber := 1, Title := bytes "t", Key := bytes "C",
                      Measures := [{ NoteGroups := [{}] }] }] } :=
  ⟨((C21_file_header_error_dropped (fun _ => none) 9 (bytes "3") ⟨by decide, by decide⟩
      (by decide)).2.1 { r := { buf := bytes "M:3\n\nX:1\nT:t\nK:C\n\n" } }
      (bytes "X:1\nT:t\nK:C\n\n") rfl).1,
   ((C21_file_header_error_dropped (fun _ => none) 9 (bytes "3") ⟨by decide, by decide⟩
      (by decide)).2.1 { r := { buf := bytes "M:3\n\nX:1\nT:t\nK:C\n\n" } }
      (bytes "X:1\nT:t\nK:C\n\n") rfl).2,
   (C21_file_header_error_dropped (fun _ => none) 9 (bytes "3") ⟨by decide, by decide⟩
      (by decide)).2.2⟩

/-- C22 (refuted by the code): on a first line that is the four-byte marker
`%abc` alone, `readMagicNumber` takes the slice `line[5 : len(line)-1]` with
`len(line) = 5` and panics; on the marker and one more byte `s` before the
newline it returns no error and changes nothing but the reader, so that
`Version` keeps its value. -/
theorem C22_bare_marker_panics (pf : List Nat → Option F64) (d : Decoder) (rest : List Nat) :
    (d.r.buf = 37 :: 97 :: 98 :: 99 :: 10 :: rest → readMagicNumber pf d = .panic) ∧
    (∀ s, s ≠ 10 → d.r.buf = 37 :: 97 :: 98 :: 99 :: s :: 10 :: rest →
      readMagicNumber pf d = .ok ⟨⟩ { d with r := { buf := rest, lastByte := some 10 } }) := by
  constructor
  · intro hbuf
    simp [readMagicNumber, Reader.ReadBytes, hbuf, splitAfter]
  · intro s hs hbuf
    simp [readMagicNumber, Reader.ReadBytes, hbuf, splitAfter, hs]

/-- Witness of C22: the first lines `%abc` and `%abc-` before the tune `X:1`. -/
theorem C22_bare_marker_panics_witness :
    readMagicNumber (fun _ => none) (NewDecoder (bytes "%abc\nX:1\n") false) = .panic ∧
    readMagicNumber (fun _ => none) (NewDecoder (bytes "%abc-\nX:1\n") false) =
      .ok ⟨⟩ { r := { buf := bytes "X:1\n", lastByte := some 10 } } :=
  ⟨(C22_bare_marker_panics (fun _ => none) (NewDecoder (bytes "%abc\nX:1\n") false)
      (bytes "X:1\n")).1 rfl,
   (C22_bare_marker_panics (fun _ => none) (NewDecoder (bytes "%abc-\nX:1\n") false)
      (bytes "X:1\n")).2 45 (by decide) rfl⟩

/-- C23 (refuted by the code): in the state that `readTuneHeader` leaves, let a
line of the tune body be followed by a line that starts with a byte `x` other
than a newline and `%`.  After a meter line `M:t/b`, and after a line made of a
note and a `%` comment, `readTuneBody` takes `x` for the newline of the line
read, and returns no error with the rest of the following line unread: no note
of that line is appended to the tune, and `x` is lost. -/
theorem C23_following_line_not_read (fuel : Nat) (d : Decoder) (x : Nat) (rest : List Nat)
    (ts : List Tune) (tn : Tune)
    (hf : d.inFileHeader = false) (hd : d.tuneHeaderDone = true)
    (hh : d.halveDuration = false) (hdd : d.doubleDuration = false)
    (hT : d.Tunes = ts ++ [tn]) (hx10 : x ≠ 10) (hx37 : x ≠ 37) :
    (∀ t b, fitsUint64 t → fitsUint64 b →
      d.r.buf = 77 :: 58 :: (t ++ 47 :: b ++ 10 :: x :: rest) →
      readTuneBody (fuel + 2) d = .ok ⟨⟩
        { d with
          r := { buf := rest, lastByte := some x }
          Tunes := ts ++ [{ tn with
            Measures := [{ MeterTop := natOfDigits t, MeterBottom := natOfDigits b,
                           NoteGroups := [{}] }] }] }) ∧
    (∀ p c, isPitchLetter p = true → (∀ b ∈ c, b ≠ 10) →
      d.r.buf = p :: 37 :: (c ++ 10 :: x :: rest) →
      readTuneBody (fuel + 3) d = .ok ⟨⟩
        { d with
          r := { buf := rest, lastByte := some x }
          Tunes := ts ++ [{ tn with
            Measures := [{ NoteGroups := [{ Units := [Unit.note ⟨[p], F64.one⟩] }] }] }] }) :=
  ⟨fun t b ht hb hbuf => readTuneBody_meter_line fuel d t b x rest ts tn ht hb hf hd hT hx10 hx37 hbuf,
   fun p c hp hc hbuf =>
    readTuneBody_comment_line fuel d p c x rest ts tn hp hc hx10 hx37 hh hdd hT hbuf⟩

/-- Witness of C23: the bodies `M:3/4`, `ABC` and `A%c`, `CD` of the tune `X:1`,
and the whole file with the first body, on which `Decode` returns no error and
a tune without any note. -/
theorem C23_following_line_not_read_witness :
    readTuneBody 10
        { r := { buf := bytes "M:3/4\nABC\n\n" }
          tuneHeaderDone := true
          Tunes := [{ ReferenceNumber := 1, Title := bytes "t", Key := bytes "C" }] } =
      .ok ⟨⟩
        { r := { buf := bytes "BC\n\n", lastByte := some 65 }
          tuneHeaderDone := true
          Tunes := [{ ReferenceNumber := 1, Title := bytes "t", Key := bytes "C",
                      Measures := [{ MeterTop := 3, MeterBottom := 4, NoteGroups := [{}] }] }] } ∧
    readTuneBody 10
        { r := { buf := bytes "A%c\nCD\n\n" }
          tuneHeaderDone := true
          Tunes := [{ ReferenceNumber := 1, Title := bytes "t", Key := bytes "C" }] } =
      .ok ⟨⟩
        { r := { buf := bytes "D\n\n", lastByte := some 67 }
          tuneHeaderDone := true
          Tunes := [{ ReferenceNumber := 1, Title := bytes "t", Key := bytes "C",
                      Measures := [{ NoteGroups :=
                        [{ Units := [Unit.note ⟨bytes "A", F64.one⟩] }] }] }] } ∧
    Decode (fun _ => none) 20 (NewDecoder (bytes "A:x\n\nX:1\nT:t\nK:C\nM:3/4\nABC\n\n") true) =
      .ok ⟨⟩
        { r := { buf := bytes "\n", lastByte := some 10 }
          fileCheck := true
          tuneHeaderDone := true
          Area := bytes "x"
          Tunes := [{ ReferenceNumber := 1, Title := bytes "t", Key := bytes "C",
                      Measures := [{ MeterTop := 3, MeterBottom := 4, NoteGroups := [{}] }] }] } :=
  ⟨(C23_following_line_not_read 8
      { r := { buf := bytes "M:3/4\nABC\n\n" }
        tuneHeaderDone := true
        Tunes := [{ ReferenceNumber := 1, Title := bytes "t", Key := bytes "C" }] }
      65 (bytes "BC\n\n") [] { ReferenceNumber := 1, Title := bytes "t", Key := bytes "C" }
      rfl rfl rfl rfl rfl (by decide) (by decide)).1 (bytes "3") (bytes "4")
      ⟨by decide, by decide⟩ ⟨by decide, by decide⟩ rfl,
   (C23_following_line_not_read 7
      { r := { buf := bytes "A%c\nCD\n\n" }
        tuneHeaderDone := true
        Tunes := [{ ReferenceNumber := 1, Title := bytes "t", Key := bytes "C" }] }
      67 (bytes "D\n\n") [] { ReferenceNumber := 1, Title := bytes "t", Key := bytes "C" }
      rfl rfl rfl rfl rfl (by decide) (by decide)).2 65 (bytes "c") (by decide) (by decide) rfl,
   by decide⟩

/-- C24 (refuted by the code): on a stream that starts with a rest `z`, whose
two-byte lookahead satisfies `isElement`, `readElement` returns no error and
leaves the stream as it was, and `readABCLine` does not return whatever the
number of iterations allowed to its loop.  The rest is the only such element:
on every other element a call of `readElement` that returns no error leaves
fewer bytes in the stream than it found. -/
theorem C24_rest_consumes_nothing (d : Decoder) (t : Tune) (m : Measure) (c : Nat) (rest : List Nat)
    (hT : d.Tunes.getLast? = some t) (hM : t.Measures.getLast? = some m)
    (hbuf : d.r.buf = 122 :: c :: rest) :
    isElement (d.r.buf.take 2) = some true ∧
    (∃ d', readElement d = .ok ⟨⟩ d' ∧ d'.r.buf = d.r.buf) ∧
    (∀ fuel, readABCLine fuel d = .timeout) ∧
    (∀ e e', readElement e = .ok ⟨⟩ e' → isElement (e.r.buf.take 2) = some true →
      e.r.buf.head? ≠ some 122 → e'.r.buf.length < e.r.buf.length) := by
  refine ⟨by simp [hbuf, isElement, isNote, isRest, por],
    ⟨_, readElement_rest d t m c rest hT hM hbuf, by simp [hbuf]⟩, ?_,
    fun e e' h he hz => readElement_consumes e e' h he hz⟩
  intro fuel
  have hi : isTuneBodyInfoField [122, c] = false := by simp [isTuneBodyInfoField]
  simp only [readABCLine, peekLexToken, Reader.Peek, hbuf]
  simp [hi]
  exact elementLoop_rest c rest fuel _ t m hT hM rfl

/-- Witness of C24: the line `zA` in a tune body. -/
theorem C24_rest_consumes_nothing_witness :
    isElement ((bytes "zA\n").take 2) = some true ∧
    (∃ d', readElement
        { r := { buf := bytes "zA\n" }, Tunes := [{ Measures := [{ NoteGroups := [{}] }] }] } =
          .ok ⟨⟩ d' ∧ d'.r.buf = bytes "zA\n") ∧
    readABCLine 1000
      { r := { buf := bytes "zA\n" }, Tunes := [{ Measures := [{ NoteGroups := [{}] }] }] } =
        .timeout :=
  ⟨(C24_rest_consumes_nothing
      { r := { buf := bytes "zA\n" }, Tunes := [{ Measures := [{ NoteGroups := [{}] }] }] }
      { Measures := [{ NoteGroups := [{}] }] } { NoteGroups := [{}] } 65 (bytes "\n")
      rfl rfl rfl).1,
   (C24_rest_consumes_nothing
      { r := { buf := bytes "zA\n" }, Tunes := [{ Measures := [{ NoteGroups := [{}] }] }] }
      { Measures := [{ NoteGroups := [{}] }] } { NoteGroups := [{}] } 65 (bytes "\n")
      rfl rfl rfl).2.1,
   (C24_rest_consumes_nothing
      { r := { buf := bytes "zA\n" }, Tunes := [{ Measures := [{ NoteGroups := [{}] }] }] }
      { Measures := [{ NoteGroups := [{}] }] } { NoteGroups := [{}] } 65 (bytes "\n")
      rfl rfl rfl).2.2.1 1000⟩

end Abc
